import Mathlib

/-!
Stack-Machine ISA Simulator: the expression engine of `Project_code-5.c`.

A shallow embedding of the algorithmic core of the simulator: the token stack
(`init_stack`, `push`, `pop`, `peek`), the infix to postfix converter
(`infix_to_postfix_stepwise`), the postfix to infix builder
(`postfix_to_infix_stepwise`) and the numeric postfix evaluator
(`evaluate_postfix_numeric`).

Conventions of the embedding.

* A C string is a `List Char` (`CStr`); the terminating NUL is not part of the
  list, so `strlen` is `List.length`.
* The `ctype.h` predicates are those of the "C" locale (the program never calls
  `setlocale`).
* The curses calls only display the state; the messages that matter to a caller
  are kept as the constructor of the result (`mismatched`, `insufficient`, ...)
  and, for the "Unknown token encountered" message, as the list `unknown`.
* A `while (i < len)` loop that advances through the input string is
  `run_loop` applied to the body of the loop; it has a fuel argument, the entry
  points give it `strlen + 1` units, and the lemmas `run_loop_fuel` and
  `scan_total` show that this is always enough.
* `Stack.size` is the C `int` field; it is kept as a separate field next to the
  linked list of nodes, as in the source.
* The floating-point library (`double`, `atof`, `"%lf"`, `pow`) is a parameter
  of the evaluator, `FloatOps`; `decOps` is an instance with exact decimal
  arithmetic, used for concrete evaluations.
-/

namespace StackMachine

/-- A C string without its terminating NUL. -/
abbrev CStr := List Char

/-! ## `ctype.h` in the "C" locale -/

/-- `isspace`: space, `\t`, `\n`, `\v`, `\f`, `\r`. -/
def isspace (c : Char) : Bool := c = ' ' || (9 ≤ c.toNat && c.toNat ≤ 13)

/-- `isalpha`: `A`..`Z` and `a`..`z`. -/
def isalpha (c : Char) : Bool :=
  (65 ≤ c.toNat && c.toNat ≤ 90) || (97 ≤ c.toNat && c.toNat ≤ 122)

/-- `isdigit`: `0`..`9`. -/
def isdigit (c : Char) : Bool := 48 ≤ c.toNat && c.toNat ≤ 57

/-- `isalnum`: `isalpha` or `isdigit`. -/
def isalnum (c : Char) : Bool := isalpha c || isdigit c

/-- The first character `t[0]` of a C string: the NUL when the string is empty. -/
def first (t : CStr) : Char := t.headD (Char.ofNat 0)

/-! ## The token stack -/

/-- `struct Stack`: the linked list of nodes (top first) and the `size` field.
Each node holds a `char token[32]`. -/
structure Stack where
  top : List CStr
  size : Int
deriving DecidableEq, Repr

/-- `init_stack`. -/
def init_stack : Stack := ⟨[], 0⟩

/-- `is_empty`: `s->top == NULL`. -/
def is_empty (s : Stack) : Bool := s.top.isEmpty

/-- `push`: `strncpy(node->token, token, 31)` keeps at most 31 characters. -/
def push (s : Stack) (token : CStr) : Stack := ⟨token.take 31 :: s.top, s.size + 1⟩

/-- `pop`: `none` stands for `*error = 1` with the `NULL` result; the stack is
returned next to the popped token. -/
def pop (s : Stack) : Option CStr × Stack :=
  match s.top with
  | [] => (none, s)
  | t :: rest => (some t, ⟨rest, s.size - 1⟩)

/-- `peek`: `none` stands for `*error = 1`. -/
def peek (s : Stack) : Option CStr := s.top.head?

/-! ## Infix to postfix -/

/-- `is_operator_char`. -/
def is_operator_char (c : Char) : Bool :=
  c = '+' || c = '-' || c = '*' || c = '/' || c = '^'

/-- `precedence`. -/
def precedence (c : Char) : Nat :=
  if c = '^' then 3
  else if c = '*' ∨ c = '/' then 2
  else if c = '+' ∨ c = '-' then 1
  else 0

/-- `append_postfix`: the token and a space are appended only when they fit. -/
def append_postfix (buf token : CStr) (max_len : Nat) : CStr :=
  if buf.length + token.length + 2 < max_len then buf ++ token ++ [' '] else buf

/-- The characters an operand run is made of: `isalnum(c) || c == '.'`. -/
def isOperandChar (c : Char) : Bool := isalnum c || c = '.'

/-- The local state of `infix_to_postfix_stepwise`: the operator stack, the
`postfix` buffer and the characters reported as "Unknown token encountered". -/
structure ConvState where
  op_stack : Stack
  buf : CStr
  unknown : List Char
deriving DecidableEq, Repr

/-- How `infix_to_postfix_stepwise` ends: with the message "Error: mismatched
parentheses detected." or with the "Final Postfix Expression". -/
inductive ConvResult where
  | mismatched (unknown : List Char)
  | final (buf : CStr) (unknown : List Char)
deriving DecidableEq, Repr

/-- The loop of the `)` branch: `while (!error && top_op[0] != '(')` pop the
top and append it. The fuel bounds the number of iterations; each one removes a
node. -/
def paren_loop : Nat → Stack → CStr → Stack × CStr
  | 0, s, buf => (s, buf)
  | n + 1, s, buf =>
    match peek s with
    | none => (s, buf)
    | some top_op =>
      if first top_op ≠ '(' then
        let r := pop s
        paren_loop n r.2 ( append_postfix buf (r.1.getD []) 255)
      else (s, buf)

/-- The condition of the loop of the operator branch, `error` apart. -/
def op_cond (top_op : CStr) (op : Char) : Bool :=
  first top_op ≠ '(' &&
    (precedence (first top_op) > precedence op ||
      (precedence (first top_op) = precedence op && op ≠ '^'))

/-- The loop of the operator branch: pop and append while `op_cond` holds. -/
def op_loop : Nat → Char → Stack → CStr → Stack × CStr
  | 0, _, s, buf => (s, buf)
  | n + 1, op, s, buf =>
    match peek s with
    | none => (s, buf)
    | some top_op =>
      if op_cond top_op op then
        let r := pop s
        op_loop n op r.2 ( append_postfix buf (r.1.getD []) 255)
      else (s, buf)

/-- The loop "Pop remaining operators": `none` is the return with the
mismatched-parentheses message. -/
def final_loop : Nat → Stack → CStr → Option CStr
  | 0, _, buf => some buf
  | n + 1, s, buf =>
    if is_empty s then some buf
    else
      let r := pop s
      let popped := r.1.getD []
      if first popped = '(' ∨ first popped = ')' then none
      else final_loop n r.2 ( append_postfix buf popped 255)

/-- The code after the main loop. -/
def conv_finish (st : ConvState) : ConvResult :=
  match final_loop st.op_stack.top.length st.op_stack st.buf with
  | none => .mismatched st.unknown
  | some buf => .final buf st.unknown

/-- What one pass through the body of a scanning loop does: it goes on with the
rest of the input and a new state, or the function is left with a result. -/
inductive LoopStep (σ ρ : Type) where
  | next (rest : CStr) (st : σ)
  | stop (r : ρ)

/-- A scanning loop `while (i < len) { body }` run on the rest `cs` of the
input. `none` is returned only when the fuel runs out. -/
def run_loop {σ ρ : Type} (body : CStr → σ → LoopStep σ ρ) : Nat → CStr → σ → Option ρ
  | 0, _, _ => none
  | fuel + 1, cs, st =>
    match body cs st with
    | .next rest st1 => run_loop body fuel rest st1
    | .stop r => some r

/-- The body of the main loop `while (i < len)` of `infix_to_postfix_stepwise`
on the rest `cs` of the input; leaving the loop (`i >= len`) leads to the code
after it, `conv_finish`. -/
def conv_body (cs : CStr) (st : ConvState) : LoopStep ConvState ConvResult :=
  match cs.dropWhile isspace with
  | [] => .stop (conv_finish st)
  | c :: rest =>
    if isalpha c || isdigit c then
      let token := ((c :: rest).takeWhile isOperandChar).take 31
      .next ((c :: rest).dropWhile isOperandChar)
        { st with buf := append_postfix st.buf token 255 }
    else if c = '(' then
      .next rest { st with op_stack := push st.op_stack [c] }
    else if c = ')' then
      let r := paren_loop st.op_stack.top.length st.op_stack st.buf
      match peek r.1 with
      | some top_op =>
        if first top_op = '(' then
          .next rest { st with op_stack := (pop r.1).2, buf := r.2 }
        else .stop (.mismatched st.unknown)
      | none => .stop (.mismatched st.unknown)
    else if is_operator_char c then
      let r := op_loop st.op_stack.top.length c st.op_stack st.buf
      .next rest { st with op_stack := push r.1 [c], buf := r.2 }
    else
      .next rest { st with unknown := st.unknown ++ [c] }

/-- `infix_to_postfix_stepwise`. -/
def infix_to_postfix_stepwise (infix_str : CStr) : Option ConvResult :=
  run_loop conv_body (infix_str.length + 1) infix_str ⟨init_stack, [], []⟩

/-- A loop body consumes at least one character whenever it goes on. -/
def Shrinks {σ ρ : Type} (body : CStr → σ → LoopStep σ ρ) : Prop :=
  ∀ cs st rest st1, body cs st = .next rest st1 → rest.length < cs.length

/-- A scanning loop run with the fuel its entry point gives it. -/
def scan {σ ρ : Type} (body : CStr → σ → LoopStep σ ρ) (cs : CStr) (st : σ) : Option ρ :=
  run_loop body (cs.length + 1) cs st

/-- Appending the tokens of a list to the buffer, one `append_postfix` each. -/
def appendAll (buf : CStr) (toks : List CStr) : CStr :=
  toks.foldl (fun b t => append_postfix b t 255) buf

/-- The conversion of the rest `cs` of an input from the state `st`. -/
def conv (cs : CStr) (st : ConvState) : Option ConvResult := scan conv_body cs st

/-! ## Expression trees and the conventional infix grammar -/

/-- An expression tree: operand leaves and binary operator nodes. -/
inductive Expr where
  | operand (text : CStr)
  | binop (op : Char) (l r : Expr)
deriving DecidableEq, Repr

/-- The post-order traversal of a tree, as a list of tokens. -/
def Expr.postorder : Expr → List CStr
  | .operand x => [x]
  | .binop op l r => l.postorder ++ r.postorder ++ [[op]]

/-- The text of a token list in which every token is followed by one space. -/
def spaced : List CStr → CStr
  | [] => []
  | t :: ts => t ++ ' ' :: spaced ts

/-- An operand token of the converter: a run of letters, digits and `.` that
starts with a letter or a digit and has at most 31 characters. -/
def isOperandToken (x : CStr) : Bool :=
  match x with
  | [] => false
  | c :: cs => (isalpha c || isdigit c) && cs.all isOperandChar && decide (x.length ≤ 31)

/-- A string of whitespace characters only. -/
def AllSpace (w : CStr) : Prop := ∀ c ∈ w, isspace c = true

/-- The string `s` parses to the tree `t` at level `p` of the conventional
grammar, whitespace being allowed around every token:
level 4 is an operand or a parenthesized expression, level 3 adds the
right-associative `^`, level 2 the left-associative `*` and `/`, level 1 the
left-associative `+` and `-`. -/
inductive Parses : Nat → CStr → Expr → Prop where
  | operand (w1 x w2 : CStr) : AllSpace w1 → isOperandToken x = true → AllSpace w2 →
      Parses 4 (w1 ++ x ++ w2) (.operand x)
  | paren (w1 s w2 : CStr) (t : Expr) : AllSpace w1 → Parses 1 s t → AllSpace w2 →
      Parses 4 (w1 ++ '(' :: s ++ ')' :: w2) t
  | pow_up (s : CStr) (t : Expr) : Parses 4 s t → Parses 3 s t
  | pow (s1 s2 : CStr) (l r : Expr) : Parses 4 s1 l → Parses 3 s2 r →
      Parses 3 (s1 ++ '^' :: s2) (.binop '^' l r)
  | mul_up (s : CStr) (t : Expr) : Parses 3 s t → Parses 2 s t
  | mul (op : Char) (s1 s2 : CStr) (l r : Expr) : op = '*' ∨ op = '/' →
      Parses 2 s1 l → Parses 3 s2 r → Parses 2 (s1 ++ op :: s2) (.binop op l r)
  | add_up (s : CStr) (t : Expr) : Parses 2 s t → Parses 1 s t
  | add (op : Char) (s1 s2 : CStr) (l r : Expr) : op = '+' ∨ op = '-' →
      Parses 1 s1 l → Parses 2 s2 r → Parses 1 (s1 ++ op :: s2) (.binop op l r)

/-- The rest of an input does not go on with an operand character. -/
def NoOperandStart (rest : CStr) : Prop := ∀ c, rest.head? = some c → isOperandChar c = false

/-- The top of the operator stack stays where it is when an operator of level
`p` arrives: it binds less, or both are `^`. -/
def Barrier (p : Nat) (l : List CStr) : Prop :=
  ∀ t, l.head? = some t → precedence (first t) < p ∨ (first t = '^' ∧ p = 3)

/-- The one-character tokens of a list of operator characters. -/
def opTokens (ops : List Char) : List CStr := ops.map (fun c => [c])

/-- What the conversion does with a string that parses to `t` at level `p`: the
tokens of `t` reach the buffer, but for operators `ops` that wait on the stack. -/
def ConvSpec (p : Nat) (s : CStr) (t : Expr) : Prop :=
  ∀ (l : List CStr) (sz : Int) (buf : CStr) (unk : List Char) (rest : CStr),
    Barrier p l → NoOperandStart rest → buf.length + (spaced t.postorder).length < 254 →
    ∃ (ops : List Char) (sz1 : Int) (buf1 : CStr),
      conv (s ++ rest) ⟨⟨l, sz⟩, buf, unk⟩ = conv rest ⟨⟨opTokens ops ++ l, sz1⟩, buf1, unk⟩ ∧
      buf1 ++ spaced (opTokens ops) = buf ++ spaced t.postorder ∧
      ∀ o ∈ ops, is_operator_char o = true ∧ p ≤ precedence o

/-! ## Balanced parentheses -/

/-- The parentheses of a string, in their order; every other character is dropped. -/
def parens (s : CStr) : CStr := s.filter (fun c => c = '(' || c = ')')

/-- A sequence of parentheses read with `depth` parentheses open: every `)`
closes an earlier `(` that is still open, and none stays open at the end. -/
def balancedFrom : Nat → CStr → Bool
  | depth, [] => depth = 0
  | depth, c :: cs =>
    if c = '(' then balancedFrom (depth + 1) cs
    else if c = ')' then
      match depth with
      | 0 => false
      | d + 1 => balancedFrom d cs
    else balancedFrom depth cs

/-- A balanced sequence of parentheses. -/
def balanced (s : CStr) : Bool := balancedFrom 0 s

/-- The conversion ended with the mismatched-parentheses message. -/
def isMismatched : Option ConvResult → Bool
  | some (.mismatched _) => true
  | _ => false

/-- The number of `(` tokens on the operator stack. -/
def openCount (l : List CStr) : Nat := l.countP (fun t => first t == '(')

/-! ## Unknown characters -/

/-- The outcome of a conversion without the unknown-token reports: `some none`
for the mismatched-parentheses failure, `some (some buf)` for the final text. -/
def outcome : Option ConvResult → Option (Option CStr)
  | none => none
  | some (.mismatched _) => some none
  | some (.final buf _) => some (some buf)

/-- The unknown-token reports of a conversion. -/
def reports : Option ConvResult → List Char
  | none => []
  | some (.mismatched unk) => unk
  | some (.final _ unk) => unk

/-- A character the converter knows nothing about: not whitespace, not a
letter, digit or `.`, not a parenthesis and not one of `+ - * / ^`. -/
def isUnknownChar (c : Char) : Bool :=
  !isspace c && !isOperandChar c && c != '(' && c != ')' && !is_operator_char c

/-- Every occurrence of the character `c` replaced by a space. -/
def blankOut (c : Char) (s : CStr) : CStr := s.map (fun d => if d = c then ' ' else d)

/-! ## Postfix to infix -/

/-- How the scanning loop of `postfix_to_infix_stepwise` ends: with the message
"Error: insufficient operands for operator", or at the end of the input with
the stack it has built. -/
inductive BuildScan where
  | insufficient (token : CStr)
  | scanned (s : Stack)
deriving DecidableEq, Repr

/-- How `postfix_to_infix_stepwise` ends: with one of its two error messages, or
with "Postfix to Infix Conversion Complete" and the string it shows, the
result of the last `pop`. -/
inductive BuildResult where
  | insufficient (token : CStr)
  | invalid
  | complete (infix_expr : Option CStr)
deriving DecidableEq, Repr

/-- The body of the loop `while (i < len)` of `postfix_to_infix_stepwise` on the
rest `cs` of the input, with the stack `s`. `snprintf` writes at most 127
characters into `newexpr[128]`. A `NULL` from `pop` would be printed as the
empty string here; behind the test `s.size < 2` it does not occur. -/
def build_body (cs : CStr) (s : Stack) : LoopStep Stack BuildScan :=
  match cs.dropWhile isspace with
  | [] => .stop (.scanned s)
  | c :: rest =>
    if isalnum c || c = '.' then
      let token := ((c :: rest).takeWhile (fun d => isalnum d || d = '.')).take 31
      .next ((c :: rest).dropWhile (fun d => isalnum d || d = '.')) (push s token)
    else
      let token := [c]
      if s.size < 2 then .stop (.insufficient token)
      else
        let r2 := pop s
        let r1 := pop r2.2
        let newexpr :=
          (['('] ++ r1.1.getD [] ++ [' '] ++ token ++ [' '] ++ r2.1.getD [] ++ [')']).take 127
        .next rest (push r1.2 newexpr)

/-- The code of `postfix_to_infix_stepwise` after its loop. -/
def build_finish : BuildScan → BuildResult
  | .insufficient token => .insufficient token
  | .scanned s => if s.size ≠ 1 then .invalid else .complete (pop s).1

/-- The scanning loop of `postfix_to_infix_stepwise` on the string `input` that
`wgetnstr` has read. -/
def build_scan (input : CStr) : Option BuildScan :=
  run_loop build_body (input.length + 1) input init_stack

/-- `postfix_to_infix_stepwise`, on the string `input` that `wgetnstr` has read. -/
def postfix_to_infix_stepwise (input : CStr) : Option BuildResult :=
  (build_scan input).map build_finish

/-- The loop of `postfix_to_infix_stepwise` on the rest `cs` of the input. -/
def bscan (cs : CStr) (s : Stack) : Option BuildScan := scan build_body cs s

/-- The fully parenthesized infix string of a tree: an operand is its text, an
operator node is `"(" + left + " " + operator + " " + right + ")"`. -/
def Expr.render : Expr → CStr
  | .operand x => x
  | .binop op l r => ['('] ++ l.render ++ [' '] ++ [op] ++ [' '] ++ r.render ++ [')']

/-- The infix string as the stack holds it: every string is cut to the 31
characters of a node when it is pushed. -/
def Expr.renderCut : Expr → CStr
  | .operand x => x.take 31
  | .binop op l r =>
    (['('] ++ l.renderCut ++ [' '] ++ [op] ++ [' '] ++ r.renderCut ++ [')']).take 31

/-- The text of a token list, the tokens separated by single spaces. -/
def unwords : List CStr → CStr
  | [] => []
  | [t] => t
  | t :: u :: ts => t ++ ' ' :: unwords (u :: ts)

/-- An operand of the postfix notation: a non-empty run of letters, digits and `.`. -/
def isBuildOperand (x : CStr) : Bool := !x.isEmpty && x.all isOperandChar

/-- An operator of the postfix notation as the builder reads it: any single
character that is neither whitespace nor part of an operand. -/
def isBuildOperator (c : Char) : Bool := !isspace c && !isOperandChar c

/-- A tree whose post-order traversal is a valid postfix token sequence. -/
def validPostfix : Expr → Bool
  | .operand x => isBuildOperand x
  | .binop op l r => isBuildOperator op && validPostfix l && validPostfix r

/-- The expression `(((A + B) * (C + D)) * ((E + F) * (G + H)))`. -/
def wideExpr : Expr :=
  .binop '*'
    (.binop '*' (.binop '+' (.operand ['A']) (.operand ['B']))
      (.binop '+' (.operand ['C']) (.operand ['D'])))
    (.binop '*' (.binop '+' (.operand ['E']) (.operand ['F']))
      (.binop '+' (.operand ['G']) (.operand ['H'])))

/-! ## The tokens of a postfix string and their counts -/

/-- A token of a postfix string as the builder reads it: an operand, or an
operator with its character. -/
inductive PTok where
  | operand
  | operator (c : Char)
deriving DecidableEq, Repr

/-- The tokens of a string: the operand tokens are the maximal runs of letters,
digits and `.`, the operator tokens are all other characters that are not
whitespace. The flag tells that the character before was part of an operand. -/
def ptokens : Bool → CStr → List PTok
  | _, [] => []
  | inRun, c :: cs =>
    if isOperandChar c then
      if inRun then ptokens true cs else .operand :: ptokens true cs
    else if isspace c then ptokens false cs
    else .operator c :: ptokens false cs

/-- The token is an operand. -/
def PTok.isOperand : PTok → Bool
  | .operand => true
  | .operator _ => false

/-- The number of operand tokens. -/
def operandCount (ts : List PTok) : Nat := ts.countP PTok.isOperand

/-- The number of operator tokens. -/
def operatorCount (ts : List PTok) : Nat := ts.countP (fun t => !t.isOperand)

/-- Before each operator token, the operand tokens read so far (and the `n`
entries the stack had at the start) exceed the operator tokens read so far by
at least 2. -/
def EnoughFrom (n : Nat) (ts : List PTok) : Prop :=
  ∀ pre c post, ts = pre ++ PTok.operator c :: post →
    operatorCount pre + 2 ≤ n + operandCount pre

/-- Condition (1): before each operator token the number of operand tokens read
so far exceeds the number of operator tokens read so far by at least 2. -/
def EnoughOperands (ts : List PTok) : Prop := EnoughFrom 0 ts

/-- Condition (2): there is one operand token more than operator tokens. -/
def OneResult (ts : List PTok) : Prop := operandCount ts = operatorCount ts + 1

/-- The number of stack entries while the tokens are processed from a stack
of `n` entries; an operator that finds fewer than two entries is an error. -/
def sizeRun : Nat → List PTok → Except Char Nat
  | n, [] => .ok n
  | n, .operand :: ts => sizeRun (n + 1) ts
  | n, .operator c :: ts => if n < 2 then .error c else sizeRun (n - 1) ts

/-! ## Numeric evaluation of postfix -/

/-- The floating-point library `evaluate_postfix_numeric` calls, taken as a
parameter: the values of type `double`, `atof`, the text that the conversion
`"%lf"` of `snprintf` produces for a value (before it is cut to the buffer),
the arithmetic of C on `double`, `pow` of `math.h`, and the test `val2 == 0`. -/
structure FloatOps (D : Type) where
  atof : CStr → D
  fmt_lf : D → CStr
  add : D → D → D
  sub : D → D → D
  mul : D → D → D
  div : D → D → D
  pow : D → D → D
  isZero : D → Bool

/-- The `switch (op)` of `evaluate_postfix_numeric`: `none` stands for its two
`return 0`, the division by zero and the `default` case. -/
def apply_op {D : Type} (F : FloatOps D) (op : Char) (val1 val2 : D) : Option D :=
  if op = '+' then some (F.add val1 val2)
  else if op = '-' then some (F.sub val1 val2)
  else if op = '*' then some (F.mul val1 val2)
  else if op = '/' then (if F.isZero val2 then none else some (F.div val1 val2))
  else if op = '^' then some (F.pow val1 val2)
  else none

/-- How the scanning loop of `evaluate_postfix_numeric` ends: with a `return 0`,
or at the end of the input with the stack it has built. -/
inductive EvalScan where
  | failed
  | scanned (s : Stack)
deriving DecidableEq, Repr

/-- What `evaluate_postfix_numeric` returns: 0, or 1 with `*result` filled. -/
inductive EvalResult (D : Type) where
  | failure
  | success (result : D)
deriving DecidableEq, Repr

/-- The body of the loop `while (i < len)` of `evaluate_postfix_numeric` on the
rest `cs` of the input, with the stack `s`. Only the space is skipped between
tokens. `snprintf(buffer, 32, "%lf", res)` keeps at most 31 characters. The
test `if (error)` reads the flag of the second `pop`. -/
def eval_body {D : Type} (F : FloatOps D) (cs : CStr) (s : Stack) : LoopStep Stack EvalScan :=
  match cs.dropWhile (fun c => c = ' ') with
  | [] => .stop (.scanned s)
  | c :: rest =>
    if isdigit c || c = '.' then
      let token := ((c :: rest).takeWhile (fun d => isdigit d || d = '.')).take 31
      .next ((c :: rest).dropWhile (fun d => isdigit d || d = '.')) (push s token)
    else
      let op := c
      if s.size < 2 then .stop .failed
      else
        let r2 := pop s
        let r1 := pop r2.2
        match r1.1 with
        | none => .stop .failed
        | some val1_s =>
          let val1 := F.atof val1_s
          let val2 := F.atof (r2.1.getD [])
          match apply_op F op val1 val2 with
          | none => .stop .failed
          | some res => .next rest (push r1.2 ((F.fmt_lf res).take 31))

/-- The code of `evaluate_postfix_numeric` after its loop. -/
def eval_finish {D : Type} (F : FloatOps D) : EvalScan → EvalResult D
  | .failed => .failure
  | .scanned s => if s.size ≠ 1 then .failure else .success (F.atof ((pop s).1.getD []))

/-- `evaluate_postfix_numeric`. -/
def evaluate_postfix_numeric {D : Type} (F : FloatOps D) (pf : CStr) : Option (EvalResult D) :=
  (run_loop (eval_body F) (pf.length + 1) pf init_stack).map (eval_finish F)

/-- The loop of `evaluate_postfix_numeric` on the rest `cs` of the input. -/
def escan {D : Type} (F : FloatOps D) (cs : CStr) (s : Stack) : Option EvalScan :=
  scan (eval_body F) cs s

/-! ### Exact decimal arithmetic, an idealized instance of the library

The values are fractions `num / den`; a denominator 0 stands for a value that
is not a rational number (`inf`, `nan`). Sums, differences, products and
quotients are exact, `pow` is exact for integer exponents, `"%lf"` rounds to
six decimals (ties to even) and `atof` reads a decimal numeral. -/

/-- A fraction `num / den`, not reduced. -/
structure Dec where
  num : Int
  den : Nat
deriving DecidableEq, Repr

/-- Two fractions are the same number. -/
def Dec.same (a b : Dec) : Bool := a.den != 0 && b.den != 0 && a.num * b.den == b.num * a.den

/-- The decimal digits of a natural number, most significant first. -/
def natDigits (n : Nat) : CStr := Nat.toDigits 10 n

/-- The digits of `n` padded with zeros on the left to `width` characters. -/
def padDigits (width n : Nat) : CStr :=
  List.replicate (width - (natDigits n).length) '0' ++ natDigits n

/-- Rounding the non-negative fraction `n / d` to the nearest integer, ties to even. -/
def roundHalfEven (n d : Nat) : Nat :=
  let q := n / d
  let r := n % d
  if 2 * r < d then q else if 2 * r > d then q + 1 else if q % 2 = 0 then q else q + 1

/-- The text of a value under `"%lf"`: sign, integer part, `.` and six decimals. -/
def Dec.fmt_lf (a : Dec) : CStr :=
  if a.den = 0 then
    (if a.num > 0 then "inf".toList else if a.num < 0 then "-inf".toList else "nan".toList)
  else
    let scaled := roundHalfEven (a.num.natAbs * 1000000) a.den
    (if a.num < 0 then ['-'] else []) ++ natDigits (scaled / 1000000) ++ ['.']
      ++ padDigits 6 (scaled % 1000000)

/-- The value of a run of decimal digits read after the value `acc`. -/
def digitsValue (acc : Nat) (ds : CStr) : Nat :=
  ds.foldl (fun v c => 10 * v + (c.toNat - 48)) acc

/-- The value `atof` gives to an unsigned numeral: digits, then optionally `.`
and digits; `inf` and `nan` are read as such; reading stops at the first
character that does not fit. -/
def atofUnsigned (s : CStr) : Dec :=
  if s.take 3 = "inf".toList then ⟨1, 0⟩
  else if s.take 3 = "nan".toList then ⟨0, 0⟩
  else
    let ip := s.takeWhile isdigit
    let rest := s.dropWhile isdigit
    match rest with
    | '.' :: more =>
      let fp := more.takeWhile isdigit
      ⟨digitsValue (digitsValue 0 ip) fp, 10 ^ fp.length⟩
    | _ => ⟨digitsValue 0 ip, 1⟩

/-- `atof` on exact decimals: leading whitespace, an optional sign, a numeral. -/
def Dec.atof (s : CStr) : Dec :=
  match s.dropWhile isspace with
  | '-' :: more => let v := atofUnsigned more; ⟨-v.num, v.den⟩
  | '+' :: more => atofUnsigned more
  | more => atofUnsigned more

/-- The exact quotient. -/
def Dec.div (a b : Dec) : Dec :=
  if b.num ≥ 0 then ⟨a.num * b.den, a.den * b.num.natAbs⟩
  else ⟨-(a.num * b.den), a.den * b.num.natAbs⟩

/-- The exact power for an integer exponent; `nan` for any other exponent. -/
def Dec.pow (a b : Dec) : Dec :=
  if b.den = 0 ∨ a.den = 0 then ⟨0, 0⟩
  else if b.num % b.den ≠ 0 then ⟨0, 0⟩
  else
    let e := b.num / b.den
    if e ≥ 0 then ⟨a.num ^ e.natAbs, a.den ^ e.natAbs⟩
    else Dec.div ⟨1, 1⟩ ⟨a.num ^ e.natAbs, a.den ^ e.natAbs⟩

/-- Exact decimal arithmetic as an instance of the library. -/
def decOps : FloatOps Dec where
  atof := Dec.atof
  fmt_lf := Dec.fmt_lf
  add a b := ⟨a.num * b.den + b.num * a.den, a.den * b.den⟩
  sub a b := ⟨a.num * b.den - b.num * a.den, a.den * b.den⟩
  mul a b := ⟨a.num * b.num, a.den * b.den⟩
  div := Dec.div
  pow := Dec.pow
  isZero a := a.num == 0 && a.den != 0

/-- The characters of a numeric operand of the evaluator: `isdigit(c) || c == '.'`. -/
def isNumChar (c : Char) : Bool := isdigit c || c = '.'

/-- A numeric literal as the evaluator reads it: a non-empty run of digits and `.`. -/
def isNumericLiteral (x : CStr) : Bool := !x.isEmpty && x.all isNumChar

/-- The rest of an input does not go on with a digit or a `.`. -/
def NoNumStart (rest : CStr) : Prop := ∀ c, rest.head? = some c → isNumChar c = false

/-- An expression over numeric operands: every leaf is a run of digits and `.`
of at most 31 characters, every inner node one of the operators `+ - * / ^`. -/
def numericExpr : Expr → Bool
  | .operand x => isNumericLiteral x && decide (x.length ≤ 31)
  | .binop op l r => is_operator_char op && numericExpr l && numericExpr r

/-- The text that the evaluator's stack holds for a subexpression: an operand
is its own text, the result of an operator is the `"%lf"` text of the value
computed from what `atof` reads in the texts of its two operands, cut to the
31 characters of the buffer. `none` stands for a failed evaluation. -/
def textOf {D : Type} (F : FloatOps D) : Expr → Option CStr
  | .operand x => some x
  | .binop op l r =>
    match textOf F l, textOf F r with
    | some tl, some tr =>
      match apply_op F op (F.atof tl) (F.atof tr) with
      | some res => some ((F.fmt_lf res).take 31)
      | none => none
    | _, _ => none

/-- The conventional meaning of a binary operator on two values, for the
reference evaluator: sum, difference, product, quotient (none when the divisor
is zero) and power; `none` for any other character. -/
def refOp {D : Type} (F : FloatOps D) (op : Char) (a b : D) : Option D :=
  match op with
  | '+' => some (F.add a b)
  | '-' => some (F.sub a b)
  | '*' => some (F.mul a b)
  | '/' => if F.isZero b then none else some (F.div a b)
  | '^' => some (F.pow a b)
  | _ => none

/-- An independent reference evaluator: the value of the tree, computed on
values by recursion over the tree, without a stack and without going through
texts; `none` for a division by zero. -/
def refEval {D : Type} (F : FloatOps D) : Expr → Option D
  | .operand x => some (F.atof x)
  | .binop op l r =>
    match refEval F l, refEval F r with
    | some a, some b => refOp F op a b
    | _, _ => none

/-- The `"%lf"` texts of an expression lose nothing: at every operator node,
`atof` reads from the text of the node's reference value, cut to the 31
characters of the buffer, that value itself. -/
def Lossless {D : Type} (F : FloatOps D) : Expr → Prop
  | .operand _ => True
  | .binop op l r =>
    Lossless F l ∧ Lossless F r ∧
      ∀ res, refEval F (.binop op l r) = some res → F.atof ((F.fmt_lf res).take 31) = res

/-- The expression `1/3000000*3000000`. -/
def tinyExpr : Expr :=
  .binop '*' (.binop '/' (.operand ['1']) (.operand "3000000".toList)) (.operand "3000000".toList)

/-- The expression `(1.500000+2)*3`. -/
def exactExpr : Expr :=
  .binop '*' (.binop '+' (.operand "1.500000".toList) (.operand ['2'])) (.operand ['3'])

/-! ## States a scanning loop reaches -/

/-- The loop with the body `body`, started on the input `cs` in the state `st`,
comes to the head of the loop with the rest `cs1` of the input and the state
`st1`. -/
inductive Reaches {σ ρ : Type} (body : CStr → σ → LoopStep σ ρ) :
    CStr → σ → CStr → σ → Prop where
  | refl (cs : CStr) (st : σ) : Reaches body cs st cs st
  | step {cs : CStr} {st : σ} {cs1 : CStr} {st1 : σ} {cs2 : CStr} {st2 : σ} :
      body cs st = .next cs1 st1 → Reaches body cs1 st1 cs2 st2 → Reaches body cs st cs2 st2

/-- The `size` field counts the nodes of the list. -/
def sizeOK (s : Stack) : Prop := s.size = s.top.length

/-- A character with which the evaluator can do nothing: not a digit, not `.`,
not a space and none of `+ - * / ^`. -/
def isNonNumericChar (c : Char) : Bool :=
  !isNumChar c && c != ' ' && !is_operator_char c

/-! ## The interactive stack and `handle_user_option` -/

/-- A stack as the program holds it: `size` counts the nodes and every node
holds at most 31 characters in its `token[32]`. -/
def wellFormed (s : Stack) : Bool :=
  decide (s.size = s.top.length) && s.top.all (fun t => decide (t.length ≤ 31))

/-- The stacks that `init_stack`, `push` and `pop` (failed ones included) produce. -/
inductive Reachable : Stack → Prop where
  | init : Reachable init_stack
  | push (s : Stack) (t : CStr) : Reachable s → Reachable (push s t)
  | pop (s : Stack) : Reachable s → Reachable (pop s).2

/-- The classification of a stack entry by its first character:
`strlen(a) > 0 && (isdigit(a[0]) || a[0] == '.')`. -/
def isNumEntry (a : CStr) : Bool :=
  decide (a.length > 0) && (isdigit (first a) || first a = '.')

/-- What `handle_user_option` shows in the message window. -/
inductive OptionMsg (D : Type) where
  | empty_input
  | invalid_token
  | pushed (token : CStr)
  | stack_empty
  | popped (val : CStr)
  | need_two
  | op_error
  | symbolic (resStr : CStr)
  | div_zero
  | numeric (res : D)
  | delegated
  | exited
  | invalid_option
deriving DecidableEq, Repr

/-- The operator character of the options 3 to 6. -/
def option_char (option : Int) : Char :=
  if option = 3 then '+' else if option = 4 then '-' else if option = 5 then '*' else '/'

/-- `handle_user_option` on the interactive stack: `input` is the string that
`wgetnstr` reads for option 1, `fmt_2lf` the text that the conversion `"%.2lf"`
of `snprintf` produces. Options 7 to 9 hand over to the converters and the
evaluator and leave the stack as it is; option 10 leaves the program.
`snprintf` keeps at most 63 characters in `resStr[64]` and 31 in `buf[32]`. -/
def handle_user_option {D : Type} (F : FloatOps D) (fmt_2lf : D → CStr) (stack : Stack)
    (option : Int) (input : CStr) : Stack × OptionMsg D :=
  if option = 1 then
    if input.length = 0 then (stack, .empty_input)
    else if input.all (fun c => isalnum c || c = '.') then (push stack input, .pushed input)
    else (stack, .invalid_token)
  else if option = 2 then
    match pop stack with
    | (none, s) => (s, .stack_empty)
    | (some val, s) => (s, .popped val)
  else if option = 3 ∨ option = 4 ∨ option = 5 ∨ option = 6 then
    if stack.size < 2 then (stack, .need_two)
    else
      let ra := pop stack
      let rb := pop ra.2
      match rb.1 with
      | none => (rb.2, .op_error)
      | some b =>
        let a := ra.1.getD []
        let valA := F.atof a
        let valB := F.atof b
        if !isNumEntry a || !isNumEntry b then
          let resStr := (['('] ++ b ++ [option_char option] ++ a ++ [')']).take 63
          (push rb.2 resStr, .symbolic resStr)
        else if option = 6 ∧ F.isZero valA = true then
          (push (push rb.2 b) a, .div_zero)
        else
          let res :=
            if option = 3 then F.add valB valA
            else if option = 4 then F.sub valB valA
            else if option = 5 then F.mul valB valA
            else F.div valB valA
          (push rb.2 ((fmt_2lf res).take 31), .numeric res)
  else if option = 7 ∨ option = 8 ∨ option = 9 then (stack, .delegated)
  else if option = 10 then (stack, .exited)
  else (stack, .invalid_option)

/-- The text of a value under `"%.2lf"` in exact decimal arithmetic: sign,
integer part, `.` and two decimals. -/
def Dec.fmt_2lf (a : Dec) : CStr :=
  if a.den = 0 then
    (if a.num > 0 then "inf".toList else if a.num < 0 then "-inf".toList else "nan".toList)
  else
    let scaled := roundHalfEven (a.num.natAbs * 100) a.den
    (if a.num < 0 then ['-'] else []) ++ natDigits (scaled / 100) ++ ['.']
      ++ padDigits 2 (scaled % 100)

/-- The options that apply an operator to the top two entries. -/
def isOperatorOption (option : Int) : Bool :=
  option = 3 || option = 4 || option = 5 || option = 6

/-- The text `"(" + b + op + a + ")"` of a symbolic application. -/
def symbolicText (option : Int) (a b : CStr) : CStr :=
  ['('] ++ b ++ [option_char option] ++ a ++ [')']

/-- The value `value(b) op value(a)` of a numeric application. -/
def numericValue {D : Type} (F : FloatOps D) (option : Int) (a b : CStr) : D :=
  if option = 3 then F.add (F.atof b) (F.atof a)
  else if option = 4 then F.sub (F.atof b) (F.atof a)
  else if option = 5 then F.mul (F.atof b) (F.atof a)
  else F.div (F.atof b) (F.atof a)

/-! ## The format of the converter's output -/

/-- A token of the converter's output: an operand token, or an operator token
of exactly one character. -/
def isOutputToken (t : CStr) : Bool :=
  isOperandToken t ||
    (match t with
     | [c] => is_operator_char c
     | _ => false)

/-- The string contains two consecutive spaces. -/
def hasDoubleSpace : CStr → Bool
  | [] => false
  | [_] => false
  | a :: b :: cs => (a = ' ' && b = ' ') || hasDoubleSpace (b :: cs)

/-- The buffer is the concatenation of output tokens, each followed by one space. -/
def GoodBuf (buf : CStr) : Prop :=
  ∃ toks : List CStr, buf = spaced toks ∧ ∀ t ∈ toks, isOutputToken t = true

/-- The operator stack holds `(` tokens and one-character operator tokens only. -/
def GoodStack (l : List CStr) : Prop :=
  ∀ t ∈ l, t = ['('] ∨ ∃ c, is_operator_char c = true ∧ t = [c]

/-- The invariant of the conversion for the format of its output. -/
def FormatInv (st : ConvState) : Prop := GoodBuf st.buf ∧ GoodStack st.op_stack.top

/-! ## The order of the operator stack -/

/-- How an entry of the operator stack stands on the entry below it: one of the
two is a `(`, or the lower one has strictly smaller precedence, or both are `^`. -/
def StandsOn (upper lower : CStr) : Prop :=
  lower = ['('] ∨ upper = ['('] ∨ precedence (first lower) < precedence (first upper) ∨
    (lower = ['^'] ∧ upper = ['^'])

/-- Every entry of the operator stack stands on the entry below it. -/
def StackOrdered (l : List CStr) : Prop := List.Chain' StandsOn l

/-- The order of exact decimal values: `x < y`, both being numbers. -/
def Dec.lt (x y : Dec) : Prop :=
  x.den ≠ 0 ∧ y.den ≠ 0 ∧ x.num * (y.den : Int) < y.num * (x.den : Int)

/-! ## The tokens the two scans read -/

/-- A token as a scan reads it, with the position of its first character: an
operand with its whole run of characters (the scans keep the first 31 of
them), a parenthesis, an operator, or a character reported as unknown. -/
inductive Lexeme where
  | operand (start : Nat) (run : CStr)
  | paren (start : Nat) (c : Char)
  | operator (start : Nat) (c : Char)
  | unknown (start : Nat) (c : Char)
deriving DecidableEq, Repr

/-- The token that the body of the loop of `infix_to_postfix_stepwise` reads at
the head of the rest `cs` of an input of `total` characters, and the rest after
it; `none` at the end of the input. -/
def conv_lex (total : Nat) (cs : CStr) : Option (Lexeme × CStr) :=
  match cs.dropWhile isspace with
  | [] => none
  | c :: rest =>
    if isalpha c || isdigit c then
      some (.operand (total - (rest.length + 1)) ((c :: rest).takeWhile isOperandChar),
        (c :: rest).dropWhile isOperandChar)
    else if c = '(' ∨ c = ')' then some (.paren (total - (rest.length + 1)) c, rest)
    else if is_operator_char c then some (.operator (total - (rest.length + 1)) c, rest)
    else some (.unknown (total - (rest.length + 1)) c, rest)

/-- The token that the body of the loop of `postfix_to_infix_stepwise` reads at
the head of the rest `cs` of an input of `total` characters, and the rest after
it; `none` at the end of the input. -/
def build_lex (total : Nat) (cs : CStr) : Option (Lexeme × CStr) :=
  match cs.dropWhile isspace with
  | [] => none
  | c :: rest =>
    if isalnum c || c = '.' then
      some (.operand (total - (rest.length + 1))
          ((c :: rest).takeWhile (fun d => isalnum d || d = '.')),
        (c :: rest).dropWhile (fun d => isalnum d || d = '.'))
    else some (.operator (total - (rest.length + 1)) c, rest)

/-- The tokens a scan reads one after the other, as long as the fuel lasts. -/
def lexemes (lex : CStr → Option (Lexeme × CStr)) : Nat → CStr → List Lexeme
  | 0, _ => []
  | fuel + 1, cs =>
    match lex cs with
    | none => []
    | some (t, rest) => t :: lexemes lex fuel rest

/-- The tokens of an input as the converter's scan reads them. -/
def conv_lexemes (s : CStr) : List Lexeme := lexemes (conv_lex s.length) (s.length + 1) s

/-- The tokens of an input as the builder's scan reads them. -/
def build_lexemes (s : CStr) : List Lexeme := lexemes (build_lex s.length) (s.length + 1) s

/-- The operand tokens of a token list: start position and run. -/
def operandLexemes (ls : List Lexeme) : List (Nat × CStr) :=
  ls.filterMap (fun t => match t with
    | .operand p r => some (p, r)
    | _ => none)

/-- The operator tokens of a token list: position and character. -/
def operatorLexemes (ls : List Lexeme) : List (Nat × Char) :=
  ls.filterMap (fun t => match t with
    | .operator p c => some (p, c)
    | _ => none)

/-- The tokens of a token list that are not operands: position and character. -/
def otherLexemes (ls : List Lexeme) : List (Nat × Char) :=
  ls.filterMap (fun t => match t with
    | .operand _ _ => none
    | .paren p c => some (p, c)
    | .operator p c => some (p, c)
    | .unknown p c => some (p, c))

/-! ## The operand tokens of an input -/

/-- The operand tokens of the rest of an input as the converter's scan reads
them, uncut: outside a token (`none`) a letter or a digit starts a token, and
inside a token (`some r`) every letter, digit and `.` goes on with it. -/
def runsAux : Option CStr → CStr → List CStr
  | none, [] => []
  | some r, [] => [r]
  | none, c :: cs => if isalpha c || isdigit c then runsAux (some [c]) cs else runsAux none cs
  | some r, c :: cs =>
    if isOperandChar c then runsAux (some (r ++ [c])) cs else r :: runsAux none cs

/-- The operand tokens of an input as the converter's scan reads them, uncut. -/
def operandRuns (s : CStr) : List CStr := runsAux none s

/-- The maximal runs of letters, digits and `.` of the rest of an input; `some r`
is the run that is being read. -/
def charRuns : Option CStr → CStr → List CStr
  | none, [] => []
  | some r, [] => [r]
  | none, c :: cs => if isOperandChar c then charRuns (some [c]) cs else charRuns none cs
  | some r, c :: cs =>
    if isOperandChar c then charRuns (some (r ++ [c])) cs else r :: charRuns none cs

/-- The operand tokens of an input: the maximal runs of letters, digits and `.`
that start with a letter or a digit. -/
def operandTokensOf (s : CStr) : List CStr :=
  (charRuns none s).filter (fun r => isalpha (first r) || isdigit (first r))

/-- The number of characters that the tokens of an input take in the output
buffer when none is dropped: every operand token cut to 31 characters and every
operator character, each followed by one space. -/
def fitLength (s : CStr) : Nat :=
  ((operandRuns s).map (fun r => min r.length 31 + 1)).sum + 2 * s.countP is_operator_char

/-- The invariant of the conversion of the input `s` for the tokens that pass to
the output, with `cs` the rest of the input: the buffer holds output tokens;
its operand tokens followed by those still to be read are the operand tokens of
the input, cut to 31 characters; every operator character read so far is in the
buffer or on the stack; and what is in the buffer, on the stack and still to be
read takes no more room than the tokens of the input. -/
def PassInv (s cs : CStr) (st : ConvState) : Prop :=
  ∃ toks : List CStr, st.buf = spaced toks ∧ (∀ t ∈ toks, isOutputToken t = true) ∧
    GoodStack st.op_stack.top ∧
    toks.filter isOperandToken ++ (operandRuns cs).map (List.take 31)
      = (operandRuns s).map (List.take 31) ∧
    (∀ c, is_operator_char c = true →
      toks.count [c] + st.op_stack.top.count [c] + cs.count c = s.count c) ∧
    st.buf.length + 2 * st.op_stack.top.countP (fun t => first t != '(') + fitLength cs
      ≤ fitLength s


/-! ## Scanning loops: enough fuel, and unfolding without fuel -/

theorem run_loop_fuel {σ ρ : Type} {body : CStr → σ → LoopStep σ ρ} (hb : Shrinks body)
    (f1 : Nat) : ∀ (f2 : Nat) (cs : CStr) (st : σ),
    cs.length < f1 → cs.length < f2 → run_loop body f1 cs st = run_loop body f2 cs st := by
  induction f1 with
  | zero => intro f2 cs st h; omega
  | succ n ih =>
    intro f2 cs st h1 h2
    cases f2 with
    | zero => omega
    | succ m =>
      simp only [run_loop]
      cases hstep : body cs st with
      | stop r => rfl
      | next rest st1 =>
        have := hb cs st rest st1 hstep
        exact ih m rest st1 (by omega) (by omega)

theorem scan_eq {σ ρ : Type} {body : CStr → σ → LoopStep σ ρ} (hb : Shrinks body)
    (cs : CStr) (st : σ) :
    scan body cs st =
      match body cs st with
      | .next rest st1 => scan body rest st1
      | .stop r => some r := by
  unfold scan
  simp only [run_loop]
  cases hstep : body cs st with
  | stop r => rfl
  | next rest st1 =>
    have := hb cs st rest st1 hstep
    exact run_loop_fuel hb cs.length (rest.length + 1) rest st1 (by omega) (by omega)

theorem scan_next {σ ρ : Type} {body : CStr → σ → LoopStep σ ρ} (hb : Shrinks body)
    {cs : CStr} {st : σ} {rest : CStr} {st1 : σ} (h : body cs st = .next rest st1) :
    scan body cs st = scan body rest st1 := by
  rw [scan_eq hb, h]

theorem scan_stop {σ ρ : Type} {body : CStr → σ → LoopStep σ ρ} (hb : Shrinks body)
    {cs : CStr} {st : σ} {r : ρ} (h : body cs st = .stop r) :
    scan body cs st = some r := by
  rw [scan_eq hb, h]

theorem isOperandChar_of_start {c : Char} (h : (isalpha c || isdigit c) = true) :
    isOperandChar c = true := by
  simp only [isOperandChar, isalnum]
  simp only [h, Bool.true_or]

theorem length_dropWhile_le {α : Type} (p : α → Bool) (l : List α) :
    (l.dropWhile p).length ≤ l.length := by
  induction l with
  | nil => simp
  | cons a l ih =>
    simp only [List.dropWhile_cons]
    split
    · simp only [List.length_cons]; omega
    · exact le_refl _

theorem conv_body_nil (st : ConvState) : conv_body [] st = .stop (conv_finish st) := rfl

theorem conv_body_space {c : Char} (hc : isspace c = true) (cs : CStr) (st : ConvState) :
    conv_body (c :: cs) st = conv_body cs st := by
  simp only [conv_body, List.dropWhile_cons, hc, if_true]

theorem conv_body_operand {c : Char} (hc : (isalpha c || isdigit c) = true) (hs : isspace c = false)
    (cs : CStr) (st : ConvState) :
    conv_body (c :: cs) st =
      .next (cs.dropWhile isOperandChar)
        { st with buf := append_postfix st.buf ((c :: cs.takeWhile isOperandChar).take 31) 255 } := by
  have hoc := isOperandChar_of_start hc
  simp [conv_body, List.dropWhile_cons, List.takeWhile_cons, hs, hc, hoc]

theorem conv_body_lparen (cs : CStr) (st : ConvState) :
    conv_body ('(' :: cs) st = .next cs { st with op_stack := push st.op_stack ['('] } := by
  simp [conv_body, List.dropWhile_cons, isspace, isalpha, isdigit]

theorem conv_body_rparen (cs : CStr) (st : ConvState) :
    conv_body (')' :: cs) st =
      match peek (paren_loop st.op_stack.top.length st.op_stack st.buf).1 with
      | some top_op =>
        if first top_op = '(' then
          .next cs { st with
            op_stack := (pop (paren_loop st.op_stack.top.length st.op_stack st.buf).1).2,
            buf := (paren_loop st.op_stack.top.length st.op_stack st.buf).2 }
        else .stop (.mismatched st.unknown)
      | none => .stop (.mismatched st.unknown) := by
  simp [conv_body, List.dropWhile_cons, isspace, isalpha, isdigit]

theorem is_operator_char_iff (c : Char) :
    is_operator_char c = true ↔ c = '+' ∨ c = '-' ∨ c = '*' ∨ c = '/' ∨ c = '^' := by
  simp [is_operator_char, or_assoc]

theorem operator_not_space {c : Char} (hc : is_operator_char c = true) : isspace c = false := by
  rw [is_operator_char_iff] at hc
  rcases hc with h | h | h | h | h <;> subst h <;> decide

theorem operator_not_start {c : Char} (hc : is_operator_char c = true) :
    (isalpha c || isdigit c) = false := by
  rw [is_operator_char_iff] at hc
  rcases hc with h | h | h | h | h <;> subst h <;> decide

theorem operator_not_paren {c : Char} (hc : is_operator_char c = true) : c ≠ '(' ∧ c ≠ ')' := by
  rw [is_operator_char_iff] at hc
  rcases hc with h | h | h | h | h <;> subst h <;> decide

theorem conv_body_operator {c : Char} (hc : is_operator_char c = true) (cs : CStr)
    (st : ConvState) :
    conv_body (c :: cs) st =
      .next cs { st with
        op_stack := push (op_loop st.op_stack.top.length c st.op_stack st.buf).1 [c],
        buf := (op_loop st.op_stack.top.length c st.op_stack st.buf).2 } := by
  have h1 := operator_not_space hc
  have h2 := operator_not_start hc
  have h3 := operator_not_paren hc
  simp only [Bool.or_eq_false_iff] at h2
  simp [conv_body, List.dropWhile_cons, h1, h2.1, h2.2, h3.1, h3.2, hc]

theorem conv_body_unknown {c : Char} (hs : isspace c = false)
    (ha : (isalpha c || isdigit c) = false) (h1 : c ≠ '(') (h2 : c ≠ ')')
    (ho : is_operator_char c = false) (cs : CStr) (st : ConvState) :
    conv_body (c :: cs) st = .next cs { st with unknown := st.unknown ++ [c] } := by
  simp only [Bool.or_eq_false_iff] at ha
  simp [conv_body, List.dropWhile_cons, hs, ha.1, ha.2, h1, h2, ho]

theorem conv_body_shrinks : Shrinks conv_body := by
  intro cs
  induction cs with
  | nil => intro st rest st1 h; simp [conv_body_nil] at h
  | cons c cs ih =>
    intro st rest st1 h
    by_cases hs : isspace c = true
    · rw [conv_body_space hs] at h
      have := ih st rest st1 h
      simp only [List.length_cons]; omega
    · simp only [Bool.not_eq_true] at hs
      by_cases ha : (isalpha c || isdigit c) = true
      · rw [conv_body_operand ha hs] at h
        injection h with h1 h2
        subst h1
        have := length_dropWhile_le isOperandChar cs
        simp only [List.length_cons]; omega
      · simp only [Bool.not_eq_true] at ha
        by_cases h1 : c = '('
        · subst h1
          rw [conv_body_lparen] at h
          injection h with h1 h2
          subst h1; simp
        · by_cases h2 : c = ')'
          · subst h2
            rw [conv_body_rparen] at h
            split at h
            · split at h
              · injection h with h1 h2
                subst h1; simp
              · simp at h
            · simp at h
          · by_cases ho : is_operator_char c = true
            · rw [conv_body_operator ho] at h
              injection h with h1 h2
              subst h1; simp
            · simp only [Bool.not_eq_true] at ho
              rw [conv_body_unknown hs ha h1 h2 ho] at h
              injection h with h1 h2
              subst h1; simp

/-! ## The loops over the operator stack -/

theorem paren_loop_eq (n : Nat) : ∀ (l : List CStr) (sz : Int) (buf : CStr), l.length ≤ n →
    paren_loop n ⟨l, sz⟩ buf =
      (⟨l.dropWhile (fun t => first t != '('),
        sz - ((l.takeWhile (fun t => first t != '(')).length : Nat)⟩,
       appendAll buf (l.takeWhile (fun t => first t != '('))) := by
  induction n with
  | zero =>
    intro l sz buf h
    have : l = [] := List.length_eq_zero.mp (by omega)
    subst this
    simp [paren_loop, appendAll]
  | succ n ih =>
    intro l sz buf h
    cases l with
    | nil => simp [paren_loop, peek, appendAll]
    | cons t l =>
      simp only [List.length_cons] at h
      by_cases ht : first t = '('
      · simp [paren_loop, peek, ht, appendAll]
      · have hb : (first t != '(') = true := by simpa using ht
        simp only [paren_loop, peek, List.head?_cons, ne_eq, ht, not_false_eq_true, if_true, pop,
          Option.getD_some]
        rw [ih l (sz - 1) _ (by omega)]
        simp only [List.dropWhile_cons, List.takeWhile_cons, hb, if_true, List.length_cons,
          appendAll, List.foldl_cons, Nat.cast_add, Nat.cast_one]
        congr 2
        omega

theorem op_loop_eq (op : Char) (n : Nat) : ∀ (l : List CStr) (sz : Int) (buf : CStr),
    l.length ≤ n →
    op_loop n op ⟨l, sz⟩ buf =
      (⟨l.dropWhile (fun t => op_cond t op),
        sz - ((l.takeWhile (fun t => op_cond t op)).length : Nat)⟩,
       appendAll buf (l.takeWhile (fun t => op_cond t op))) := by
  induction n with
  | zero =>
    intro l sz buf h
    have : l = [] := List.length_eq_zero.mp (by omega)
    subst this
    simp [op_loop, appendAll]
  | succ n ih =>
    intro l sz buf h
    cases l with
    | nil => simp [op_loop, peek, appendAll]
    | cons t l =>
      simp only [List.length_cons] at h
      by_cases ht : op_cond t op = true
      · simp only [op_loop, peek, List.head?_cons, ht, if_true, pop, Option.getD_some]
        rw [ih l (sz - 1) _ (by omega)]
        simp only [List.dropWhile_cons, List.takeWhile_cons, ht, if_true, List.length_cons,
          appendAll, List.foldl_cons, Nat.cast_add, Nat.cast_one]
        congr 2
        omega
      · simp [op_loop, peek, ht, appendAll]

theorem final_loop_eq (n : Nat) : ∀ (l : List CStr) (sz : Int) (buf : CStr), l.length ≤ n →
    final_loop n ⟨l, sz⟩ buf =
      if l.all (fun t => first t != '(' && first t != ')') then some (appendAll buf l)
      else none := by
  induction n with
  | zero =>
    intro l sz buf h
    have : l = [] := List.length_eq_zero.mp (by omega)
    subst this
    simp [final_loop, appendAll]
  | succ n ih =>
    intro l sz buf h
    cases l with
    | nil => simp [final_loop, is_empty, appendAll]
    | cons t l =>
      simp only [List.length_cons] at h
      by_cases ht : first t = '(' ∨ first t = ')'
      · have : (first t != '(' && first t != ')') = false := by
          rcases ht with h1 | h1 <;> simp [h1]
        simp [final_loop, is_empty, pop, ht, this]
      · have hb : (first t != '(' && first t != ')') = true := by
          simp only [not_or] at ht
          simp [ht.1, ht.2]
        simp only [final_loop, is_empty, List.isEmpty_cons, Bool.false_eq_true, if_false, pop,
          Option.getD_some, ht]
        rw [ih l (sz - 1) _ (by omega)]
        simp only [List.all_cons, hb, Bool.true_and, appendAll, List.foldl_cons]

/-! ## The conversion, step by step -/

theorem conv_nil (st : ConvState) : conv [] st = some (conv_finish st) :=
  scan_stop conv_body_shrinks (conv_body_nil st)

theorem conv_space {c : Char} (hc : isspace c = true) (cs : CStr) (st : ConvState) :
    conv (c :: cs) st = conv cs st := by
  unfold conv
  rw [scan_eq conv_body_shrinks, scan_eq conv_body_shrinks cs, conv_body_space hc]

theorem conv_spaces {w : CStr} (hw : AllSpace w) (cs : CStr) (st : ConvState) :
    conv (w ++ cs) st = conv cs st := by
  induction w with
  | nil => rfl
  | cons c w ih =>
    rw [List.cons_append, conv_space (hw c (List.mem_cons_self _ _))]
    exact ih (fun d hd => hw d (List.mem_cons_of_mem _ hd))

theorem space_not_operandChar {c : Char} (hc : isspace c = true) : isOperandChar c = false := by
  simp only [isspace, Bool.or_eq_true, decide_eq_true_eq, Bool.and_eq_true] at hc
  rcases hc with h | ⟨h1, h2⟩
  · subst h; decide
  · have hdot : c ≠ '.' := by
      intro h; subst h; revert h2; decide
    simp only [isOperandChar, isalnum, isalpha, isdigit, hdot, decide_False, Bool.or_false,
      Bool.or_eq_false_iff, Bool.and_eq_false_iff, decide_eq_false_iff_not]
    omega

theorem start_not_space {c : Char} (hc : (isalpha c || isdigit c) = true) : isspace c = false := by
  cases h : isspace c with
  | false => rfl
  | true =>
    have := space_not_operandChar h
    rw [isOperandChar_of_start hc] at this
    exact absurd this (by decide)

theorem takeWhile_run {x rest : CStr} (hx : ∀ c ∈ x, isOperandChar c = true)
    (hr : NoOperandStart rest) :
    (x ++ rest).takeWhile isOperandChar = x ∧ (x ++ rest).dropWhile isOperandChar = rest := by
  have h1 : rest.takeWhile isOperandChar = [] ∧ rest.dropWhile isOperandChar = rest := by
    cases rest with
    | nil => simp
    | cons c r =>
      have := hr c rfl
      simp [List.takeWhile_cons, List.dropWhile_cons, this]
  rw [List.takeWhile_append_of_pos hx, List.dropWhile_append_of_pos hx, h1.1, h1.2]
  simp

theorem conv_operand {c : Char} {x rest : CStr} (hc : (isalpha c || isdigit c) = true)
    (hx : ∀ d ∈ x, isOperandChar d = true) (hr : NoOperandStart rest) (st : ConvState) :
    conv (c :: x ++ rest) st =
      conv rest { st with buf := append_postfix st.buf ((c :: x).take 31) 255 } := by
  have h := takeWhile_run hx hr
  have hb := conv_body_operand hc (start_not_space hc) (x ++ rest) st
  rw [h.1, h.2] at hb
  exact scan_next conv_body_shrinks hb

theorem conv_lparen (cs : CStr) (st : ConvState) :
    conv ('(' :: cs) st = conv cs { st with op_stack := push st.op_stack ['('] } :=
  scan_next conv_body_shrinks (conv_body_lparen cs st)

theorem dropWhile_head_neg {α : Type} (p : α → Bool) (l : List α) (a : α) (l1 : List α)
    (h : l.dropWhile p = a :: l1) : p a = false := by
  induction l with
  | nil => simp at h
  | cons b l ih =>
    rw [List.dropWhile_cons] at h
    split at h
    · exact ih h
    · injection h with h1 h2
      subst h1
      simpa using ‹¬p b = true›

theorem conv_rparen (cs : CStr) (l : List CStr) (sz : Int) (buf : CStr) (unk : List Char) :
    conv (')' :: cs) ⟨⟨l, sz⟩, buf, unk⟩ =
      match l.dropWhile (fun t => first t != '(') with
      | [] => some (.mismatched unk)
      | _ :: l1 =>
        conv cs ⟨⟨l1, sz - ((l.takeWhile (fun t => first t != '(')).length : Nat) - 1⟩,
          appendAll buf (l.takeWhile (fun t => first t != '(')), unk⟩ := by
  have hb := conv_body_rparen cs ⟨⟨l, sz⟩, buf, unk⟩
  simp only [paren_loop_eq l.length l sz buf (le_refl _)] at hb
  cases hd : l.dropWhile (fun t => first t != '(') with
  | nil =>
    rw [hd] at hb
    simp only [peek, List.head?_nil] at hb
    exact scan_stop conv_body_shrinks hb
  | cons t l1 =>
    have ht := dropWhile_head_neg _ l t l1 hd
    simp only [bne_eq_false_iff_eq] at ht
    rw [hd] at hb
    simp only [peek, List.head?_cons, ht, if_true, pop] at hb
    exact scan_next conv_body_shrinks hb

theorem conv_operator {c : Char} (hc : is_operator_char c = true) (cs : CStr) (l : List CStr)
    (sz : Int) (buf : CStr) (unk : List Char) :
    conv (c :: cs) ⟨⟨l, sz⟩, buf, unk⟩ =
      conv cs ⟨⟨[c] :: l.dropWhile (fun t => op_cond t c),
          sz - ((l.takeWhile (fun t => op_cond t c)).length : Nat) + 1⟩,
        appendAll buf (l.takeWhile (fun t => op_cond t c)), unk⟩ := by
  have hb := conv_body_operator hc cs ⟨⟨l, sz⟩, buf, unk⟩
  simp only [op_loop_eq c l.length l sz buf (le_refl _)] at hb
  exact scan_next conv_body_shrinks hb

theorem conv_unknown {c : Char} (hs : isspace c = false)
    (ha : (isalpha c || isdigit c) = false) (h1 : c ≠ '(') (h2 : c ≠ ')')
    (ho : is_operator_char c = false) (cs : CStr) (st : ConvState) :
    conv (c :: cs) st = conv cs { st with unknown := st.unknown ++ [c] } :=
  scan_next conv_body_shrinks (conv_body_unknown hs ha h1 h2 ho cs st)

theorem conv_finish_eq (l : List CStr) (sz : Int) (buf : CStr) (unk : List Char) :
    conv_finish ⟨⟨l, sz⟩, buf, unk⟩ =
      if l.all (fun t => first t != '(' && first t != ')') then .final (appendAll buf l) unk
      else .mismatched unk := by
  simp only [conv_finish, final_loop_eq l.length l sz buf (le_refl _)]
  by_cases h : (l.all fun t => first t != '(' && first t != ')') = true
  · simp only [h, if_true]
  · simp only [h, if_false, Bool.false_eq_true]

/-! ## Correctness of the conversion on the conventional grammar -/

theorem spaced_append (a b : List CStr) : spaced (a ++ b) = spaced a ++ spaced b := by
  induction a with
  | nil => rfl
  | cons t a ih => simp [spaced, ih]

theorem appendAll_eq (toks : List CStr) : ∀ (buf : CStr),
    (buf ++ spaced toks).length < 254 → appendAll buf toks = buf ++ spaced toks := by
  induction toks with
  | nil => intro buf _; simp [appendAll, spaced]
  | cons t ts ih =>
    intro buf h
    simp only [spaced, List.length_append, List.length_cons] at h
    have h1 : append_postfix buf t 255 = buf ++ t ++ [' '] := by
      simp only [ append_postfix]
      rw [if_pos (by omega)]
    simp only [appendAll, List.foldl_cons, h1]
    have h2 : (buf ++ t ++ [' '] ++ spaced ts).length < 254 := by
      simp only [List.length_append, List.length_cons, List.length_nil]
      omega
    have := ih (buf ++ t ++ [' ']) h2
    simp only [appendAll] at this
    rw [this]
    simp [spaced]

theorem precedence_operator {o : Char} (h : is_operator_char o = true) :
    1 ≤ precedence o ∧ precedence o ≤ 3 ∧ (precedence o = 3 → o = '^') := by
  rw [is_operator_char_iff] at h
  rcases h with h | h | h | h | h <;> subst h <;> decide

theorem first_singleton (c : Char) : first [c] = c := rfl

theorem opTokens_append (a b : List Char) : opTokens (a ++ b) = opTokens a ++ opTokens b := by
  simp [opTokens]

theorem opTokens_not_paren {ops : List Char} (h : ∀ o ∈ ops, is_operator_char o = true) :
    ∀ t ∈ opTokens ops, (first t != '(') = true := by
  intro t ht
  simp only [opTokens, List.mem_map] at ht
  obtain ⟨o, ho, rfl⟩ := ht
  have := (operator_not_paren (h o ho)).1
  simpa [first_singleton] using this

theorem barrier_no_pop {op : Char} {l : List CStr} (hop : is_operator_char op = true)
    (hb : Barrier (precedence op) l) :
    l.takeWhile (fun t => op_cond t op) = [] ∧ l.dropWhile (fun t => op_cond t op) = l := by
  cases l with
  | nil => simp
  | cons t l =>
    have hcond : op_cond t op = false := by
      have hp := precedence_operator hop
      rcases hb t rfl with h | ⟨h1, h2⟩
      · simp only [op_cond, Bool.and_eq_false_iff, Bool.or_eq_false_iff, Bool.and_eq_false_iff,
          decide_eq_false_iff_not]
        right
        constructor
        · simp; omega
        · left; omega
      · have : op = '^' := hp.2.2 h2
        subst this
        simp [op_cond, h1]
    simp [List.takeWhile_cons, List.dropWhile_cons, hcond]

theorem ops_all_pop {op : Char} {p : Nat} {ops : List Char}
    (hops : ∀ o ∈ ops, is_operator_char o = true ∧ p ≤ precedence o)
    (hp : precedence op < p ∨ (precedence op = p ∧ op ≠ '^')) :
    ∀ t ∈ opTokens ops, op_cond t op = true := by
  intro t ht
  simp only [opTokens, List.mem_map] at ht
  obtain ⟨o, ho, rfl⟩ := ht
  have h1 := hops o ho
  have h2 := (operator_not_paren h1.1).1
  simp only [op_cond, first_singleton, ne_eq, h2, not_false_eq_true, decide_True, Bool.true_and,
    Bool.or_eq_true, decide_eq_true_eq, Bool.and_eq_true]
  rcases hp with h | ⟨h, h3⟩
  · left; omega
  · by_cases h4 : precedence o = precedence op
    · right; exact ⟨h4, by simpa using h3⟩
    · left; omega

theorem convSpec_operand (w1 x w2 : CStr) (h1 : AllSpace w1) (hx : isOperandToken x = true)
    (h2 : AllSpace w2) : ConvSpec 4 (w1 ++ x ++ w2) (.operand x) := by
  intro l sz buf unk rest _ hrest hlen
  cases x with
  | nil => simp [isOperandToken] at hx
  | cons c x =>
    simp only [isOperandToken, Bool.and_eq_true, List.all_eq_true, decide_eq_true_eq] at hx
    obtain ⟨⟨hc, hall⟩, hl⟩ := hx
    simp only [Expr.postorder, spaced, List.length_append, List.length_cons,
      List.length_nil] at hlen
    refine ⟨[], sz, buf ++ (c :: x) ++ [' '], ?_, ?_, ?_⟩
    · have hr2 : NoOperandStart (w2 ++ rest) := by
        cases w2 with
        | nil => simpa using hrest
        | cons d w2 =>
          intro e he
          simp only [List.cons_append, List.head?_cons, Option.some.injEq] at he
          subst he
          exact space_not_operandChar (h2 d (List.mem_cons_self _ _))
      have e1 : w1 ++ c :: x ++ w2 ++ rest = w1 ++ (c :: x ++ (w2 ++ rest)) := by
        simp only [List.append_assoc]
      rw [e1, conv_spaces h1, conv_operand hc hall hr2, conv_spaces h2]
      have h31 : (c :: x).take 31 = c :: x := List.take_of_length_le hl
      simp only [h31, opTokens, List.map_nil, List.nil_append, append_postfix]
      rw [if_pos (by simp only [List.length_cons]; omega)]
    · simp [opTokens, spaced, Expr.postorder]
    · intro o ho; simp at ho

theorem convSpec_paren (w1 s w2 : CStr) (t : Expr) (h1 : AllSpace w1) (ih : ConvSpec 1 s t)
    (h2 : AllSpace w2) : ConvSpec 4 (w1 ++ '(' :: s ++ ')' :: w2) t := by
  intro l sz buf unk rest _ hrest hlen
  have hb1 : Barrier 1 (['('] :: l) := by
    intro t ht
    simp only [List.head?_cons, Option.some.injEq] at ht
    subst ht
    left; decide
  have hr1 : NoOperandStart (')' :: (w2 ++ rest)) := by
    intro c hc
    simp only [List.head?_cons, Option.some.injEq] at hc
    subst hc; decide
  obtain ⟨ops, sz1, buf1, hrun, hbuf, hops⟩ :=
    ih (['('] :: l) (sz + 1) buf unk (')' :: (w2 ++ rest)) hb1 hr1 hlen
  refine ⟨[], sz1 - ((opTokens ops).length : Nat) - 1, buf ++ spaced t.postorder, ?_, ?_, ?_⟩
  · have e1 : w1 ++ '(' :: s ++ ')' :: w2 ++ rest = w1 ++ ('(' :: (s ++ ')' :: (w2 ++ rest))) := by
      simp only [List.append_assoc, List.cons_append]
    rw [e1, conv_spaces h1, conv_lparen]
    simp only [push, List.take, hrun]
    rw [conv_rparen]
    have hnp := opTokens_not_paren (fun o ho => (hops o ho).1)
    have htw : (opTokens ops ++ ['('] :: l).takeWhile (fun t => first t != '(') = opTokens ops := by
      rw [List.takeWhile_append_of_pos hnp]
      simp [List.takeWhile_cons, first]
    have hdw : (opTokens ops ++ ['('] :: l).dropWhile (fun t => first t != '(') = ['('] :: l := by
      rw [List.dropWhile_append_of_pos hnp]
      simp [List.dropWhile_cons, first]
    simp only [htw, hdw]
    rw [appendAll_eq _ _ (by rw [hbuf]; simp only [List.length_append]; omega), hbuf,
      conv_spaces h2]
    rfl
  · simp [opTokens, spaced]
  · intro o ho; simp at ho

theorem convSpec_up {p q : Nat} (hpq : q ≤ p) (hbar : ∀ l, Barrier q l → Barrier p l)
    (s : CStr) (t : Expr) (ih : ConvSpec p s t) : ConvSpec q s t := by
  intro l sz buf unk rest hb hrest hlen
  obtain ⟨ops, sz1, buf1, hrun, hbuf, hops⟩ := ih l sz buf unk rest (hbar l hb) hrest hlen
  exact ⟨ops, sz1, buf1, hrun, hbuf, fun o ho => ⟨(hops o ho).1, le_trans hpq (hops o ho).2⟩⟩

theorem convSpec_binop {q p1 p2 : Nat} {op : Char} (hop : is_operator_char op = true)
    (hq : precedence op = q) (hb1 : ∀ l, Barrier q l → Barrier p1 l)
    (hb2 : ∀ l, Barrier q l → Barrier p2 ([op] :: l))
    (hpop : precedence op < p1 ∨ (precedence op = p1 ∧ op ≠ '^')) (hq2 : q ≤ p2)
    (s1 s2 : CStr) (a b : Expr) (ih1 : ConvSpec p1 s1 a) (ih2 : ConvSpec p2 s2 b) :
    ConvSpec q (s1 ++ op :: s2) (.binop op a b) := by
  intro l sz buf unk rest hb hrest hlen
  simp only [Expr.postorder, spaced_append, List.length_append, spaced, List.length_cons,
    List.length_nil] at hlen
  have hr1 : NoOperandStart (op :: (s2 ++ rest)) := by
    intro c hc
    simp only [List.head?_cons, Option.some.injEq] at hc
    subst hc
    have h1 := operator_not_start hop
    rw [is_operator_char_iff] at hop
    rcases hop with h | h | h | h | h <;> subst h <;> decide
  obtain ⟨ops1, sz1, buf1, hrun1, hbuf1, hops1⟩ :=
    ih1 l sz buf unk (op :: (s2 ++ rest)) (hb1 l hb) hr1 (by omega)
  have hall := ops_all_pop hops1 hpop
  have hnone := barrier_no_pop hop (hq ▸ hb)
  have htw : (opTokens ops1 ++ l).takeWhile (fun t => op_cond t op) = opTokens ops1 := by
    rw [List.takeWhile_append_of_pos hall, hnone.1, List.append_nil]
  have hdw : (opTokens ops1 ++ l).dropWhile (fun t => op_cond t op) = l := by
    rw [List.dropWhile_append_of_pos hall, hnone.2]
  have hlen1 : (buf1 ++ spaced (opTokens ops1)).length < 254 := by
    rw [hbuf1]; simp only [List.length_append]; omega
  obtain ⟨ops2, sz2, buf2, hrun2, hbuf2, hops2⟩ :=
    ih2 ([op] :: l) (sz1 - ((opTokens ops1).length : Nat) + 1) (buf ++ spaced a.postorder) unk rest
      (hb2 l hb) hrest (by simp only [List.length_append]; omega)
  refine ⟨ops2 ++ [op], sz2, buf2, ?_, ?_, ?_⟩
  · have e1 : s1 ++ op :: s2 ++ rest = s1 ++ op :: (s2 ++ rest) := by
      simp only [List.append_assoc, List.cons_append]
    rw [e1, hrun1, conv_operator hop, htw, hdw, appendAll_eq _ _ hlen1, hbuf1, hrun2]
    simp [opTokens]
  · rw [opTokens_append, spaced_append, ← List.append_assoc, hbuf2]
    simp [opTokens, spaced, Expr.postorder, spaced_append]
  · intro o ho
    rw [List.mem_append] at ho
    rcases ho with ho | ho
    · exact ⟨(hops2 o ho).1, le_trans hq2 (hops2 o ho).2⟩
    · simp only [List.mem_singleton] at ho
      subst ho
      exact ⟨hop, le_of_eq hq.symm⟩

theorem barrier_mono (p q : Nat) (hpq : p ≤ q) (hp : p = 3 → q = 3 ∨ q = 4)
    (l : List CStr) (h : Barrier p l) : Barrier q l := by
  intro t ht
  rcases h t ht with h1 | ⟨h1, h2⟩
  · left; omega
  · rcases hp h2 with h3 | h3
    · right; exact ⟨h1, h3⟩
    · left; rw [h1, h3]; decide

theorem barrier_push {p : Nat} {op : Char} (h : precedence op < p ∨ (op = '^' ∧ p = 3))
    (l : List CStr) : Barrier p ([op] :: l) := by
  intro t ht
  simp only [List.head?_cons, Option.some.injEq] at ht
  subst ht
  exact h

theorem convSpec_of_parses {p : Nat} {s : CStr} {t : Expr} (h : Parses p s t) :
    ConvSpec p s t := by
  induction h with
  | operand w1 x w2 h1 hx h2 => exact convSpec_operand w1 x w2 h1 hx h2
  | paren w1 s w2 t h1 _ h2 ih => exact convSpec_paren w1 s w2 t h1 ih h2
  | pow_up s t _ ih =>
    exact convSpec_up (by omega) (barrier_mono 3 4 (by omega) (by omega)) s t ih
  | mul_up s t _ ih =>
    exact convSpec_up (by omega) (barrier_mono 2 3 (by omega) (by omega)) s t ih
  | add_up s t _ ih =>
    exact convSpec_up (by omega) (barrier_mono 1 2 (by omega) (by omega)) s t ih
  | pow s1 s2 l r _ _ ih1 ih2 =>
    exact convSpec_binop (by decide) (by decide)
      (barrier_mono 3 4 (by omega) (by omega))
      (fun l _ => barrier_push (Or.inr ⟨rfl, rfl⟩) l) (Or.inl (by decide)) (le_refl _)
      s1 s2 l r ih1 ih2
  | mul op s1 s2 l r hop _ _ ih1 ih2 =>
    have h1 : is_operator_char op = true ∧ precedence op = 2 ∧ op ≠ '^' := by
      rcases hop with h | h <;> subst h <;> decide
    exact convSpec_binop h1.1 h1.2.1 (fun l h => h)
      (fun l _ => barrier_push (Or.inl (by omega)) l) (Or.inr ⟨h1.2.1, h1.2.2⟩) (by omega)
      s1 s2 l r ih1 ih2
  | add op s1 s2 l r hop _ _ ih1 ih2 =>
    have h1 : is_operator_char op = true ∧ precedence op = 1 ∧ op ≠ '^' := by
      rcases hop with h | h <;> subst h <;> decide
    exact convSpec_binop h1.1 h1.2.1 (fun l h => h)
      (fun l _ => barrier_push (Or.inl (by omega)) l) (Or.inr ⟨h1.2.1, h1.2.2⟩) (by omega)
      s1 s2 l r ih1 ih2

theorem infix_to_postfix_eq_conv (s : CStr) :
    infix_to_postfix_stepwise s = conv s ⟨init_stack, [], []⟩ := rfl

/-- A string of the conventional grammar is converted to the post-order text of
its tree, as long as that text is shorter than 254 characters. -/
theorem parses_converts (s : CStr) (t : Expr) (h : Parses 1 s t)
    (hlen : (spaced t.postorder).length < 254) :
    infix_to_postfix_stepwise s = some (.final (spaced t.postorder) []) := by
  obtain ⟨ops, sz1, buf1, hrun, hbuf, hops⟩ :=
    convSpec_of_parses h [] 0 [] [] []
      (by intro t ht; simp at ht) (by intro c hc; simp at hc) (by simpa using hlen)
  rw [infix_to_postfix_eq_conv]
  simp only [List.append_nil] at hrun
  rw [init_stack, hrun, conv_nil, conv_finish_eq]
  have hall : (opTokens ops).all (fun t => first t != '(' && first t != ')') = true := by
    simp only [List.all_eq_true, opTokens, List.mem_map]
    rintro t ⟨o, ho, rfl⟩
    have := operator_not_paren (hops o ho).1
    simp [first_singleton, this.1, this.2]
  rw [if_pos hall, appendAll_eq _ _ (by rw [hbuf]; simpa using hlen), hbuf]
  simp

/-- C1. Shunting-yard correctness: when the infix string `s` parses to the tree
`t` under the conventional grammar (operand tokens of at most 31 characters,
precedence `^` over `*` `/` over `+` `-`, `^` right-associative, the others
left-associative, parentheses, optional whitespace) and the post-order text of
`t`, every token followed by one space, is shorter than 254 characters, then
`infix_to_postfix_stepwise` ends without the mismatched-parentheses error, with
no unknown token reported, and its buffer is exactly that post-order text. -/
theorem shunting_yard_correct (s : CStr) (t : Expr) (h : Parses 1 s t)
    (hlen : (spaced t.postorder).length < 254) :
    infix_to_postfix_stepwise s = some (.final (spaced t.postorder) []) :=
  parses_converts s t h hlen

/-- The input ` (A + B)*C ^ 2` parses to `((A + B) * (C ^ 2))` and is converted
to `A B + C 2 ^ * `. -/
theorem shunting_yard_correct_witness :
    Parses 1 " (A + B)*C ^ 2".toList
        (.binop '*' (.binop '+' (.operand ['A']) (.operand ['B']))
          (.binop '^' (.operand ['C']) (.operand ['2']))) ∧
      infix_to_postfix_stepwise " (A + B)*C ^ 2".toList
        = some (.final "A B + C 2 ^ * ".toList []) := by
  have hsp : AllSpace [' '] := by intro c hc; simp at hc; subst hc; decide
  have hnil : AllSpace [] := by intro c hc; simp at hc
  have hA : Parses 1 ['A', ' '] (.operand ['A']) :=
    .add_up _ _ (.mul_up _ _ (.pow_up _ _ (.operand [] ['A'] [' '] hnil (by decide) hsp)))
  have hB : Parses 2 [' ', 'B'] (.operand ['B']) :=
    .mul_up _ _ (.pow_up _ _ (.operand [' '] ['B'] [] hsp (by decide) hnil))
  have hAB : Parses 1 "A + B".toList (.binop '+' (.operand ['A']) (.operand ['B'])) :=
    .add '+' ['A', ' '] [' ', 'B'] _ _ (Or.inl rfl) hA hB
  have hP : Parses 2 " (A + B)".toList (.binop '+' (.operand ['A']) (.operand ['B'])) :=
    .mul_up _ _ (.pow_up _ _ (.paren [' '] "A + B".toList [] _ hsp hAB hnil))
  have hC : Parses 4 ['C', ' '] (.operand ['C']) := .operand [] ['C'] [' '] hnil (by decide) hsp
  have h2 : Parses 3 [' ', '2'] (.operand ['2']) :=
    .pow_up _ _ (.operand [' '] ['2'] [] hsp (by decide) hnil)
  have hC2 : Parses 3 "C ^ 2".toList (.binop '^' (.operand ['C']) (.operand ['2'])) :=
    .pow ['C', ' '] [' ', '2'] _ _ hC h2
  have hall : Parses 1 " (A + B)*C ^ 2".toList
      (.binop '*' (.binop '+' (.operand ['A']) (.operand ['B']))
        (.binop '^' (.operand ['C']) (.operand ['2']))) :=
    .add_up _ _ (.mul '*' " (A + B)".toList "C ^ 2".toList _ _ (Or.inl rfl) hP hC2)
  exact ⟨hall, shunting_yard_correct _ _ hall (by decide)⟩

/-! ## Two operators, and parentheses -/

theorem noOperandStart_nil : NoOperandStart [] := by
  intro c hc; simp at hc

theorem noOperandStart_cons {c : Char} (hc : isOperandChar c = false) (rest : CStr) :
    NoOperandStart (c :: rest) := by
  intro d hd
  simp only [List.head?_cons, Option.some.injEq] at hd
  subst hd; exact hc

theorem operator_not_operandChar {c : Char} (hc : is_operator_char c = true) :
    isOperandChar c = false := by
  rw [is_operator_char_iff] at hc
  rcases hc with h | h | h | h | h <;> subst h <;> decide

theorem noOperandStart_spaces {w rest : CStr} (hw : AllSpace w) (hr : NoOperandStart rest) :
    NoOperandStart (w ++ rest) := by
  cases w with
  | nil => simpa using hr
  | cons d w => exact noOperandStart_cons (space_not_operandChar (hw d (List.mem_cons_self _ _))) _

theorem isOperandToken_iff (x : CStr) : isOperandToken x = true ↔
    ∃ c cs, x = c :: cs ∧ (isalpha c || isdigit c) = true ∧
      (∀ d ∈ cs, isOperandChar d = true) ∧ x.length ≤ 31 := by
  cases x with
  | nil => simp [isOperandToken]
  | cons c cs =>
    constructor
    · intro h
      simp only [isOperandToken, Bool.and_eq_true, List.all_eq_true, decide_eq_true_eq] at h
      exact ⟨c, cs, rfl, h.1.1, h.1.2, h.2⟩
    · rintro ⟨c1, cs1, he, h1, h2, h3⟩
      injection he with he1 he2
      subst he1 he2
      simp only [isOperandToken, Bool.and_eq_true, List.all_eq_true, decide_eq_true_eq]
      exact ⟨⟨h1, h2⟩, h3⟩

/-- An operand token that fits into the buffer goes straight to it. -/
theorem conv_token {x rest : CStr} (hx : isOperandToken x = true) (hr : NoOperandStart rest)
    (st : ConvState) (hlen : st.buf.length + x.length + 2 < 255) :
    conv (x ++ rest) st = conv rest { st with buf := st.buf ++ x ++ [' '] } := by
  obtain ⟨c, cs, rfl, hc, hall, hl⟩ := (isOperandToken_iff x).mp hx
  rw [conv_operand hc hall hr, List.take_of_length_le hl, append_postfix, if_pos hlen]

/-- An operand token between whitespace. -/
theorem conv_spaced_token {w x rest : CStr} (hw : AllSpace w) (hx : isOperandToken x = true)
    (hr : NoOperandStart rest) (st : ConvState) (hlen : st.buf.length + x.length + 2 < 255) :
    conv (w ++ x ++ rest) st = conv rest { st with buf := st.buf ++ x ++ [' '] } := by
  rw [List.append_assoc, conv_spaces hw, conv_token hx hr st hlen]

theorem isOperandToken_length {x : CStr} (hx : isOperandToken x = true) : x.length ≤ 31 := by
  obtain ⟨c, cs, _, _, _, hl⟩ := (isOperandToken_iff x).mp hx
  exact hl

theorem append_postfix_fits {buf t : CStr} (h : buf.length + t.length + 2 < 255) :
    append_postfix buf t 255 = buf ++ t ++ [' '] := by
  rw [ append_postfix, if_pos h]

/-- C2. Precedence and associativity on two operators: for operand tokens `x`,
`y`, `z` (at most 31 characters each) and operators `o1`, `o2` among
`+ - * / ^`, with any whitespace between the tokens, the conversion of
`x o1 y o2 z` gives the tokens `x y o1 z o2` when `precedence o1 > precedence o2`
or the precedences are equal and `o2` is not `^`, and `x y z o2 o1` otherwise. -/
theorem two_operators (x y z : CStr) (o1 o2 : Char) (w1 w2 w3 w4 : CStr)
    (hx : isOperandToken x = true) (hy : isOperandToken y = true)
    (hz : isOperandToken z = true) (ho1 : is_operator_char o1 = true)
    (ho2 : is_operator_char o2 = true) (hw1 : AllSpace w1) (hw2 : AllSpace w2)
    (hw3 : AllSpace w3) (hw4 : AllSpace w4) :
    infix_to_postfix_stepwise (x ++ (w1 ++ o1 :: (w2 ++ y ++ (w3 ++ o2 :: (w4 ++ z))))) =
      some (.final
        (if precedence o1 > precedence o2 ∨ (precedence o1 = precedence o2 ∧ o2 ≠ '^')
          then spaced [x, y, [o1], z, [o2]] else spaced [x, y, z, [o2], [o1]]) []) := by
  have lx := isOperandToken_length hx
  have ly := isOperandToken_length hy
  have lz := isOperandToken_length hz
  have hp1 := operator_not_paren ho1
  have hp2 := operator_not_paren ho2
  have e1 : conv (x ++ (w1 ++ o1 :: (w2 ++ y ++ (w3 ++ o2 :: (w4 ++ z))))) ⟨⟨[], 0⟩, [], []⟩ =
      conv (w3 ++ o2 :: (w4 ++ z)) ⟨⟨[[o1]], 1⟩, x ++ [' '] ++ y ++ [' '], []⟩ := by
    rw [conv_token hx
        (noOperandStart_spaces hw1 (noOperandStart_cons (operator_not_operandChar ho1) _))
        _ (by simp only [List.length_nil]; omega),
      conv_spaces hw1, conv_operator ho1]
    simp only [List.takeWhile_nil, List.dropWhile_nil, appendAll, List.foldl_nil,
      List.nil_append, List.length_nil, Nat.cast_zero, sub_zero, zero_add]
    rw [conv_spaced_token hw2 hy
        (noOperandStart_spaces hw3 (noOperandStart_cons (operator_not_operandChar ho2) _))
        _ (by simp only [List.length_append, List.length_cons, List.length_nil]; omega)]
  have hz1 : w4 ++ z = w4 ++ z ++ [] := by simp
  rw [infix_to_postfix_eq_conv, init_stack, e1, conv_spaces hw3, conv_operator ho2, hz1]
  by_cases hc : precedence o1 > precedence o2 ∨ (precedence o1 = precedence o2 ∧ o2 ≠ '^')
  · have hcond : op_cond [o1] o2 = true := by
      simp only [op_cond, first_singleton, ne_eq, hp1.1, not_false_eq_true, decide_True,
        Bool.true_and, Bool.or_eq_true, decide_eq_true_eq, Bool.and_eq_true]
      exact hc
    have hfit : (x ++ [' '] ++ y ++ [' ']).length + [o1].length + 2 < 255 := by
      simp only [List.length_append, List.length_cons, List.length_nil]; omega
    simp only [List.takeWhile_cons, List.dropWhile_cons, hcond, if_true, List.takeWhile_nil,
      List.dropWhile_nil, appendAll, List.foldl_cons, List.foldl_nil, append_postfix_fits hfit]
    rw [conv_spaced_token hw4 hz noOperandStart_nil _
      (by simp only [List.length_append, List.length_cons, List.length_nil]; omega),
      conv_nil, conv_finish_eq, if_pos hc]
    have hfit2 : (x ++ [' '] ++ y ++ [' '] ++ [o1] ++ [' '] ++ z ++ [' ']).length + [o2].length + 2
        < 255 := by
      simp only [List.length_append, List.length_cons, List.length_nil]; omega
    simp only [List.all_cons, List.all_nil, first_singleton, bne_iff_ne, ne_eq, hp2.1, hp2.2,
      not_false_eq_true, Bool.and_self, if_true, appendAll, List.foldl_cons, List.foldl_nil,
      append_postfix_fits hfit2, decide_True]
    simp [spaced, hp2.1, hp2.2]
  · have hcond : op_cond [o1] o2 = false := by
      simp only [op_cond, first_singleton, ne_eq, hp1.1, not_false_eq_true, decide_True,
        Bool.true_and, Bool.or_eq_false_iff, decide_eq_false_iff_not, Bool.and_eq_false_iff]
      simp only [not_or, not_and_or] at hc
      exact ⟨hc.1, hc.2.imp id (by simp)⟩
    simp only [List.takeWhile_cons, List.dropWhile_cons, hcond, Bool.false_eq_true, if_false,
      appendAll, List.foldl_nil]
    rw [conv_spaced_token hw4 hz noOperandStart_nil _
      (by simp only [List.length_append, List.length_cons, List.length_nil]; omega),
      conv_nil, conv_finish_eq, if_neg hc]
    have hfit2 : (x ++ [' '] ++ y ++ [' '] ++ z ++ [' ']).length + [o2].length + 2 < 255 := by
      simp only [List.length_append, List.length_cons, List.length_nil]; omega
    have hfit3 : (x ++ [' '] ++ y ++ [' '] ++ z ++ [' '] ++ [o2] ++ [' ']).length + [o1].length + 2
        < 255 := by
      simp only [List.length_append, List.length_cons, List.length_nil]; omega
    simp only [List.all_cons, List.all_nil, first_singleton, bne_iff_ne, ne_eq, hp2.1, hp2.2,
      hp1.1, hp1.2, not_false_eq_true, Bool.and_self, if_true, appendAll, List.foldl_cons,
      List.foldl_nil, append_postfix_fits hfit2, append_postfix_fits hfit3, decide_True]
    simp [spaced, hp2.1, hp2.2, hp1.1, hp1.2]

/-- The spec's examples: `A+B*C` gives `A B C * +` and `2^3^2` gives `2 3 2 ^ ^`. -/
theorem two_operators_witness :
    infix_to_postfix_stepwise "A+B*C".toList = some (.final "A B C * + ".toList []) ∧
    infix_to_postfix_stepwise "2 ^ 3 ^ 2".toList = some (.final "2 3 2 ^ ^ ".toList []) := by
  have hnil : AllSpace [] := by intro c hc; simp at hc
  have hsp : AllSpace [' '] := by intro c hc; simp at hc; subst hc; decide
  exact ⟨two_operators ['A'] ['B'] ['C'] '+' '*' [] [] [] [] (by decide) (by decide) (by decide)
      (by decide) (by decide) hnil hnil hnil hnil,
    two_operators ['2'] ['3'] ['2'] '^' '^' [' '] [' '] [' '] [' '] (by decide) (by decide)
      (by decide) (by decide) (by decide) hsp hsp hsp hsp⟩

/-- Two atoms joined by an operator form an expression of the grammar. -/
theorem parses_binop_atoms {s1 s2 : CStr} {l r : Expr} {op : Char}
    (hop : is_operator_char op = true) (hl : Parses 4 s1 l) (hr : Parses 4 s2 r) :
    Parses 1 (s1 ++ op :: s2) (.binop op l r) := by
  rw [is_operator_char_iff] at hop
  rcases hop with h | h | h | h | h <;> subst h
  · exact .add _ _ _ _ _ (Or.inl rfl) (.add_up _ _ (.mul_up _ _ (.pow_up _ _ hl)))
      (.mul_up _ _ (.pow_up _ _ hr))
  · exact .add _ _ _ _ _ (Or.inr rfl) (.add_up _ _ (.mul_up _ _ (.pow_up _ _ hl)))
      (.mul_up _ _ (.pow_up _ _ hr))
  · exact .add_up _ _ (.mul _ _ _ _ _ (Or.inl rfl) (.mul_up _ _ (.pow_up _ _ hl))
      (.pow_up _ _ hr))
  · exact .add_up _ _ (.mul _ _ _ _ _ (Or.inr rfl) (.mul_up _ _ (.pow_up _ _ hl))
      (.pow_up _ _ hr))
  · exact .add_up _ _ (.mul_up _ _ (.pow _ _ _ _ hl (.pow_up _ _ hr)))

/-- C3. Parentheses override precedence: for operand tokens `x`, `y`, `z` (at
most 31 characters each), operators `o1`, `o2` among `+ - * / ^` and any
whitespace around the tokens, `(x o1 y) o2 z` is converted to the tokens
`x y o1 z o2` and `x o1 (y o2 z)` to `x y z o2 o1`, whatever the precedences. -/
theorem parentheses_override (x y z : CStr) (o1 o2 : Char) (w1 w2 w3 w4 w5 w6 w7 w8 : CStr)
    (hx : isOperandToken x = true) (hy : isOperandToken y = true)
    (hz : isOperandToken z = true) (ho1 : is_operator_char o1 = true)
    (ho2 : is_operator_char o2 = true) (hw1 : AllSpace w1) (hw2 : AllSpace w2)
    (hw3 : AllSpace w3) (hw4 : AllSpace w4) (hw5 : AllSpace w5) (hw6 : AllSpace w6)
    (hw7 : AllSpace w7) (hw8 : AllSpace w8) :
    infix_to_postfix_stepwise
        ((w1 ++ '(' :: ((w2 ++ x ++ w3) ++ o1 :: (w4 ++ y ++ w5)) ++ ')' :: w6)
          ++ o2 :: (w7 ++ z ++ w8))
      = some (.final (spaced [x, y, [o1], z, [o2]]) []) ∧
    infix_to_postfix_stepwise
        ((w1 ++ x ++ w2)
          ++ o1 :: (w3 ++ '(' :: ((w4 ++ y ++ w5) ++ o2 :: (w6 ++ z ++ w7)) ++ ')' :: w8))
      = some (.final (spaced [x, y, z, [o2], [o1]]) []) := by
  have lx := isOperandToken_length hx
  have ly := isOperandToken_length hy
  have lz := isOperandToken_length hz
  constructor
  · have hp := parses_binop_atoms ho2
      (.paren w1 _ w6 _ hw1
        (parses_binop_atoms ho1 (.operand w2 x w3 hw2 hx hw3) (.operand w4 y w5 hw4 hy hw5)) hw6)
      (.operand w7 z w8 hw7 hz hw8)
    have := parses_converts _ _ hp (by
      simp only [Expr.postorder, spaced, List.cons_append, List.nil_append, List.length_append,
        List.length_cons, List.length_nil]
      omega)
    simpa [Expr.postorder] using this
  · have hp := parses_binop_atoms ho1 (.operand w1 x w2 hw1 hx hw2)
      (.paren w3 _ w8 _ hw3
        (parses_binop_atoms ho2 (.operand w4 y w5 hw4 hy hw5) (.operand w6 z w7 hw6 hz hw7)) hw8)
    have := parses_converts _ _ hp (by
      simp only [Expr.postorder, spaced, List.cons_append, List.nil_append, List.length_append,
        List.length_cons, List.length_nil]
      omega)
    simpa [Expr.postorder] using this

/-- The spec's example `(A+B)*C` gives `A B + C *`; and `A+(B*C)` gives `A B C * +`. -/
theorem parentheses_override_witness :
    infix_to_postfix_stepwise "(A+B)*C".toList = some (.final "A B + C * ".toList []) ∧
    infix_to_postfix_stepwise "A*(B+C)".toList = some (.final "A B C + * ".toList []) := by
  have hnil : AllSpace [] := by intro c hc; simp at hc
  exact ⟨(parentheses_override ['A'] ['B'] ['C'] '+' '*' [] [] [] [] [] [] [] [] (by decide)
      (by decide) (by decide) (by decide) (by decide) hnil hnil hnil hnil hnil hnil hnil hnil).1,
    (parentheses_override ['A'] ['B'] ['C'] '*' '+' [] [] [] [] [] [] [] [] (by decide)
      (by decide) (by decide) (by decide) (by decide) hnil hnil hnil hnil hnil hnil hnil hnil).2⟩

/-! ## Mismatched parentheses -/

theorem parens_cons_other {c : Char} (h1 : c ≠ '(') (h2 : c ≠ ')') (cs : CStr) :
    parens (c :: cs) = parens cs := by
  simp [parens, List.filter_cons, h1, h2]

theorem operandChar_not_paren {c : Char} (h : isOperandChar c = true) : c ≠ '(' ∧ c ≠ ')' := by
  constructor <;> (intro hc; subst hc; revert h; decide)

theorem space_not_paren {c : Char} (h : isspace c = true) : c ≠ '(' ∧ c ≠ ')' := by
  constructor <;> (intro hc; subst hc; revert h; decide)

theorem parens_dropWhile_operand (cs : CStr) :
    parens (cs.dropWhile isOperandChar) = parens cs := by
  induction cs with
  | nil => rfl
  | cons c cs ih =>
    by_cases h : isOperandChar c = true
    · have := operandChar_not_paren h
      rw [List.dropWhile_cons_of_pos h, ih, parens_cons_other this.1 this.2]
    · rw [List.dropWhile_cons_of_neg h]

theorem openCount_takeWhile_dropWhile (p : CStr → Bool) (hp : ∀ t, p t = true → first t ≠ '(')
    (l : List CStr) : openCount (l.dropWhile p) = openCount l := by
  induction l with
  | nil => rfl
  | cons t l ih =>
    by_cases h : p t = true
    · rw [List.dropWhile_cons_of_pos h, ih]
      have := hp t h
      simp [openCount, List.countP_cons, this]
    · rw [List.dropWhile_cons_of_neg h]

theorem mem_of_mem_dropWhile {α : Type} (p : α → Bool) (l : List α) (a : α)
    (h : a ∈ l.dropWhile p) : a ∈ l :=
  (List.dropWhile_sublist p).subset h

/-- The mismatched-parentheses message depends on the parentheses only: it comes
exactly when they are not balanced, counted from the `(` tokens on the stack. -/
theorem conv_mismatched (n : Nat) : ∀ (cs : CStr) (l : List CStr) (sz : Int) (buf : CStr)
    (unk : List Char), cs.length ≤ n → (∀ t ∈ l, first t ≠ ')') →
    isMismatched (conv cs ⟨⟨l, sz⟩, buf, unk⟩) = !balancedFrom (openCount l) (parens cs) := by
  induction n with
  | zero =>
    intro cs l sz buf unk hn hl
    have : cs = [] := List.length_eq_zero.mp (by omega)
    subst this
    rw [conv_nil, conv_finish_eq]
    simp only [parens, List.filter_nil, balancedFrom, openCount]
    by_cases h0 : l.countP (fun t => first t == '(') = 0
    · have hall : l.all (fun t => first t != '(' && first t != ')') = true := by
        rw [List.countP_eq_zero] at h0
        simp only [List.all_eq_true, Bool.and_eq_true, bne_iff_ne, ne_eq]
        intro t ht
        exact ⟨by simpa using h0 t ht, hl t ht⟩
      simp [hall, h0, isMismatched]
    · have hall : ¬ (l.all (fun t => first t != '(' && first t != ')') = true) := by
        intro hall
        apply h0
        rw [List.countP_eq_zero]
        simp only [List.all_eq_true, Bool.and_eq_true, bne_iff_ne, ne_eq] at hall
        intro t ht
        simpa using (hall t ht).1
      simp [hall, h0, isMismatched]
  | succ n ih =>
    intro cs l sz buf unk hn hl
    cases cs with
    | nil => exact ih [] l sz buf unk (by simp) hl
    | cons c cs =>
      simp only [List.length_cons] at hn
      by_cases hs : isspace c = true
      · have := space_not_paren hs
        rw [conv_space hs, parens_cons_other this.1 this.2]
        exact ih cs l sz buf unk (by omega) hl
      simp only [Bool.not_eq_true] at hs
      by_cases ha : (isalpha c || isdigit c) = true
      · have hb := scan_next conv_body_shrinks (conv_body_operand ha hs cs ⟨⟨l, sz⟩, buf, unk⟩)
        have hnp := operandChar_not_paren (isOperandChar_of_start ha)
        have hlen := length_dropWhile_le isOperandChar cs
        rw [conv, hb, parens_cons_other hnp.1 hnp.2, ← parens_dropWhile_operand cs]
        exact ih _ l sz _ unk (by omega) hl
      simp only [Bool.not_eq_true] at ha
      by_cases h1 : c = '('
      · subst h1
        rw [conv_lparen]
        simp only [push, List.take]
        rw [ih cs _ _ _ _ (by omega) (by
          intro t ht
          simp only [List.mem_cons] at ht
          rcases ht with h | h
          · subst h; decide
          · exact hl t h)]
        simp [parens, List.filter_cons, balancedFrom, openCount, List.countP_cons, first]
      by_cases h2 : c = ')'
      · subst h2
        rw [conv_rparen]
        have hcount := openCount_takeWhile_dropWhile (fun t => first t != '(')
          (by intro t ht; simpa using ht) l
        cases hd : l.dropWhile (fun t => first t != '(') with
        | nil =>
          rw [hd] at hcount
          simp only [openCount, List.countP_nil] at hcount
          simp [parens, List.filter_cons, balancedFrom, openCount, ← hcount, isMismatched]
        | cons t l1 =>
          have ht := dropWhile_head_neg _ l t l1 hd
          simp only [bne_eq_false_iff_eq] at ht
          rw [hd] at hcount
          have hl1 : ∀ t ∈ l1, first t ≠ ')' := by
            intro u hu
            exact hl u (mem_of_mem_dropWhile _ l u (by rw [hd]; exact List.mem_cons_of_mem _ hu))
          simp only []
          rw [ih cs l1 _ _ _ (by omega) hl1]
          have hc : openCount l = openCount l1 + 1 := by
            rw [← hcount]
            simp [openCount, List.countP_cons, ht]
          simp [parens, List.filter_cons, balancedFrom, hc]
      by_cases ho : is_operator_char c = true
      · rw [conv_operator ho, parens_cons_other h1 h2]
        have hcount := openCount_takeWhile_dropWhile (fun t => op_cond t c)
          (by intro t ht; simp only [op_cond, Bool.and_eq_true] at ht; simpa using ht.1) l
        rw [ih cs _ _ _ _ (by omega) (by
          intro t ht
          simp only [List.mem_cons] at ht
          rcases ht with h | h
          · subst h; simpa [first] using h2
          · exact hl t (mem_of_mem_dropWhile _ l t h))]
        have : openCount ([c] :: l.dropWhile (fun t => op_cond t c)) = openCount l := by
          rw [← hcount]
          simp [openCount, List.countP_cons, first, h1]
        rw [this]
      · simp only [Bool.not_eq_true] at ho
        rw [conv_unknown hs ha h1 h2 ho, parens_cons_other h1 h2]
        exact ih cs l sz buf _ (by omega) hl

theorem mismatched_unbalanced_iff (s : CStr) :
    isMismatched (infix_to_postfix_stepwise s) = !balanced (parens s) := by
  rw [infix_to_postfix_eq_conv, init_stack,
    conv_mismatched s.length s [] 0 [] [] (le_refl _) (by intro t ht; simp at ht)]
  simp [openCount, balanced]

/-- C4. For every input string, `infix_to_postfix_stepwise` ends with the
mismatched-parentheses message if and only if the sequence of `(` and `)` of the
input is unbalanced; the other characters have no influence, the criterion
reads the parentheses only. -/
theorem mismatched_iff_unbalanced (s : CStr) :
    isMismatched (infix_to_postfix_stepwise s) = true ↔ balanced (parens s) = false := by
  rw [mismatched_unbalanced_iff]
  simp

/-- The spec's example: `(A+B` fails with the mismatched-parentheses message. -/
theorem mismatched_example :
    infix_to_postfix_stepwise "(A+B".toList = some (.mismatched []) := by
  decide

/-! ## Unknown characters are passed over -/

theorem isUnknownChar_iff (c : Char) : isUnknownChar c = true ↔
    isspace c = false ∧ isOperandChar c = false ∧ c ≠ '(' ∧ c ≠ ')' ∧
      is_operator_char c = false := by
  simp [isUnknownChar, and_assoc]

theorem not_start_of_not_operandChar {c : Char} (h : isOperandChar c = false) :
    (isalpha c || isdigit c) = false := by
  cases h1 : (isalpha c || isdigit c) with
  | false => rfl
  | true => rw [isOperandChar_of_start h1] at h; exact absurd h (by decide)

theorem takeWhile_blankOut {c : Char} (hc : isOperandChar c = false) (cs : CStr) :
    (blankOut c cs).takeWhile isOperandChar = cs.takeWhile isOperandChar ∧
    (blankOut c cs).dropWhile isOperandChar = blankOut c (cs.dropWhile isOperandChar) := by
  induction cs with
  | nil => exact ⟨rfl, rfl⟩
  | cons d cs ih =>
    by_cases hd : d = c
    · subst hd
      have hsp : isOperandChar ' ' = false := by decide
      simp [blankOut, List.takeWhile_cons, List.dropWhile_cons, hc, hsp]
    · by_cases ho : isOperandChar d = true
      · simp only [blankOut, List.map_cons, hd, if_false, List.takeWhile_cons, ho, if_true,
          List.dropWhile_cons, List.cons.injEq, true_and]
        exact ih
      · simp [blankOut, List.takeWhile_cons, List.dropWhile_cons, hd, ho]

theorem blankOut_length (c : Char) (cs : CStr) : (blankOut c cs).length = cs.length := by
  simp [blankOut]

theorem outcome_conv_finish (s : Stack) (buf : CStr) (u1 u2 : List Char) :
    outcome (some (conv_finish ⟨s, buf, u1⟩)) = outcome (some (conv_finish ⟨s, buf, u2⟩)) := by
  simp only [conv_finish]
  cases final_loop s.top.length s buf <;> rfl

/-- Blanking out an unknown character does not change what the conversion
produces from any state, whatever has been reported so far. -/
theorem conv_blankOut {c : Char} (hc : isUnknownChar c = true) (n : Nat) :
    ∀ (cs : CStr) (l : List CStr) (sz : Int) (buf : CStr) (u1 u2 : List Char), cs.length ≤ n →
    outcome (conv cs ⟨⟨l, sz⟩, buf, u1⟩) = outcome (conv (blankOut c cs) ⟨⟨l, sz⟩, buf, u2⟩) := by
  obtain ⟨hcs, hco, hc1, hc2, hcp⟩ := (isUnknownChar_iff c).mp hc
  have hca := not_start_of_not_operandChar hco
  induction n with
  | zero =>
    intro cs l sz buf u1 u2 hn
    have : cs = [] := List.length_eq_zero.mp (by omega)
    subst this
    simp only [blankOut, List.map_nil, conv_nil]
    exact outcome_conv_finish _ _ _ _
  | succ n ih =>
    intro cs l sz buf u1 u2 hn
    cases cs with
    | nil => exact ih [] l sz buf u1 u2 (by simp)
    | cons d cs =>
      simp only [List.length_cons] at hn
      have hsp : isspace ' ' = true := by decide
      by_cases hd : d = c
      · subst hd
        have e : blankOut d (d :: cs) = ' ' :: blankOut d cs := by simp [blankOut]
        rw [e, conv_space hsp, conv_unknown hcs hca hc1 hc2 hcp]
        exact ih cs l sz buf _ u2 (by omega)
      have e : blankOut c (d :: cs) = d :: blankOut c cs := by simp [blankOut, hd]
      rw [e]
      by_cases hs : isspace d = true
      · rw [conv_space hs, conv_space hs]
        exact ih cs l sz buf u1 u2 (by omega)
      simp only [Bool.not_eq_true] at hs
      by_cases ha : (isalpha d || isdigit d) = true
      · have hb1 := scan_next conv_body_shrinks (conv_body_operand ha hs cs ⟨⟨l, sz⟩, buf, u1⟩)
        have hb2 := scan_next conv_body_shrinks
          (conv_body_operand ha hs (blankOut c cs) ⟨⟨l, sz⟩, buf, u2⟩)
        have ht := takeWhile_blankOut hco cs
        have hlen := length_dropWhile_le isOperandChar cs
        rw [conv, hb1, conv, hb2, ht.1, ht.2]
        exact ih _ l sz _ u1 u2 (by omega)
      simp only [Bool.not_eq_true] at ha
      by_cases h1 : d = '('
      · subst h1
        rw [conv_lparen, conv_lparen]
        exact ih cs _ _ buf u1 u2 (by omega)
      by_cases h2 : d = ')'
      · subst h2
        rw [conv_rparen, conv_rparen]
        cases l.dropWhile (fun t => first t != '(') with
        | nil => rfl
        | cons t l1 => exact ih cs l1 _ _ u1 u2 (by omega)
      by_cases ho : is_operator_char d = true
      · rw [conv_operator ho, conv_operator ho]
        exact ih cs _ _ _ u1 u2 (by omega)
      · simp only [Bool.not_eq_true] at ho
        rw [conv_unknown hs ha h1 h2 ho, conv_unknown hs ha h1 h2 ho]
        exact ih cs l sz buf _ _ (by omega)

/-- C5. The converter continues scanning past an unknown character: for every
input `s` and every character `c` that is not whitespace, a letter, a digit, `.`,
a parenthesis or one of `+ - * / ^`, the outcome of the conversion of `s` (the
final text, or the mismatched-parentheses failure) is the outcome of the
conversion of `s` with every occurrence of `c` replaced by a space. -/
theorem unknown_char_like_space (s : CStr) (c : Char) (hc : isUnknownChar c = true) :
    outcome (infix_to_postfix_stepwise s) = outcome (infix_to_postfix_stepwise (blankOut c s)) := by
  rw [infix_to_postfix_eq_conv, infix_to_postfix_eq_conv, init_stack]
  exact conv_blankOut hc s.length s [] 0 [] [] [] (le_refl _)

/-- On `A$B+C` the `$` is reported and passed over: the result is that of `A B+C`. -/
theorem unknown_char_like_space_witness :
    isUnknownChar '$' = true ∧
      outcome (infix_to_postfix_stepwise "A$B+C".toList)
        = outcome (infix_to_postfix_stepwise "A B+C".toList) :=
  ⟨by decide, unknown_char_like_space "A$B+C".toList '$' (by decide)⟩

/-! ## Unknown characters are reported, not fatal -/

/-- A scanning loop whose body consumes input always ends with a result. -/
theorem scan_total {σ ρ : Type} {body : CStr → σ → LoopStep σ ρ} (hb : Shrinks body)
    (n : Nat) : ∀ (cs : CStr) (st : σ), cs.length ≤ n → ∃ r, scan body cs st = some r := by
  induction n with
  | zero =>
    intro cs st hn
    rw [scan_eq hb]
    cases h : body cs st with
    | stop r => exact ⟨r, rfl⟩
    | next rest st1 => have := hb cs st rest st1 h; omega
  | succ n ih =>
    intro cs st hn
    rw [scan_eq hb]
    cases h : body cs st with
    | stop r => exact ⟨r, rfl⟩
    | next rest st1 =>
      have := hb cs st rest st1 h
      exact ih rest st1 (by omega)

theorem filter_unknown_cons_known {c : Char} (h : isUnknownChar c = false) (cs : CStr) :
    (c :: cs).filter isUnknownChar = cs.filter isUnknownChar := by
  simp [List.filter_cons, h]

theorem filter_unknown_dropWhile (cs : CStr) :
    (cs.dropWhile isOperandChar).filter isUnknownChar = cs.filter isUnknownChar := by
  induction cs with
  | nil => rfl
  | cons c cs ih =>
    by_cases h : isOperandChar c = true
    · rw [List.dropWhile_cons_of_pos h, ih, filter_unknown_cons_known (by simp [isUnknownChar, h])]
    · rw [List.dropWhile_cons_of_neg h]

/-- When the conversion reaches its final text, the unknown characters of the
input have all been reported, in their order. -/
theorem conv_reports (n : Nat) : ∀ (cs : CStr) (l : List CStr) (sz : Int) (buf : CStr)
    (u : List Char) (b : CStr) (unk : List Char), cs.length ≤ n →
    conv cs ⟨⟨l, sz⟩, buf, u⟩ = some (.final b unk) →
    unk.filter isUnknownChar = u.filter isUnknownChar ++ cs.filter isUnknownChar := by
  induction n with
  | zero =>
    intro cs l sz buf u b unk hn h
    have : cs = [] := List.length_eq_zero.mp (by omega)
    subst this
    rw [conv_nil, conv_finish_eq] at h
    split at h
    · injection h with h; injection h with h1 h2; subst h2; simp
    · simp at h
  | succ n ih =>
    intro cs l sz buf u b unk hn h
    cases cs with
    | nil => exact ih [] l sz buf u b unk (by simp) h
    | cons c cs =>
      simp only [List.length_cons] at hn
      by_cases hs : isspace c = true
      · rw [conv_space hs] at h
        rw [filter_unknown_cons_known (by simp [isUnknownChar, hs])]
        exact ih cs l sz buf u b unk (by omega) h
      simp only [Bool.not_eq_true] at hs
      by_cases ha : (isalpha c || isdigit c) = true
      · have hb := scan_next conv_body_shrinks (conv_body_operand ha hs cs ⟨⟨l, sz⟩, buf, u⟩)
        have hlen := length_dropWhile_le isOperandChar cs
        rw [conv, hb] at h
        rw [filter_unknown_cons_known (by simp [isUnknownChar, isOperandChar_of_start ha]),
          ← filter_unknown_dropWhile cs]
        exact ih _ l sz _ u b unk (by omega) h
      simp only [Bool.not_eq_true] at ha
      by_cases h1 : c = '('
      · subst h1
        rw [conv_lparen] at h
        rw [filter_unknown_cons_known (by decide)]
        exact ih cs _ _ buf u b unk (by omega) h
      by_cases h2 : c = ')'
      · subst h2
        rw [conv_rparen] at h
        rw [filter_unknown_cons_known (by decide)]
        cases hd : l.dropWhile (fun t => first t != '(') with
        | nil => rw [hd] at h; simp at h
        | cons t l1 =>
          rw [hd] at h
          exact ih cs l1 _ _ u b unk (by omega) h
      by_cases ho : is_operator_char c = true
      · rw [conv_operator ho] at h
        rw [filter_unknown_cons_known (by simp [isUnknownChar, ho])]
        exact ih cs _ _ _ u b unk (by omega) h
      · simp only [Bool.not_eq_true] at ho
        rw [conv_unknown hs ha h1 h2 ho] at h
        have := ih cs l sz buf _ b unk (by omega) h
        rw [this]
        by_cases hu : isUnknownChar c = true
        · simp [List.filter_cons, hu]
        · simp [List.filter_cons, hu]

/-- C6, as the code has it. An unknown token does not end the conversion: on
every input whose parentheses are balanced, also one with characters that are
not whitespace, letters, digits, `.`, parentheses or `+ - * / ^`, the converter
goes on scanning and delivers its final text, and the unknown characters of the
input are all among the reported ones, in their order. -/
theorem unknown_token_not_fatal (s : CStr) (hb : balanced (parens s) = true) :
    ∃ (buf : CStr) (unk : List Char),
      infix_to_postfix_stepwise s = some (.final buf unk) ∧
      unk.filter isUnknownChar = s.filter isUnknownChar := by
  obtain ⟨r, hr⟩ := scan_total conv_body_shrinks s.length s
    (⟨init_stack, [], []⟩ : ConvState) (le_refl _)
  have hr1 : infix_to_postfix_stepwise s = some r := hr
  have hm := (mismatched_unbalanced_iff s)
  rw [hr1, hb] at hm
  cases r with
  | mismatched u => simp [isMismatched] at hm
  | final buf unk =>
    refine ⟨buf, unk, hr1, ?_⟩
    have := conv_reports s.length s [] 0 [] [] buf unk (le_refl _) hr
    simpa using this

/-- On `A$B` the `$` is reported and the conversion still delivers `A B `. -/
theorem unknown_token_not_fatal_witness :
    balanced (parens "A$B".toList) = true ∧
      ∃ (buf : CStr) (unk : List Char),
        infix_to_postfix_stepwise "A$B".toList = some (.final buf unk) ∧
        unk.filter isUnknownChar = "A$B".toList.filter isUnknownChar :=
  ⟨by decide, unknown_token_not_fatal "A$B".toList (by decide)⟩

/-- The input `A$B` contains the unknown character `$`, yet the conversion does
not fail: it delivers the text `A B ` and only reports the `$`. -/
theorem unknown_token_fatal_counterexample :
    isUnknownChar '$' = true ∧ '$' ∈ "A$B".toList ∧
      infix_to_postfix_stepwise "A$B".toList = some (.final "A B ".toList ['$']) := by
  decide

/-! ## Postfix to infix, step by step -/

theorem build_body_nil (s : Stack) : build_body [] s = .stop (.scanned s) := rfl

theorem build_body_space {c : Char} (hc : isspace c = true) (cs : CStr) (s : Stack) :
    build_body (c :: cs) s = build_body cs s := by
  simp only [build_body, List.dropWhile_cons, hc, if_true]

theorem isOperandChar_eq : (fun d => isalnum d || decide (d = '.')) = isOperandChar := rfl

theorem operandChar_not_space {c : Char} (hc : isOperandChar c = true) : isspace c = false := by
  cases h : isspace c with
  | false => rfl
  | true => rw [space_not_operandChar h] at hc; exact absurd hc (by decide)

theorem build_body_operand {c : Char} (hc : isOperandChar c = true) (cs : CStr) (s : Stack) :
    build_body (c :: cs) s =
      .next (cs.dropWhile isOperandChar) (push s ((c :: cs.takeWhile isOperandChar).take 31)) := by
  have hs := operandChar_not_space hc
  have hc1 : (isalnum c || decide (c = '.')) = true := hc
  simp only [build_body, List.dropWhile_cons, hs, Bool.false_eq_true, if_false, hc1, if_true,
    isOperandChar_eq, List.takeWhile_cons, hc]

theorem build_body_operator {c : Char} (hs : isspace c = false) (hc : isOperandChar c = false)
    (cs : CStr) (s : Stack) :
    build_body (c :: cs) s =
      if s.size < 2 then .stop (.insufficient [c])
      else .next cs (push (pop (pop s).2).2
        ((['('] ++ (pop (pop s).2).1.getD [] ++ [' '] ++ [c] ++ [' '] ++ (pop s).1.getD []
          ++ [')']).take 127)) := by
  have hc1 : (isalnum c || decide (c = '.')) = false := hc
  simp only [build_body, List.dropWhile_cons, hs, Bool.false_eq_true, if_false, hc1]

theorem build_body_shrinks : Shrinks build_body := by
  intro cs
  induction cs with
  | nil => intro st rest st1 h; simp [build_body_nil] at h
  | cons c cs ih =>
    intro st rest st1 h
    by_cases hs : isspace c = true
    · rw [build_body_space hs] at h
      have := ih st rest st1 h
      simp only [List.length_cons]; omega
    · simp only [Bool.not_eq_true] at hs
      by_cases ha : isOperandChar c = true
      · rw [build_body_operand ha] at h
        injection h with h1 h2
        subst h1
        have := length_dropWhile_le isOperandChar cs
        simp only [List.length_cons]; omega
      · simp only [Bool.not_eq_true] at ha
        rw [build_body_operator hs ha] at h
        split at h
        · simp at h
        · injection h with h1 h2
          subst h1; simp

theorem bscan_nil (s : Stack) : bscan [] s = some (.scanned s) :=
  scan_stop build_body_shrinks (build_body_nil s)

theorem bscan_space {c : Char} (hc : isspace c = true) (cs : CStr) (s : Stack) :
    bscan (c :: cs) s = bscan cs s := by
  unfold bscan
  rw [scan_eq build_body_shrinks, scan_eq build_body_shrinks cs, build_body_space hc]

theorem bscan_operand {c : Char} (hc : isOperandChar c = true) (cs : CStr) (s : Stack) :
    bscan (c :: cs) s =
      bscan (cs.dropWhile isOperandChar) (push s ((c :: cs.takeWhile isOperandChar).take 31)) :=
  scan_next build_body_shrinks (build_body_operand hc cs s)

theorem bscan_operator_fail {c : Char} (hs : isspace c = false) (hc : isOperandChar c = false)
    (cs : CStr) (s : Stack) (h : s.size < 2) :
    bscan (c :: cs) s = some (.insufficient [c]) := by
  have hb := build_body_operator hs hc cs s
  rw [if_pos h] at hb
  exact scan_stop build_body_shrinks hb

theorem bscan_operator {c : Char} (hs : isspace c = false) (hc : isOperandChar c = false)
    (cs : CStr) (s : Stack) (h : ¬ s.size < 2) :
    bscan (c :: cs) s =
      bscan cs (push (pop (pop s).2).2
        ((['('] ++ (pop (pop s).2).1.getD [] ++ [' '] ++ [c] ++ [' '] ++ (pop s).1.getD []
          ++ [')']).take 127)) := by
  have hb := build_body_operator hs hc cs s
  rw [if_neg h] at hb
  exact scan_next build_body_shrinks hb

/-- A whole operand run is pushed as one token, cut to 31 characters. -/
theorem bscan_run {x rest : CStr} (hx : isBuildOperand x = true) (hr : NoOperandStart rest)
    (s : Stack) : bscan (x ++ rest) s = bscan rest (push s x) := by
  cases x with
  | nil => simp [isBuildOperand] at hx
  | cons c x =>
    simp only [isBuildOperand, List.isEmpty_cons, Bool.not_false, Bool.true_and,
      List.all_cons, Bool.and_eq_true, List.all_eq_true] at hx
    have h := takeWhile_run hx.2 hr
    rw [List.cons_append, bscan_operand hx.1, h.1, h.2]
    simp [push, List.take_take]

theorem unwords_cons_of_ne_nil (t : CStr) {ts : List CStr} (h : ts ≠ []) :
    unwords (t :: ts) = t ++ ' ' :: unwords ts := by
  cases ts with
  | nil => exact absurd rfl h
  | cons u ts => rfl

theorem unwords_append {a b : List CStr} (ha : a ≠ []) (hb : b ≠ []) :
    unwords (a ++ b) = unwords a ++ ' ' :: unwords b := by
  induction a with
  | nil => exact absurd rfl ha
  | cons t a ih =>
    cases a with
    | nil => simp [unwords_cons_of_ne_nil t hb, unwords]
    | cons u a =>
      have h1 : (u :: a) ++ b ≠ [] := by simp
      rw [List.cons_append, unwords_cons_of_ne_nil t h1, ih (by simp),
        unwords_cons_of_ne_nil t (by simp)]
      simp

theorem postorder_ne_nil (t : Expr) : t.postorder ≠ [] := by
  cases t <;> simp [Expr.postorder]

/-- The builder turns the postfix text of a tree into one stack entry. -/
theorem bscan_tree (t : Expr) : validPostfix t = true → ∀ (l : List CStr) (sz : Int) (rest : CStr),
    0 ≤ sz → NoOperandStart rest →
    bscan (unwords t.postorder ++ rest) ⟨l, sz⟩ = bscan rest ⟨t.renderCut :: l, sz + 1⟩ := by
  induction t with
  | operand x =>
    intro hv l sz rest _ hr
    simp only [Expr.postorder, unwords, Expr.renderCut]
    rw [bscan_run hv hr]
    rfl
  | binop op a b iha ihb =>
    intro hv l sz rest hsz hr
    simp only [validPostfix, Bool.and_eq_true] at hv
    obtain ⟨⟨hop, hva⟩, hvb⟩ := hv
    simp only [isBuildOperator, Bool.and_eq_true, Bool.not_eq_true'] at hop
    have hsp : isspace ' ' = true := by decide
    have hns : ∀ r : CStr, NoOperandStart (' ' :: r) := fun r => noOperandStart_cons (by decide) r
    have e : unwords (Expr.binop op a b).postorder ++ rest =
        unwords a.postorder ++ (' ' :: (unwords b.postorder ++ (' ' :: op :: rest))) := by
      simp only [Expr.postorder]
      rw [List.append_assoc, unwords_append (postorder_ne_nil a) (by simp),
        unwords_append (postorder_ne_nil b) (by simp)]
      simp [unwords]
    rw [e, iha hva l sz _ hsz (hns _), bscan_space hsp, ihb hvb _ _ _ (by omega) (hns _),
      bscan_space hsp, bscan_operator hop.1 hop.2 _ _ (by simp only []; omega)]
    simp only [pop, push, Option.getD_some, Expr.renderCut, List.take_take]
    have : sz + 1 + 1 - 1 - 1 + 1 = sz + 1 := by omega
    rw [this]
    rfl

theorem renderCut_eq (t : Expr) : t.render.length ≤ 31 → t.renderCut = t.render := by
  induction t with
  | operand x =>
    intro h
    exact List.take_of_length_le h
  | binop op a b iha ihb =>
    intro h
    simp only [Expr.render, List.length_append, List.length_cons, List.length_nil] at h
    simp only [Expr.renderCut, Expr.render, iha (by omega), ihb (by omega)]
    apply List.take_of_length_le
    simp only [List.length_append, List.length_cons, List.length_nil]
    omega

theorem build_scan_eq_bscan (input : CStr) : build_scan input = bscan input init_stack := rfl

/-- C7, as the code has it. For every valid postfix token sequence, written with
single spaces between the tokens, `postfix_to_infix_stepwise` ends with exactly
one stack entry and shows it; that entry is the fully parenthesized infix string
of the expression in which every string was cut to the 31 characters of a stack
node when it was pushed, the left operand being the one pushed earlier. It is
the complete infix string whenever that string has at most 31 characters. -/
theorem build_infix_correct (t : Expr) (hv : validPostfix t = true) :
    build_scan (unwords t.postorder) = some (.scanned ⟨[t.renderCut], 1⟩) ∧
    postfix_to_infix_stepwise (unwords t.postorder) = some (.complete (some t.renderCut)) ∧
    (t.render.length ≤ 31 → t.renderCut = t.render) := by
  have h := bscan_tree t hv [] 0 [] (le_refl _) noOperandStart_nil
  simp only [List.append_nil, zero_add] at h
  rw [bscan_nil] at h
  have h1 : build_scan (unwords t.postorder) = some (.scanned ⟨[t.renderCut], 1⟩) := by
    rw [build_scan_eq_bscan, init_stack, h]
  refine ⟨h1, ?_, renderCut_eq t⟩
  simp [postfix_to_infix_stepwise, h1, build_finish, pop]

/-- The spec's example: `A B +` gives `(A + B)`. -/
theorem build_infix_correct_witness :
    validPostfix (.binop '+' (.operand ['A']) (.operand ['B'])) = true ∧
      postfix_to_infix_stepwise "A B +".toList = some (.complete (some "(A + B)".toList)) :=
  ⟨by decide, (build_infix_correct (.binop '+' (.operand ['A']) (.operand ['B']))
    (by decide)).2.1⟩

/-- The valid postfix sequence `A B + C D + * E F + G H + * *` stands for
`(((A + B) * (C + D)) * ((E + F) * (G + H)))`, 43 characters long; the builder
ends with the first 31 characters of that string only. -/
theorem build_infix_counterexample :
    validPostfix wideExpr = true ∧
      unwords wideExpr.postorder = "A B + C D + * E F + G H + * *".toList ∧
      wideExpr.render = "(((A + B) * (C + D)) * ((E + F) * (G + H)))".toList ∧
      postfix_to_infix_stepwise "A B + C D + * E F + G H + * *".toList
        = some (.complete (some "(((A + B) * (C + D)) * ((E + F)".toList)) ∧
      postfix_to_infix_stepwise (unwords wideExpr.postorder)
        ≠ some (.complete (some wideExpr.render)) := by
  decide

/-! ## When the builder succeeds -/

theorem ptokens_true_eq (cs : CStr) :
    ptokens true cs = ptokens false (cs.dropWhile isOperandChar) := by
  induction cs with
  | nil => rfl
  | cons c cs ih =>
    by_cases h : isOperandChar c = true
    · rw [List.dropWhile_cons_of_pos h, ← ih]
      simp [ptokens, h]
    · rw [List.dropWhile_cons_of_neg h]
      simp [ptokens, h]

theorem ptokens_operand {c : Char} (h : isOperandChar c = true) (cs : CStr) :
    ptokens false (c :: cs) = .operand :: ptokens false (cs.dropWhile isOperandChar) := by
  rw [← ptokens_true_eq]
  simp [ptokens, h]

theorem ptokens_space {c : Char} (h : isspace c = true) (cs : CStr) :
    ptokens false (c :: cs) = ptokens false cs := by
  simp [ptokens, h, space_not_operandChar h]

theorem ptokens_operator {c : Char} (hs : isspace c = false) (hc : isOperandChar c = false)
    (cs : CStr) : ptokens false (c :: cs) = .operator c :: ptokens false cs := by
  simp [ptokens, hs, hc]

/-- The builder follows `sizeRun` on the tokens of its input. -/
theorem bscan_sizeRun (n : Nat) : ∀ (cs : CStr) (l : List CStr), cs.length ≤ n →
    (∀ c, sizeRun l.length (ptokens false cs) = .error c →
      bscan cs ⟨l, l.length⟩ = some (.insufficient [c])) ∧
    (∀ m, sizeRun l.length (ptokens false cs) = .ok m →
      ∃ l1 : List CStr, l1.length = m ∧ bscan cs ⟨l, l.length⟩ = some (.scanned ⟨l1, m⟩)) := by
  induction n with
  | zero =>
    intro cs l hn
    have : cs = [] := List.length_eq_zero.mp (by omega)
    subst this
    simp only [ptokens, sizeRun, bscan_nil]
    constructor
    · intro c h; simp at h
    · intro m h
      injection h with h
      subst h
      exact ⟨l, rfl, rfl⟩
  | succ n ih =>
    intro cs l hn
    cases cs with
    | nil => exact ih [] l (by simp)
    | cons c cs =>
      simp only [List.length_cons] at hn
      by_cases hs : isspace c = true
      · rw [ptokens_space hs, bscan_space hs]
        exact ih cs l (by omega)
      simp only [Bool.not_eq_true] at hs
      by_cases ha : isOperandChar c = true
      · have hlen := length_dropWhile_le isOperandChar cs
        rw [ptokens_operand ha, bscan_operand ha]
        simp only [sizeRun, push]
        have := ih (cs.dropWhile isOperandChar)
          (List.take 31 (List.take 31 (c :: cs.takeWhile isOperandChar)) :: l) (by omega)
        simp only [List.length_cons, Nat.cast_add, Nat.cast_one] at this
        exact this
      simp only [Bool.not_eq_true] at ha
      rw [ptokens_operator hs ha]
      simp only [sizeRun]
      by_cases h2 : l.length < 2
      · rw [if_pos h2, bscan_operator_fail hs ha cs _ (by simp only []; omega)]
        constructor
        · intro d h; injection h with h; subst h; rfl
        · intro m h; simp at h
      · rw [if_neg h2, bscan_operator hs ha cs _ (by simp only []; omega)]
        rcases l with _ | ⟨a, _ | ⟨b, l0⟩⟩
        · simp at h2
        · simp at h2
        · simp only [pop, push, Option.getD_some, List.length_cons]
          have := ih cs (List.take 31 (List.take 127
            (['('] ++ b ++ [' '] ++ [c] ++ [' '] ++ a ++ [')'])) :: l0) (by omega)
          simp only [List.length_cons, Nat.cast_add, Nat.cast_one] at this
          have e1 : l0.length + 1 + 1 - 1 = l0.length + 1 := by omega
          have e2 : ((↑(l0.length + 1 + 1) : Int) - 1 - 1 + 1) = (l0.length : Int) + 1 := by
            push_cast; omega
          rw [e1, e2]
          exact this

theorem enoughFrom_nil (n : Nat) : EnoughFrom n [] := by
  intro pre c post h
  simp at h

theorem enoughFrom_operand {n : Nat} {ts : List PTok} (h : EnoughFrom (n + 1) ts) :
    EnoughFrom n (.operand :: ts) := by
  intro pre c post he
  cases pre with
  | nil => simp at he
  | cons p pre =>
    simp only [List.cons_append, List.cons.injEq] at he
    obtain ⟨hp, hts⟩ := he
    subst hp
    have := h pre c post hts
    simp only [operandCount, operatorCount, List.countP_cons, PTok.isOperand] at this ⊢
    simp only [Bool.not_true, Bool.not_false, Bool.false_eq_true, if_false, if_true]
    omega

theorem enoughFrom_operator {n : Nat} {d : Char} {ts : List PTok} (hn : 2 ≤ n)
    (h : EnoughFrom (n - 1) ts) : EnoughFrom n (.operator d :: ts) := by
  intro pre c post he
  cases pre with
  | nil => simp [operandCount, operatorCount]; omega
  | cons p pre =>
    simp only [List.cons_append, List.cons.injEq] at he
    obtain ⟨hp, hts⟩ := he
    subst hp
    have := h pre c post hts
    simp only [operandCount, operatorCount, List.countP_cons, PTok.isOperand] at this ⊢
    simp only [Bool.not_true, Bool.not_false, Bool.false_eq_true, if_false, if_true]
    omega

theorem sizeRun_ok (ts : List PTok) : ∀ (n m : Nat), sizeRun n ts = .ok m →
    EnoughFrom n ts ∧ m + operatorCount ts = n + operandCount ts := by
  induction ts with
  | nil =>
    intro n m h
    simp only [sizeRun] at h
    injection h with h
    subst h
    exact ⟨enoughFrom_nil _, by simp [operandCount, operatorCount]⟩
  | cons t ts ih =>
    intro n m h
    cases t with
    | operand =>
      simp only [sizeRun] at h
      obtain ⟨h1, h2⟩ := ih _ _ h
      refine ⟨enoughFrom_operand h1, ?_⟩
      simp only [operandCount, operatorCount, List.countP_cons, PTok.isOperand] at h2 ⊢
      simp only [Bool.not_true, Bool.not_false, Bool.false_eq_true, if_false, if_true]
      omega
    | operator d =>
      simp only [sizeRun] at h
      by_cases hn : n < 2
      · rw [if_pos hn] at h; simp at h
      · rw [if_neg hn] at h
        obtain ⟨h1, h2⟩ := ih _ _ h
        refine ⟨enoughFrom_operator (by omega) h1, ?_⟩
        simp only [operandCount, operatorCount, List.countP_cons, PTok.isOperand] at h2 ⊢
        simp only [Bool.not_true, Bool.not_false, Bool.false_eq_true, if_false, if_true]
        omega

theorem sizeRun_error (ts : List PTok) : ∀ (n : Nat) (c : Char), sizeRun n ts = .error c →
    ∃ pre post, ts = pre ++ PTok.operator c :: post ∧ EnoughFrom n pre ∧
      n + operandCount pre < operatorCount pre + 2 := by
  induction ts with
  | nil => intro n c h; simp [sizeRun] at h
  | cons t ts ih =>
    intro n c h
    cases t with
    | operand =>
      simp only [sizeRun] at h
      obtain ⟨pre, post, he, h1, h2⟩ := ih _ _ h
      refine ⟨.operand :: pre, post, by rw [he]; rfl, enoughFrom_operand h1, ?_⟩
      simp only [operandCount, operatorCount, List.countP_cons, PTok.isOperand] at h2 ⊢
      simp only [Bool.not_true, Bool.not_false, Bool.false_eq_true, if_false, if_true]
      omega
    | operator d =>
      simp only [sizeRun] at h
      by_cases hn : n < 2
      · rw [if_pos hn] at h
        injection h with h
        subst h
        exact ⟨[], ts, rfl, enoughFrom_nil _, by simp [operandCount, operatorCount]; omega⟩
      · rw [if_neg hn] at h
        obtain ⟨pre, post, he, h1, h2⟩ := ih _ _ h
        refine ⟨.operator d :: pre, post, by rw [he]; rfl,
          enoughFrom_operator (by omega) h1, ?_⟩
        simp only [operandCount, operatorCount, List.countP_cons, PTok.isOperand] at h2 ⊢
        simp only [Bool.not_true, Bool.not_false, Bool.false_eq_true, if_false, if_true]
        omega

/-- C8. For every input string, with operand tokens the maximal runs of
letters, digits and `.` and operator tokens every other non-whitespace
character, `postfix_to_infix_stepwise` succeeds if and only if (1) before each
operator token the operand tokens read so far exceed the operator tokens read
so far by at least 2 and (2) there is one operand token more than operator
tokens. When (1) is violated it fails with the insufficient-operands message at
the first such operator; when (1) holds and (2) does not, with the
invalid-expression message. -/
theorem build_succeeds_iff (input : CStr) :
    ((∃ e, postfix_to_infix_stepwise input = some (.complete (some e))) ↔
      EnoughOperands (ptokens false input) ∧ OneResult (ptokens false input)) ∧
    (¬ EnoughOperands (ptokens false input) →
      ∃ pre c post, ptokens false input = pre ++ PTok.operator c :: post ∧
        EnoughOperands pre ∧ operandCount pre < operatorCount pre + 2 ∧
        postfix_to_infix_stepwise input = some (.insufficient [c])) ∧
    (EnoughOperands (ptokens false input) → ¬ OneResult (ptokens false input) →
      postfix_to_infix_stepwise input = some .invalid) := by
  have hA := bscan_sizeRun input.length input [] (le_refl _)
  simp only [List.length_nil, Nat.cast_zero] at hA
  have hscan : build_scan input = bscan input ⟨[], 0⟩ := rfl
  cases hrun : sizeRun 0 (ptokens false input) with
  | error c =>
    have hres : postfix_to_infix_stepwise input = some (.insufficient [c]) := by
      simp [postfix_to_infix_stepwise, hscan, hA.1 c hrun, build_finish]
    obtain ⟨pre, post, he, h1, h2⟩ := sizeRun_error _ _ _ hrun
    have hnot : ¬ EnoughOperands (ptokens false input) := by
      intro h
      have := h pre c post he
      omega
    refine ⟨?_, ?_, ?_⟩
    · rw [hres]
      constructor
      · rintro ⟨e, h⟩; simp at h
      · rintro ⟨h, _⟩; exact absurd h hnot
    · intro _
      exact ⟨pre, c, post, he, h1, by omega, hres⟩
    · intro h; exact absurd h hnot
  | ok m =>
    obtain ⟨l1, hl1, hb⟩ := hA.2 m hrun
    obtain ⟨h1, h2⟩ := sizeRun_ok _ _ _ hrun
    simp only [zero_add] at h2
    have hone : OneResult (ptokens false input) ↔ m = 1 := by
      simp only [OneResult]; omega
    refine ⟨?_, ?_, ?_⟩
    · by_cases hm : m = 1
      · subst hm
        match l1, hl1 with
        | [a], _ =>
          have hres : postfix_to_infix_stepwise input = some (.complete (some a)) := by
            simp [postfix_to_infix_stepwise, hscan, hb, build_finish, pop]
          exact ⟨fun _ => ⟨h1, hone.mpr rfl⟩, fun _ => ⟨a, hres⟩⟩
      · have hres : postfix_to_infix_stepwise input = some .invalid := by
          simp only [postfix_to_infix_stepwise, hscan, hb, build_finish, Option.map_some']
          rw [if_pos (by simp only [ne_eq]; omega)]
        rw [hres]
        constructor
        · rintro ⟨e, h⟩; simp at h
        · rintro ⟨_, h⟩; exact absurd (hone.mp h) hm
    · intro h; exact absurd h1 h
    · intro _ h
      have hm : m ≠ 1 := fun hm => h (hone.mpr hm)
      simp only [postfix_to_infix_stepwise, hscan, hb, build_finish, Option.map_some']
      rw [if_pos (by simp only [ne_eq]; omega)]

/-- The empty input and `A B` fail with the invalid-expression message, `A +`
with the insufficient-operands message, and `A B +` succeeds. -/
theorem build_examples :
    postfix_to_infix_stepwise [] = some .invalid ∧
    postfix_to_infix_stepwise "A B".toList = some .invalid ∧
    postfix_to_infix_stepwise "A +".toList = some (.insufficient ['+']) ∧
    postfix_to_infix_stepwise "A B +".toList = some (.complete (some "(A + B)".toList)) := by
  decide

/-! ## Numeric evaluation, step by step -/

theorem eval_body_nil {D : Type} (F : FloatOps D) (s : Stack) :
    eval_body F [] s = .stop (.scanned s) := rfl

theorem eval_body_space {D : Type} (F : FloatOps D) (cs : CStr) (s : Stack) :
    eval_body F (' ' :: cs) s = eval_body F cs s := by
  simp only [eval_body, List.dropWhile_cons, decide_True, if_true]

theorem isNumChar_eq : (fun d => isdigit d || decide (d = '.')) = isNumChar := rfl

theorem numChar_not_space {c : Char} (hc : isNumChar c = true) : c ≠ ' ' := by
  intro h; subst h; revert hc; decide

theorem eval_body_operand {D : Type} (F : FloatOps D) {c : Char} (hc : isNumChar c = true)
    (cs : CStr) (s : Stack) :
    eval_body F (c :: cs) s =
      .next (cs.dropWhile isNumChar) (push s ((c :: cs.takeWhile isNumChar).take 31)) := by
  have hs := numChar_not_space hc
  have hc1 : (isdigit c || decide (c = '.')) = true := hc
  simp only [eval_body, List.dropWhile_cons, hs, decide_False, Bool.false_eq_true, if_false, hc1,
    if_true, isNumChar_eq, List.takeWhile_cons, hc]

theorem eval_body_operator {D : Type} (F : FloatOps D) {c : Char} (hs : c ≠ ' ')
    (hc : isNumChar c = false) (cs : CStr) (s : Stack) :
    eval_body F (c :: cs) s =
      if s.size < 2 then .stop .failed
      else
        match (pop (pop s).2).1 with
        | none => .stop .failed
        | some val1_s =>
          match apply_op F c (F.atof val1_s) (F.atof ((pop s).1.getD [])) with
          | none => .stop .failed
          | some res => .next cs (push (pop (pop s).2).2 ((F.fmt_lf res).take 31)) := by
  have hc1 : (isdigit c || decide (c = '.')) = false := hc
  simp only [eval_body, List.dropWhile_cons, hs, decide_False, Bool.false_eq_true, if_false, hc1]

theorem eval_body_shrinks {D : Type} (F : FloatOps D) : Shrinks (eval_body F) := by
  intro cs
  induction cs with
  | nil => intro st rest st1 h; simp [eval_body_nil] at h
  | cons c cs ih =>
    intro st rest st1 h
    by_cases hs : c = ' '
    · subst hs
      rw [eval_body_space] at h
      have := ih st rest st1 h
      simp only [List.length_cons]; omega
    · by_cases ha : isNumChar c = true
      · rw [eval_body_operand F ha] at h
        injection h with h1 h2
        subst h1
        have := length_dropWhile_le isNumChar cs
        simp only [List.length_cons]; omega
      · simp only [Bool.not_eq_true] at ha
        rw [eval_body_operator F hs ha] at h
        split at h
        · simp at h
        · split at h
          · simp at h
          · split at h
            · simp at h
            · injection h with h1 h2
              subst h1; simp

theorem escan_nil {D : Type} (F : FloatOps D) (s : Stack) :
    escan F [] s = some (.scanned s) :=
  scan_stop (eval_body_shrinks F) (eval_body_nil F s)

theorem escan_space {D : Type} (F : FloatOps D) (cs : CStr) (s : Stack) :
    escan F (' ' :: cs) s = escan F cs s := by
  unfold escan
  rw [scan_eq (eval_body_shrinks F), scan_eq (eval_body_shrinks F) cs, eval_body_space]

theorem takeWhile_numRun {x rest : CStr} (hx : ∀ c ∈ x, isNumChar c = true)
    (hr : NoNumStart rest) :
    (x ++ rest).takeWhile isNumChar = x ∧ (x ++ rest).dropWhile isNumChar = rest := by
  have h1 : rest.takeWhile isNumChar = [] ∧ rest.dropWhile isNumChar = rest := by
    cases rest with
    | nil => simp
    | cons c r =>
      have := hr c rfl
      simp [List.takeWhile_cons, List.dropWhile_cons, this]
  rw [List.takeWhile_append_of_pos hx, List.dropWhile_append_of_pos hx, h1.1, h1.2]
  simp

/-- A whole numeric literal is pushed as one token, cut to 31 characters. -/
theorem escan_run {D : Type} (F : FloatOps D) {x rest : CStr}
    (hx : isNumericLiteral x = true) (hr : NoNumStart rest) (s : Stack) :
    escan F (x ++ rest) s = escan F rest (push s x) := by
  cases x with
  | nil => simp [isNumericLiteral] at hx
  | cons c x =>
    simp only [isNumericLiteral, List.isEmpty_cons, Bool.not_false, Bool.true_and,
      List.all_cons, Bool.and_eq_true, List.all_eq_true] at hx
    have h := takeWhile_numRun hx.2 hr
    have hb := eval_body_operand F hx.1 (x ++ rest) s
    rw [h.1, h.2] at hb
    rw [List.cons_append, escan, scan_next (eval_body_shrinks F) hb]
    simp [escan, push, List.take_take]

/-- An operator on a stack that holds two entries at least. -/
theorem escan_operator {D : Type} (F : FloatOps D) {c : Char} (hs : c ≠ ' ')
    (hc : isNumChar c = false) (cs : CStr) (a b : CStr) (l : List CStr) (sz : Int)
    (hsz : ¬ sz < 2) (res : D) (hres : apply_op F c (F.atof b) (F.atof a) = some res) :
    escan F (c :: cs) ⟨a :: b :: l, sz⟩ =
      escan F cs ⟨(F.fmt_lf res).take 31 :: l, sz - 1 - 1 + 1⟩ := by
  have hb := eval_body_operator F hs hc cs ⟨a :: b :: l, sz⟩
  simp only [hsz, if_false, pop, Option.getD_some, hres] at hb
  rw [escan, scan_next (eval_body_shrinks F) hb]
  simp [escan, push, List.take_take]

theorem operator_not_numChar {c : Char} (hc : is_operator_char c = true) :
    c ≠ ' ' ∧ isNumChar c = false := by
  rw [is_operator_char_iff] at hc
  rcases hc with h | h | h | h | h <;> subst h <;> decide

theorem noNumStart_space (rest : CStr) : NoNumStart (' ' :: rest) := by
  intro c hc
  simp only [List.head?_cons, Option.some.injEq] at hc
  subst hc; decide

theorem evaluate_eq_escan {D : Type} (F : FloatOps D) (pf : CStr) :
    evaluate_postfix_numeric F pf = (escan F pf init_stack).map (eval_finish F) := rfl

/-- The operators of the `switch` always give a result, division by zero apart. -/
theorem apply_op_some {D : Type} (F : FloatOps D) {op : Char} (hop : is_operator_char op = true)
    (v1 v2 : D) (hdiv : op = '/' → F.isZero v2 = false) :
    ∃ res, apply_op F op v1 v2 = some res := by
  rw [is_operator_char_iff] at hop
  rcases hop with h | h | h | h | h <;> subst h
  · exact ⟨_, rfl⟩
  · exact ⟨_, rfl⟩
  · exact ⟨_, rfl⟩
  · refine ⟨F.div v1 v2, ?_⟩
    simp [apply_op, hdiv rfl]
  · exact ⟨_, rfl⟩

/-- C10, as the code has it. Operand order in evaluation: for numeric literals
`x` and `y` and an operator `op` among `+ - * / ^` (the value of `y` not zero
for `/`), `evaluate_postfix_numeric` on `x y op` succeeds; the earlier-pushed
operand `x` is the left operand of `op`; the result is not the value
`value(x) op value(y)` itself but what `atof` reads from its `"%lf"` text in
the 32-byte buffer, and the literals count with their first 31 characters. -/
theorem evaluate_pair {D : Type} (F : FloatOps D) (x y : CStr) (op : Char)
    (hx : isNumericLiteral x = true) (hy : isNumericLiteral y = true)
    (hop : is_operator_char op = true)
    (hdiv : op = '/' → F.isZero (F.atof (y.take 31)) = false) :
    ∃ res, apply_op F op (F.atof (x.take 31)) (F.atof (y.take 31)) = some res ∧
      evaluate_postfix_numeric F (x ++ ' ' :: (y ++ ' ' :: [op]))
        = some (.success (F.atof ((F.fmt_lf res).take 31))) := by
  obtain ⟨res, hres⟩ := apply_op_some F hop (F.atof (x.take 31)) (F.atof (y.take 31)) hdiv
  refine ⟨res, hres, ?_⟩
  have hn := operator_not_numChar hop
  rw [evaluate_eq_escan, init_stack, escan_run F hx (noNumStart_space _), escan_space,
    escan_run F hy (noNumStart_space _), escan_space]
  simp only [push]
  rw [escan_operator F hn.1 hn.2 [] _ _ _ _ (by omega) res hres, escan_nil]
  simp [eval_finish, pop]

/-- In exact decimal arithmetic `9 3 /` is evaluated to 3 (as 3000000/1000000). -/
theorem evaluate_pair_witness :
    ∃ res, apply_op decOps '/' (decOps.atof (['9'].take 31)) (decOps.atof (['3'].take 31))
        = some res ∧
      evaluate_postfix_numeric decOps "9 3 /".toList
        = some (.success (decOps.atof ((decOps.fmt_lf res).take 31))) :=
  evaluate_pair decOps ['9'] ['3'] '/' (by decide) (by decide) (by decide) (by decide)

/-- The spec's examples in exact decimal arithmetic: `9 3 /` gives 3 and
`2 3 2 ^ ^` gives 512. -/
theorem evaluate_examples :
    evaluate_postfix_numeric decOps "9 3 /".toList = some (.success ⟨3000000, 1000000⟩) ∧
    evaluate_postfix_numeric decOps "2 3 2 ^ ^".toList
      = some (.success ⟨512000000, 1000000⟩) := by
  decide

/-- On `1 3 /` the evaluation returns 0.333333, the six decimals of the `"%lf"`
text, and not the quotient of 1 and 3: already in exact arithmetic the result
is not `value(x) op value(y)`. -/
theorem evaluate_pair_counterexample :
    isNumericLiteral ['1'] = true ∧ isNumericLiteral ['3'] = true ∧
      decOps.isZero (decOps.atof ['3']) = false ∧
      evaluate_postfix_numeric decOps "1 3 /".toList = some (.success ⟨333333, 1000000⟩) ∧
      decOps.div (decOps.atof ['1']) (decOps.atof ['3']) = ⟨1, 3⟩ ∧
      Dec.same ⟨333333, 1000000⟩ ⟨1, 3⟩ = false := by
  decide

/-! ## Round trip: conversion, then evaluation -/

theorem escan_operator_none {D : Type} (F : FloatOps D) {c : Char} (hs : c ≠ ' ')
    (hc : isNumChar c = false) (cs : CStr) (a b : CStr) (l : List CStr) (sz : Int)
    (hres : apply_op F c (F.atof b) (F.atof a) = none) :
    escan F (c :: cs) ⟨a :: b :: l, sz⟩ = some .failed := by
  have hb := eval_body_operator F hs hc cs ⟨a :: b :: l, sz⟩
  simp only [pop, Option.getD_some, hres] at hb
  have hb2 : eval_body F (c :: cs) ⟨a :: b :: l, sz⟩ = .stop .failed := by
    rw [hb]; split <;> rfl
  exact scan_stop (eval_body_shrinks F) hb2

theorem apply_op_none_of_not_operator {D : Type} (F : FloatOps D) {op : Char}
    (h : is_operator_char op = false) (v1 v2 : D) : apply_op F op v1 v2 = none := by
  simp only [is_operator_char, Bool.or_eq_false_iff, decide_eq_false_iff_not] at h
  simp [apply_op, h.1.1.1.1, h.1.1.1.2, h.1.1.2, h.1.2, h.2]

/-- The evaluator on the post-order text of a numeric expression leaves the
text of its value on the stack, or fails where `textOf` does. -/
theorem escan_tree {D : Type} (F : FloatOps D) (t : Expr) : numericExpr t = true →
    ∀ (l : List CStr) (sz : Int) (rest : CStr), 0 ≤ sz →
    escan F (spaced t.postorder ++ rest) ⟨l, sz⟩ =
      match textOf F t with
      | none => some .failed
      | some txt => escan F rest ⟨txt :: l, sz + 1⟩ := by
  induction t with
  | operand x =>
    intro hv l sz rest _
    simp only [numericExpr, Bool.and_eq_true, decide_eq_true_eq] at hv
    simp only [Expr.postorder, spaced, textOf, List.append_nil, List.append_assoc,
      List.cons_append, List.nil_append]
    rw [escan_run F hv.1 (noNumStart_space _), escan_space]
    simp [push, List.take_of_length_le hv.2]
  | binop op a b iha ihb =>
    intro hv l sz rest hsz
    simp only [numericExpr, Bool.and_eq_true] at hv
    have e : spaced (Expr.binop op a b).postorder ++ rest =
        spaced a.postorder ++ (spaced b.postorder ++ (op :: ' ' :: rest)) := by
      simp [Expr.postorder, spaced_append, spaced]
    rw [e, iha hv.1.2 l sz _ hsz]
    cases hta : textOf F a with
    | none => simp [textOf, hta]
    | some ta =>
      simp only []
      rw [ihb hv.2 _ _ _ (by omega)]
      cases htb : textOf F b with
      | none => simp [textOf, hta, htb]
      | some tb =>
        simp only []
        have hn := operator_not_numChar hv.1.1
        cases hres : apply_op F op (F.atof ta) (F.atof tb) with
        | none =>
          rw [escan_operator_none F hn.1 hn.2 _ _ _ _ _ hres]
          simp [textOf, hta, htb, hres]
        | some res =>
          rw [escan_operator F hn.1 hn.2 _ _ _ _ _ (by omega) res hres, escan_space]
          simp only [textOf, hta, htb, hres]
          have : sz + 1 + 1 - 1 - 1 + 1 = sz + 1 := by omega
          rw [this]

/-- The reference evaluator gives an operator the meaning that the `switch` of
the evaluator gives it. -/
theorem refOp_eq_apply_op {D : Type} (F : FloatOps D) (op : Char) (a b : D) :
    refOp F op a b = apply_op F op a b := by
  unfold refOp apply_op
  split
  · rfl
  · rfl
  · rfl
  · rfl
  · rfl
  · rename_i h1 h2 h3 h4 h5
    rw [if_neg (fun e => h1 e), if_neg (fun e => h2 e), if_neg (fun e => h3 e),
      if_neg (fun e => h4 e), if_neg (fun e => h5 e)]

/-- When the texts of an expression lose nothing, what `atof` reads from the
text that the evaluator's stack holds for it is the value of the reference
evaluator, and the evaluation fails where the reference evaluator has no value. -/
theorem textOf_refEval {D : Type} (F : FloatOps D) (t : Expr) :
    Lossless F t → (textOf F t).map F.atof = refEval F t := by
  induction t with
  | operand x => intro _; rfl
  | binop op l r ihl ihr =>
    intro h
    obtain ⟨hl, hr, hres⟩ := h
    have el := ihl hl
    have er := ihr hr
    cases htl : textOf F l with
    | none =>
      rw [htl] at el
      simp only [Option.map_none'] at el
      simp only [textOf, refEval, htl, ← el, Option.map_none']
    | some tl =>
      rw [htl] at el
      simp only [Option.map_some'] at el
      cases htr : textOf F r with
      | none =>
        rw [htr] at er
        simp only [Option.map_none'] at er
        simp only [textOf, refEval, htl, htr, ← el, ← er, Option.map_none']
      | some tr =>
        rw [htr] at er
        simp only [Option.map_some'] at er
        have hv : refEval F (.binop op l r) = apply_op F op (F.atof tl) (F.atof tr) := by
          simp only [refEval, ← el, ← er, refOp_eq_apply_op]
        cases ha : apply_op F op (F.atof tl) (F.atof tr) with
        | none =>
          rw [hv, ha]
          simp only [textOf, htl, htr, ha, Option.map_none']
        | some res =>
          have hlo := hres res (by rw [hv, ha])
          rw [hv, ha]
          simp only [textOf, htl, htr, ha, Option.map_some', hlo]

/-- C9, as the code has it. Round trip: for every infix expression over numeric
operands, `evaluate_postfix_numeric` applied to the text that the converter
produces fails when a division by zero is met and otherwise succeeds with the
value of the expression in which every intermediate result is replaced by what
`atof` reads from its `"%lf"` text in the 32-byte buffer (`textOf`); whenever
these texts lose nothing, it fails exactly when the independent reference
evaluator meets a division by zero and otherwise succeeds and returns the
value that the reference evaluator gives for the infix expression. -/
theorem round_trip {D : Type} (F : FloatOps D) (s : CStr) (t : Expr) (hp : Parses 1 s t)
    (hnum : numericExpr t = true) (hlen : (spaced t.postorder).length < 254) :
    infix_to_postfix_stepwise s = some (.final (spaced t.postorder) []) ∧
    evaluate_postfix_numeric F (spaced t.postorder) =
      some (match textOf F t with
        | none => .failure
        | some txt => .success (F.atof txt)) ∧
    (Lossless F t →
      evaluate_postfix_numeric F (spaced t.postorder) =
        some (match refEval F t with
          | none => .failure
          | some v => .success v)) := by
  have h := escan_tree F t hnum [] 0 [] (le_refl _)
  simp only [List.append_nil, zero_add] at h
  have h2 : evaluate_postfix_numeric F (spaced t.postorder) =
      some (match textOf F t with
        | none => .failure
        | some txt => .success (F.atof txt)) := by
    rw [evaluate_eq_escan, init_stack, h]
    cases textOf F t with
    | none => rfl
    | some txt =>
      simp only [escan_nil]
      simp [eval_finish, pop]
  refine ⟨parses_converts s t hp hlen, h2, ?_⟩
  intro hl
  have e := textOf_refEval F t hl
  rw [h2, ← e]
  cases textOf F t with
  | none => rfl
  | some txt => rfl

/-- In exact decimal arithmetic `(1.500000+2)*3` is converted to
`1.500000 2 + 3 * ` and evaluated to 10.5; its texts `3.500000` and
`10.500000` lose nothing, and 10.5 is the value of the reference evaluator. -/
theorem round_trip_witness :
    Parses 1 "(1.500000+2)*3".toList exactExpr ∧
    numericExpr exactExpr = true ∧
    (spaced exactExpr.postorder).length < 254 ∧
    Lossless decOps exactExpr ∧
    spaced exactExpr.postorder = "1.500000 2 + 3 * ".toList ∧
    refEval decOps exactExpr = some ⟨10500000, 1000000⟩ ∧
    infix_to_postfix_stepwise "(1.500000+2)*3".toList
      = some (.final (spaced exactExpr.postorder) []) ∧
    evaluate_postfix_numeric decOps (spaced exactExpr.postorder)
      = some (match refEval decOps exactExpr with
          | none => .failure
          | some v => .success v) := by
  have hnil : AllSpace [] := by intro c hc; simp at hc
  have hp : Parses 1 "(1.500000+2)*3".toList exactExpr :=
    parses_binop_atoms (by decide)
      (.paren [] _ [] _ hnil
        (parses_binop_atoms (by decide)
          (.operand [] "1.500000".toList [] hnil (by decide) hnil)
          (.operand [] ['2'] [] hnil (by decide) hnil)) hnil)
      (.operand [] ['3'] [] hnil (by decide) hnil)
  have hl : Lossless decOps exactExpr := by
    refine ⟨⟨trivial, trivial, ?_⟩, trivial, ?_⟩
    · intro res hres
      have e : refEval decOps
          (.binop '+' (.operand "1.500000".toList) (.operand ['2']))
          = some ⟨3500000, 1000000⟩ := by decide
      rw [e] at hres
      injection hres with hres
      subst hres
      decide
    · intro res hres
      have e : refEval decOps
          (.binop '*' (.binop '+' (.operand "1.500000".toList) (.operand ['2']))
            (.operand ['3']))
          = some ⟨10500000, 1000000⟩ := by decide
      rw [e] at hres
      injection hres with hres
      subst hres
      decide
  have h := round_trip decOps _ _ hp (by decide) (by decide)
  exact ⟨hp, by decide, by decide, hl, by decide, by decide, h.1, h.2.2 hl⟩

/-- The expression `1/3000000*3000000` has the value 1. Its conversion gives
`1 3000000 / 3000000 * `, and the evaluation of that text returns 0: the
quotient is pushed as the text `0.000000`. And `1/0` is converted to `1 0 / `,
on which the evaluation does not succeed. -/
theorem round_trip_counterexample :
    Parses 1 "1/3000000*3000000".toList tinyExpr ∧
      numericExpr tinyExpr = true ∧
      infix_to_postfix_stepwise "1/3000000*3000000".toList
        = some (.final (spaced tinyExpr.postorder) []) ∧
      spaced tinyExpr.postorder = "1 3000000 / 3000000 * ".toList ∧
      evaluate_postfix_numeric decOps "1 3000000 / 3000000 * ".toList
        = some (.success ⟨0, 1000000⟩) ∧
      refEval decOps tinyExpr = some ⟨3000000, 3000000⟩ ∧
      Dec.same ⟨3000000, 3000000⟩ ⟨1, 1⟩ = true ∧
      Dec.same ⟨0, 1000000⟩ ⟨1, 1⟩ = false ∧
      infix_to_postfix_stepwise "1/0".toList = some (.final "1 0 / ".toList []) ∧
      evaluate_postfix_numeric decOps "1 0 / ".toList = some .failure := by
  have hnil : AllSpace [] := by intro c hc; simp at hc
  have h1 : Parses 4 ['1'] (.operand ['1']) := .operand [] ['1'] [] hnil (by decide) hnil
  have h3 : Parses 4 "3000000".toList (.operand "3000000".toList) :=
    .operand [] "3000000".toList [] hnil (by decide) hnil
  have hq : Parses 2 "1/3000000".toList (.binop '/' (.operand ['1']) (.operand "3000000".toList)) :=
    .mul '/' ['1'] "3000000".toList _ _ (Or.inr rfl) (.mul_up _ _ (.pow_up _ _ h1))
      (.pow_up _ _ h3)
  have hp : Parses 1 "1/3000000*3000000".toList tinyExpr :=
    .add_up _ _ (.mul '*' "1/3000000".toList "3000000".toList _ _ (Or.inl rfl) hq
      (.pow_up _ _ h3))
  exact ⟨hp, by decide⟩

/-! ## Failures of the numeric evaluation -/

theorem reaches_scan {σ ρ : Type} {body : CStr → σ → LoopStep σ ρ} (hb : Shrinks body)
    {cs : CStr} {st : σ} {cs1 : CStr} {st1 : σ} (h : Reaches body cs st cs1 st1) :
    scan body cs st = scan body cs1 st1 := by
  induction h with
  | refl cs st => rfl
  | step hstep _ ih => rw [scan_next hb hstep, ih]

theorem reaches_invariant {σ ρ : Type} {body : CStr → σ → LoopStep σ ρ} (P : σ → Prop)
    (hP : ∀ cs st cs1 st1, P st → body cs st = .next cs1 st1 → P st1)
    {cs : CStr} {st : σ} {cs1 : CStr} {st1 : σ} (h : Reaches body cs st cs1 st1) :
    P st → P st1 := by
  induction h with
  | refl cs st => exact id
  | step hstep _ ih => exact fun h0 => ih (hP _ _ _ _ h0 hstep)

theorem escan_spaces {D : Type} (F : FloatOps D) (k : Nat) (cs : CStr) (s : Stack) :
    escan F (List.replicate k ' ' ++ cs) s = escan F cs s := by
  induction k with
  | zero => rfl
  | succ k ih => rw [List.replicate_succ, List.cons_append, escan_space, ih]

/-- An operator that finds a zero on top of two entries, or fewer than two
entries, or is not one of the five, ends the evaluation with `return 0`. -/
theorem escan_operator_stop {D : Type} (F : FloatOps D) {c : Char} (hs : c ≠ ' ')
    (hc : isNumChar c = false) (cs : CStr) (s : Stack)
    (h : s.size < 2 ∨ (pop (pop s).2).1 = none ∨
      ∀ v1, (pop (pop s).2).1 = some v1 →
        apply_op F c (F.atof v1) (F.atof ((pop s).1.getD [])) = none) :
    escan F (c :: cs) s = some .failed := by
  have hb := eval_body_operator F hs hc cs s
  have hb2 : eval_body F (c :: cs) s = .stop .failed := by
    rw [hb]
    by_cases h1 : s.size < 2
    · rw [if_pos h1]
    · rw [if_neg h1]
      cases h2 : (pop (pop s).2).1 with
      | none => rfl
      | some v1 =>
        rcases h with h | h | h
        · exact absurd h h1
        · rw [h2] at h; simp at h
        · simp only [h v1 h2]
  exact scan_stop (eval_body_shrinks F) hb2

theorem evaluate_failed {D : Type} (F : FloatOps D) {pf : CStr}
    (h : escan F pf init_stack = some .failed) :
    evaluate_postfix_numeric F pf = some .failure := by
  rw [evaluate_eq_escan, h]; rfl

theorem apply_op_div_zero {D : Type} (F : FloatOps D) (v1 v2 : D) (h : F.isZero v2 = true) :
    apply_op F '/' v1 v2 = none := by
  simp [apply_op, h]

/-- C11. Division by zero is a failure of the evaluation: when the scan of a
postfix string comes to a `/` (after any spaces) with a stack whose top entry
has the numeric value zero above a second entry, `evaluate_postfix_numeric`
returns failure and delivers no result. -/
theorem division_by_zero_fails {D : Type} (F : FloatOps D) (pf rest : CStr) (k : Nat)
    (a b : CStr) (l : List CStr) (sz : Int)
    (hreach : Reaches (eval_body F) pf init_stack (List.replicate k ' ' ++ '/' :: rest)
      ⟨a :: b :: l, sz⟩)
    (hzero : F.isZero (F.atof a) = true) :
    evaluate_postfix_numeric F pf = some .failure := by
  apply evaluate_failed
  have h := reaches_scan (eval_body_shrinks F) hreach
  rw [escan, h]
  have h2 := escan_spaces F k ('/' :: rest) ⟨a :: b :: l, sz⟩
  rw [escan] at h2
  rw [h2]
  apply escan_operator_stop F (by decide) (by decide)
  right; right
  intro v1 _
  simp only [pop, Option.getD_some]
  exact apply_op_div_zero F _ _ hzero

/-- The spec's example in exact decimal arithmetic: `1 0 /` fails. -/
theorem division_by_zero_fails_witness :
    decOps.isZero (decOps.atof ['0']) = true ∧
      evaluate_postfix_numeric decOps "1 0 /".toList = some .failure := by
  have h2 : Reaches (eval_body decOps) " /".toList ⟨[['0'], ['1']], 2⟩
      (List.replicate 1 ' ' ++ '/' :: []) ⟨[['0'], ['1']], 2⟩ := .refl _ _
  have h1 : Reaches (eval_body decOps) " 0 /".toList ⟨[['1']], 1⟩
      (List.replicate 1 ' ' ++ '/' :: []) ⟨[['0'], ['1']], 2⟩ := .step rfl h2
  have h0 : Reaches (eval_body decOps) "1 0 /".toList init_stack
      (List.replicate 1 ' ' ++ '/' :: []) ⟨[['0'], ['1']], 2⟩ := .step rfl h1
  exact ⟨by decide, division_by_zero_fails decOps "1 0 /".toList [] 1 ['0'] ['1'] [] 2 h0
    (by decide)⟩

/-- What holds for the state at the start holds for the result of a scanning
loop, when every pass of the body keeps it and every exit turns it into `Q`. -/
theorem scan_result {σ ρ : Type} {body : CStr → σ → LoopStep σ ρ} (hb : Shrinks body)
    (P : σ → Prop) (Q : ρ → Prop)
    (hnext : ∀ cs st cs1 st1, P st → body cs st = .next cs1 st1 → P st1)
    (hstop : ∀ cs st r, P st → body cs st = .stop r → Q r) (n : Nat) :
    ∀ (cs : CStr) (st : σ), cs.length ≤ n → P st → ∀ r, scan body cs st = some r → Q r := by
  induction n with
  | zero =>
    intro cs st hn hP r hr
    rw [scan_eq hb] at hr
    cases h : body cs st with
    | stop r1 =>
      rw [h] at hr
      injection hr with hr
      subst hr
      exact hstop cs st r1 hP h
    | next rest st1 => have := hb cs st rest st1 h; omega
  | succ n ih =>
    intro cs st hn hP r hr
    rw [scan_eq hb] at hr
    cases h : body cs st with
    | stop r1 =>
      rw [h] at hr
      injection hr with hr
      subst hr
      exact hstop cs st r1 hP h
    | next rest st1 =>
      rw [h] at hr
      have := hb cs st rest st1 h
      exact ih rest st1 (by omega) (hnext cs st rest st1 hP h) r hr

theorem sizeOK_push {s : Stack} (h : sizeOK s) (t : CStr) : sizeOK (push s t) := by
  simp only [sizeOK, push, List.length_cons, Nat.cast_add, Nat.cast_one] at h ⊢
  omega

theorem sizeOK_pop {s : Stack} (h : sizeOK s) : sizeOK (pop s).2 := by
  rcases s with ⟨_ | ⟨t, l⟩, sz⟩
  · exact h
  · simp only [sizeOK, pop, List.length_cons, Nat.cast_add, Nat.cast_one] at h ⊢
    omega

theorem sizeOK_init : sizeOK init_stack := by
  simp [sizeOK, init_stack]

/-- What a pass of the evaluator's body does to the stack and to the scan. -/
theorem eval_body_cases {D : Type} (F : FloatOps D) (cs : CStr) : ∀ (s : Stack),
    eval_body F cs s = .stop (.scanned s) ∨ eval_body F cs s = .stop .failed ∨
      (∃ cs1 t, eval_body F cs s = .next cs1 (push s t)) ∨
      (∃ cs1 t, eval_body F cs s = .next cs1 (push (pop (pop s).2).2 t)) := by
  induction cs with
  | nil => intro s; left; rfl
  | cons c cs ih =>
    intro s
    by_cases hs : c = ' '
    · subst hs
      rw [eval_body_space]
      exact ih s
    · by_cases ha : isNumChar c = true
      · right; right; left
        exact ⟨_, _, eval_body_operand F ha cs s⟩
      · simp only [Bool.not_eq_true] at ha
        rw [eval_body_operator F hs ha]
        by_cases h1 : s.size < 2
        · right; left; rw [if_pos h1]
        · rw [if_neg h1]
          cases (pop (pop s).2).1 with
          | none => right; left; rfl
          | some v1 =>
            simp only []
            cases apply_op F c (F.atof v1) (F.atof ((pop s).1.getD [])) with
            | none => right; left; rfl
            | some res => right; right; right; exact ⟨_, _, rfl⟩

theorem eval_body_sizeOK {D : Type} (F : FloatOps D) (cs : CStr) (s : Stack) (cs1 : CStr)
    (s1 : Stack) (h : sizeOK s) (hstep : eval_body F cs s = .next cs1 s1) : sizeOK s1 := by
  rcases eval_body_cases F cs s with h1 | h1 | ⟨cs2, t, h1⟩ | ⟨cs2, t, h1⟩
  · rw [h1] at hstep; simp at hstep
  · rw [h1] at hstep; simp at hstep
  · rw [h1] at hstep
    injection hstep with _ h2
    subst h2
    exact sizeOK_push h t
  · rw [h1] at hstep
    injection hstep with _ h2
    subst h2
    exact sizeOK_push (sizeOK_pop (sizeOK_pop h)) t

theorem eval_body_stop_sizeOK {D : Type} (F : FloatOps D) (cs : CStr) (s : Stack)
    (r : EvalScan) (h : sizeOK s) (hstep : eval_body F cs s = .stop r) :
    ∀ s1, r = .scanned s1 → sizeOK s1 := by
  intro s1 hr
  subst hr
  rcases eval_body_cases F cs s with h1 | h1 | ⟨cs2, t, h1⟩ | ⟨cs2, t, h1⟩
  · rw [h1] at hstep
    injection hstep with h2
    injection h2 with h3
    subst h3
    exact h
  · rw [h1] at hstep; simp at hstep
  · rw [h1] at hstep; simp at hstep
  · rw [h1] at hstep; simp at hstep

/-- The stack at the end of the evaluator's scan has a `size` that counts its nodes. -/
theorem escan_sizeOK {D : Type} (F : FloatOps D) (pf : CStr) (s : Stack)
    (h : escan F pf init_stack = some (.scanned s)) : sizeOK s :=
  scan_result (eval_body_shrinks F) sizeOK (fun r => ∀ s1, r = .scanned s1 → sizeOK s1)
    (eval_body_sizeOK F) (eval_body_stop_sizeOK F) pf.length pf init_stack (le_refl _)
    sizeOK_init _ h s rfl

/-- Literals separated by single spaces are pushed one after the other. -/
theorem escan_literals {D : Type} (F : FloatOps D) (xs : List CStr) :
    (∀ x ∈ xs, isNumericLiteral x = true) → ∀ (s : Stack),
    ∃ s1 : Stack, escan F (unwords xs) s = some (.scanned s1) ∧
      s1.size = s.size + xs.length := by
  induction xs with
  | nil =>
    intro _ s
    exact ⟨s, by simp [unwords, escan_nil], by simp⟩
  | cons x xs ih =>
    intro hx s
    have hx1 := hx x (List.mem_cons_self _ _)
    have hxs : ∀ y ∈ xs, isNumericLiteral y = true :=
      fun y hy => hx y (List.mem_cons_of_mem _ hy)
    cases xs with
    | nil =>
      refine ⟨push s x, ?_, ?_⟩
      · have := @escan_run D F x [] hx1 (by intro c hc; simp at hc) s
        simp only [List.append_nil] at this
        simp only [unwords, this, escan_nil]
      · simp [push]
    | cons y ys =>
      obtain ⟨s1, h1, h2⟩ := ih hxs (push s x)
      refine ⟨s1, ?_, ?_⟩
      · rw [unwords_cons_of_ne_nil x (by simp), escan_run F hx1 (noNumStart_space _),
          escan_space, h1]
      · rw [h2]
        simp only [push, List.length_cons, Nat.cast_add, Nat.cast_one]
        omega

/-- C12. `evaluate_postfix_numeric` succeeds only on structurally valid
postfix: it returns failure whenever the scan comes to an operator character
(any character other than a space, a digit or `.`) with fewer than two stack
entries, and whenever the stack does not hold exactly one entry after the scan;
so it fails on the empty string, on a string of spaces, and on any number of
operands other than one with no operator. -/
theorem evaluate_structural {D : Type} (F : FloatOps D) :
    (∀ (pf rest : CStr) (k : Nat) (c : Char) (s : Stack),
      Reaches (eval_body F) pf init_stack (List.replicate k ' ' ++ c :: rest) s →
      c ≠ ' ' → isNumChar c = false → s.top.length < 2 →
      evaluate_postfix_numeric F pf = some .failure) ∧
    (∀ (pf : CStr) (s : Stack), escan F pf init_stack = some (.scanned s) →
      s.top.length ≠ 1 → evaluate_postfix_numeric F pf = some .failure) ∧
    (∀ n : Nat, evaluate_postfix_numeric F (List.replicate n ' ') = some .failure) ∧
    (∀ xs : List CStr, (∀ x ∈ xs, isNumericLiteral x = true) → xs.length ≠ 1 →
      evaluate_postfix_numeric F (unwords xs) = some .failure) := by
  refine ⟨?_, ?_, ?_, ?_⟩
  · intro pf rest k c s hreach hs hc hlen
    apply evaluate_failed
    have hok : sizeOK s := reaches_invariant sizeOK (eval_body_sizeOK F) hreach sizeOK_init
    have h := reaches_scan (eval_body_shrinks F) hreach
    have h2 := escan_spaces F k (c :: rest) s
    rw [escan] at h2
    rw [escan, h, h2]
    apply escan_operator_stop F hs hc
    left
    rw [hok]
    omega
  · intro pf s hscan hlen
    have hok := escan_sizeOK F pf s hscan
    rw [evaluate_eq_escan, hscan]
    simp only [Option.map_some', eval_finish]
    rw [if_pos (by rw [hok]; omega)]
  · intro n
    have h := escan_spaces F n [] init_stack
    simp only [List.append_nil, escan_nil] at h
    rw [evaluate_eq_escan, h]
    rfl
  · intro xs hx hlen
    obtain ⟨s1, h1, h2⟩ := escan_literals F xs hx init_stack
    rw [evaluate_eq_escan, h1]
    simp only [Option.map_some', eval_finish]
    rw [if_pos (by rw [h2]; simp only [init_stack]; omega)]

/-- In exact decimal arithmetic: the empty string, spaces, two operands without
an operator, and an operator with one operand all fail. -/
theorem evaluate_structural_examples :
    evaluate_postfix_numeric decOps [] = some .failure ∧
    evaluate_postfix_numeric decOps "   ".toList = some .failure ∧
    evaluate_postfix_numeric decOps "1 2".toList = some .failure ∧
    evaluate_postfix_numeric decOps "1 +".toList = some .failure := by
  decide

theorem mem_dropWhile_of_neg {α : Type} (p : α → Bool) (l : List α) (a : α) (ha : a ∈ l)
    (hp : p a = false) : a ∈ l.dropWhile p := by
  induction l with
  | nil => simp at ha
  | cons b l ih =>
    by_cases hb : p b = true
    · rw [List.dropWhile_cons_of_pos hb]
      rcases List.mem_cons.mp ha with h | h
      · subst h; rw [hp] at hb; exact absurd hb (by decide)
      · exact ih h
    · rw [List.dropWhile_cons_of_neg hb]
      exact ha

/-- A character in operator position ends the evaluation or is passed. -/
theorem escan_operator_cases {D : Type} (F : FloatOps D) {c : Char} (hs : c ≠ ' ')
    (hc : isNumChar c = false) (cs : CStr) (s : Stack) :
    escan F (c :: cs) s = some .failed ∨ ∃ s1, escan F (c :: cs) s = escan F cs s1 := by
  have hb := eval_body_operator F hs hc cs s
  by_cases h1 : s.size < 2
  · left; exact escan_operator_stop F hs hc cs s (Or.inl h1)
  · cases h2 : (pop (pop s).2).1 with
    | none => left; exact escan_operator_stop F hs hc cs s (Or.inr (Or.inl h2))
    | some v1 =>
      cases h3 : apply_op F c (F.atof v1) (F.atof ((pop s).1.getD [])) with
      | none =>
        left
        refine escan_operator_stop F hs hc cs s (Or.inr (Or.inr ?_))
        intro v hv
        rw [h2] at hv
        injection hv with hv
        subst hv
        exact h3
      | some res =>
        right
        rw [if_neg h1, h2] at hb
        simp only [h3] at hb
        exact ⟨_, scan_next (eval_body_shrinks F) hb⟩

theorem isNonNumericChar_iff (c : Char) : isNonNumericChar c = true ↔
    isNumChar c = false ∧ c ≠ ' ' ∧ is_operator_char c = false := by
  simp [isNonNumericChar, and_assoc]

/-- The scan fails from any state when a non-numeric character lies ahead. -/
theorem escan_nonNumeric {D : Type} (F : FloatOps D) {c : Char}
    (hc : isNonNumericChar c = true) (n : Nat) : ∀ (cs : CStr) (s : Stack), cs.length ≤ n →
    c ∈ cs → escan F cs s = some .failed := by
  obtain ⟨hc1, hc2, hc3⟩ := (isNonNumericChar_iff c).mp hc
  induction n with
  | zero =>
    intro cs s hn hmem
    have : cs = [] := List.length_eq_zero.mp (by omega)
    subst this
    simp at hmem
  | succ n ih =>
    intro cs s hn hmem
    cases cs with
    | nil => simp at hmem
    | cons d cs =>
      simp only [List.length_cons] at hn
      by_cases hs : d = ' '
      · subst hs
        rw [escan_space]
        rcases List.mem_cons.mp hmem with h | h
        · exact absurd h hc2
        · exact ih cs s (by omega) h
      by_cases ha : isNumChar d = true
      · have hb := eval_body_operand F ha cs s
        rw [escan, scan_next (eval_body_shrinks F) hb]
        have hlen := length_dropWhile_le isNumChar cs
        rcases List.mem_cons.mp hmem with h | h
        · subst h; rw [hc1] at ha; exact absurd ha (by decide)
        · exact ih _ _ (by omega) (mem_dropWhile_of_neg isNumChar cs c h hc1)
      simp only [Bool.not_eq_true] at ha
      rcases List.mem_cons.mp hmem with h | h
      · subst h
        refine escan_operator_stop F hs ha cs s (Or.inr (Or.inr ?_))
        intro v _
        exact apply_op_none_of_not_operator F hc3 _ _
      · rcases escan_operator_cases F hs ha cs s with h1 | ⟨s1, h1⟩
        · exact h1
        · rw [h1]
          exact ih cs s1 (by omega) h

/-- C13. `evaluate_postfix_numeric` never treats a non-numeric character as a
value: on every input that contains a character other than a digit, `.`, a
space or one of `+ - * / ^` (a letter, a tab, ...) the function returns
failure. -/
theorem nonnumeric_char_fails {D : Type} (F : FloatOps D) (pf : CStr) (c : Char)
    (hmem : c ∈ pf) (hc : isNonNumericChar c = true) :
    evaluate_postfix_numeric F pf = some .failure :=
  evaluate_failed F (escan_nonNumeric F hc pf.length pf init_stack (le_refl _) hmem)

/-- In exact decimal arithmetic `1 a +` fails: the letter is not read as zero. -/
theorem nonnumeric_char_fails_witness :
    'a' ∈ "1 a +".toList ∧ isNonNumericChar 'a' = true ∧
      evaluate_postfix_numeric decOps "1 a +".toList = some .failure :=
  ⟨by decide, by decide, nonnumeric_char_fails decOps "1 a +".toList 'a' (by decide) (by decide)⟩

/-! ## The interactive applier -/

theorem wellFormed_iff (s : Stack) : wellFormed s = true ↔
    s.size = s.top.length ∧ ∀ t ∈ s.top, t.length ≤ 31 := by
  simp [wellFormed]

theorem isOperatorOption_iff (option : Int) : isOperatorOption option = true ↔
    option = 3 ∨ option = 4 ∨ option = 5 ∨ option = 6 := by
  simp [isOperatorOption, or_assoc]

/-- The options 3 to 6 on a stack whose `size` is at least 2 and whose list has
two nodes at least: the two pops succeed and the entries are classified. -/
theorem handle_operator_eq {D : Type} (F : FloatOps D) (fmt_2lf : D → CStr) (a b : CStr)
    (l : List CStr) (sz : Int) (option : Int) (input : CStr)
    (hopt : isOperatorOption option = true) (hsz : ¬ sz < 2) :
    handle_user_option F fmt_2lf ⟨a :: b :: l, sz⟩ option input =
      if !isNumEntry a || !isNumEntry b then
        (push ⟨l, sz - 1 - 1⟩ ((['('] ++ b ++ [option_char option] ++ a ++ [')']).take 63),
          .symbolic ((['('] ++ b ++ [option_char option] ++ a ++ [')']).take 63))
      else if option = 6 ∧ F.isZero (F.atof a) = true then
        (push (push ⟨l, sz - 1 - 1⟩ b) a, .div_zero)
      else
        (push ⟨l, sz - 1 - 1⟩ ((fmt_2lf
            (if option = 3 then F.add (F.atof b) (F.atof a)
            else if option = 4 then F.sub (F.atof b) (F.atof a)
            else if option = 5 then F.mul (F.atof b) (F.atof a)
            else F.div (F.atof b) (F.atof a))).take 31),
          .numeric
            (if option = 3 then F.add (F.atof b) (F.atof a)
            else if option = 4 then F.sub (F.atof b) (F.atof a)
            else if option = 5 then F.mul (F.atof b) (F.atof a)
            else F.div (F.atof b) (F.atof a))) := by
  have h := (isOperatorOption_iff option).mp hopt
  have h1 : option ≠ 1 := by omega
  have h2 : option ≠ 2 := by omega
  simp only [handle_user_option, h1, h2, if_false, h, if_true, hsz, pop, Option.getD_some]

/-- C14. Division by zero in the interactive applier leaves the stack unchanged:
on every stack (as the program holds it) with at least two entries whose top two
entries `a` (top) and `b` (next) are both classified numeric and where the value
of `a` is zero, the divide option reports the division by zero, and the stack
afterwards is the stack before the call: `b` below `a`, everything beneath
untouched, the same size. -/
theorem div_zero_restores {D : Type} (F : FloatOps D) (fmt_2lf : D → CStr) (s : Stack)
    (a b : CStr) (l : List CStr) (input : CStr) (hwf : wellFormed s = true)
    (htop : s.top = a :: b :: l) (ha : isNumEntry a = true) (hb : isNumEntry b = true)
    (hzero : F.isZero (F.atof a) = true) :
    handle_user_option F fmt_2lf s 6 input = (s, .div_zero) := by
  rcases s with ⟨top, sz⟩
  simp only at htop
  subst htop
  obtain ⟨hsz, hlen⟩ := (wellFormed_iff _).mp hwf
  simp only [List.length_cons, Nat.cast_add, Nat.cast_one] at hsz
  have hla := hlen a (List.mem_cons_self _ _)
  have hlb := hlen b (List.mem_cons_of_mem _ (List.mem_cons_self _ _))
  rw [handle_operator_eq F fmt_2lf a b l sz 6 input (by decide) (by omega)]
  simp only [ha, hb, Bool.not_true, Bool.or_self, Bool.false_eq_true, if_false, hzero, and_self,
    if_true, push, List.take_of_length_le hla, List.take_of_length_le hlb]
  have : sz - 1 - 1 + 1 + 1 = sz := by omega
  rw [this]

/-- In exact decimal arithmetic: on the stack `3`, `0` (top) the divide option
reports the division by zero and leaves `3`, `0` in place. -/
theorem div_zero_restores_witness :
    handle_user_option decOps Dec.fmt_2lf ⟨[['0'], ['3']], 2⟩ 6 []
      = (⟨[['0'], ['3']], 2⟩, .div_zero) :=
  div_zero_restores decOps Dec.fmt_2lf ⟨[['0'], ['3']], 2⟩ ['0'] ['3'] [] [] (by decide) rfl
    (by decide) (by decide) (by decide)

/-- C15, as the code has it. Symbolic application: on every stack (as the
program holds it) with at least two entries `a` (top) and `b` (next) of which
at least one is not classified numeric, each of the options `+ - * /` replaces
the two entries by one entry, the first 31 characters of `"(" + b + op + a + ")"`,
without arithmetic, and leaves all entries beneath unchanged; the entry is the
whole text whenever that has at most 31 characters. -/
theorem symbolic_application {D : Type} (F : FloatOps D) (fmt_2lf : D → CStr) (s : Stack)
    (a b : CStr) (l : List CStr) (option : Int) (input : CStr) (hwf : wellFormed s = true)
    (htop : s.top = a :: b :: l) (hopt : isOperatorOption option = true)
    (hsym : isNumEntry a = false ∨ isNumEntry b = false) :
    handle_user_option F fmt_2lf s option input =
        (⟨(symbolicText option a b).take 31 :: l, s.size - 1⟩,
          .symbolic ((symbolicText option a b).take 63)) ∧
      ((symbolicText option a b).length ≤ 31 →
        (symbolicText option a b).take 31 = symbolicText option a b) := by
  rcases s with ⟨top, sz⟩
  simp only at htop
  subst htop
  obtain ⟨hsz, _⟩ := (wellFormed_iff _).mp hwf
  simp only [List.length_cons, Nat.cast_add, Nat.cast_one] at hsz
  refine ⟨?_, List.take_of_length_le⟩
  rw [handle_operator_eq F fmt_2lf a b l sz option input hopt (by omega)]
  have hcond : (!isNumEntry a || !isNumEntry b) = true := by
    rcases hsym with h | h <;> simp [h]
  rw [if_pos hcond]
  simp only [push, symbolicText, List.take_take]
  have : sz - 1 - 1 + 1 = sz - 1 := by omega
  rw [this]
  rfl

/-- The spec's example: on the stack `X`, `Y` (top) the multiply option leaves `(X*Y)`. -/
theorem symbolic_application_witness :
    handle_user_option decOps Dec.fmt_2lf ⟨[['Y'], ['X']], 2⟩ 5 []
      = (⟨["(X*Y)".toList], 1⟩, .symbolic "(X*Y)".toList) :=
  (symbolic_application decOps Dec.fmt_2lf ⟨[['Y'], ['X']], 2⟩ ['Y'] ['X'] [] 5 []
    (by decide) rfl (by decide) (by decide)).1

/-- On the entries `(alpha+beta+gamma)` and `(delta*epsilon)` (top), both
symbolic, the subtract option leaves the first 31 of the 36 characters of
`((alpha+beta+gamma)-(delta*epsilon))` on the stack. -/
theorem symbolic_application_counterexample :
    wellFormed ⟨["(delta*epsilon)".toList, "(alpha+beta+gamma)".toList], 2⟩ = true ∧
      isNumEntry "(delta*epsilon)".toList = false ∧
      isNumEntry "(alpha+beta+gamma)".toList = false ∧
      (handle_user_option decOps Dec.fmt_2lf
          ⟨["(delta*epsilon)".toList, "(alpha+beta+gamma)".toList], 2⟩ 4 []).1
        = ⟨["((alpha+beta+gamma)-(delta*epsi".toList], 1⟩ ∧
      ['('] ++ "(alpha+beta+gamma)".toList ++ ['-'] ++ "(delta*epsilon)".toList ++ [')']
        = "((alpha+beta+gamma)-(delta*epsilon))".toList := by
  decide

/-- C16, as the code has it. Numeric application: on every stack (as the
program holds it) with at least two entries `a` (top) and `b` (next) that are
both classified numeric, each of the options `+ - * /` (the value of `a` not
zero for `/`) replaces the two entries by one entry, the first 31 characters of
the `"%.2lf"` text of `value(b) op value(a)`, the entry popped second being the
left operand, and leaves all entries beneath unchanged; the entry is the whole
two-decimal text whenever that has at most 31 characters. -/
theorem numeric_application {D : Type} (F : FloatOps D) (fmt_2lf : D → CStr) (s : Stack)
    (a b : CStr) (l : List CStr) (option : Int) (input : CStr) (hwf : wellFormed s = true)
    (htop : s.top = a :: b :: l) (hopt : isOperatorOption option = true)
    (ha : isNumEntry a = true) (hb : isNumEntry b = true)
    (hdiv : option = 6 → F.isZero (F.atof a) = false) :
    handle_user_option F fmt_2lf s option input =
        (⟨(fmt_2lf (numericValue F option a b)).take 31 :: l, s.size - 1⟩,
          .numeric (numericValue F option a b)) ∧
      ((fmt_2lf (numericValue F option a b)).length ≤ 31 →
        (fmt_2lf (numericValue F option a b)).take 31 = fmt_2lf (numericValue F option a b)) := by
  rcases s with ⟨top, sz⟩
  simp only at htop
  subst htop
  obtain ⟨hsz, _⟩ := (wellFormed_iff _).mp hwf
  simp only [List.length_cons, Nat.cast_add, Nat.cast_one] at hsz
  refine ⟨?_, List.take_of_length_le⟩
  rw [handle_operator_eq F fmt_2lf a b l sz option input hopt (by omega)]
  have hcond : ¬ (option = 6 ∧ F.isZero (F.atof a) = true) := by
    rintro ⟨h6, hz⟩
    rw [hdiv h6] at hz
    exact absurd hz (by decide)
  simp only [ha, hb, Bool.not_true, Bool.or_self, Bool.false_eq_true, if_false, hcond, push,
    List.take_take, numericValue]
  have : sz - 1 - 1 + 1 = sz - 1 := by omega
  rw [this]
  rfl

/-- The spec's example in exact decimal arithmetic: on the stack `3`, `4` (top)
the add option leaves `7.00`. -/
theorem numeric_application_witness :
    handle_user_option decOps Dec.fmt_2lf ⟨[['4'], ['3']], 2⟩ 3 []
      = (⟨["7.00".toList], 1⟩, .numeric ⟨7, 1⟩) :=
  (numeric_application decOps Dec.fmt_2lf ⟨[['4'], ['3']], 2⟩ ['4'] ['3'] [] 3 []
    (by decide) rfl (by decide) (by decide) (by decide) (by decide)).1

/-- In exact decimal arithmetic: the product of two entries of 31 digits has 62
digits; the multiply option leaves the first 31 digits of its text, an entry
without decimals. -/
theorem numeric_application_counterexample :
    wellFormed ⟨["9999999999999999999999999999999".toList,
        "9999999999999999999999999999999".toList], 2⟩ = true ∧
      isNumEntry "9999999999999999999999999999999".toList = true ∧
      (handle_user_option decOps Dec.fmt_2lf
          ⟨["9999999999999999999999999999999".toList,
            "9999999999999999999999999999999".toList], 2⟩ 5 []).1
        = ⟨["9999999999999999999999999999998".toList], 1⟩ ∧
      Dec.fmt_2lf (numericValue decOps 5 "9999999999999999999999999999999".toList
          "9999999999999999999999999999999".toList)
        = "99999999999999999999999999999980000000000000000000000000000001.00".toList := by
  decide

/-- C17. Insufficient operands in the interactive applier: on every stack (as
the program holds it) with fewer than two entries, each of the four operator
options reports the error and leaves the stack unchanged. -/
theorem insufficient_operands {D : Type} (F : FloatOps D) (fmt_2lf : D → CStr) (s : Stack)
    (option : Int) (input : CStr) (hwf : wellFormed s = true) (hlen : s.top.length < 2)
    (hopt : isOperatorOption option = true) :
    handle_user_option F fmt_2lf s option input = (s, .need_two) := by
  obtain ⟨hsz, _⟩ := (wellFormed_iff _).mp hwf
  have h := (isOperatorOption_iff option).mp hopt
  have h1 : option ≠ 1 := by omega
  have h2 : option ≠ 2 := by omega
  have h3 : s.size < 2 := by rw [hsz]; omega
  simp only [handle_user_option, h1, h2, if_false, h, if_true, h3]

/-- In exact decimal arithmetic: on a stack with the single entry `3` the
multiply option reports the error and leaves the entry in place. -/
theorem insufficient_operands_witness :
    handle_user_option decOps Dec.fmt_2lf ⟨[['3']], 1⟩ 5 [] = (⟨[['3']], 1⟩, .need_two) :=
  insufficient_operands decOps Dec.fmt_2lf ⟨[['3']], 1⟩ 5 [] (by decide) (by decide) (by decide)

/-! ## The token stack -/

/-- C18, as the code has it. LIFO round trip: for every stack `s` and every
token string `t`, `push` followed by `pop` succeeds, returns the first 31
characters of `t` (so exactly `t` when `t` has at most 31 characters) and
leaves the stack equal to `s`, entries and size. -/
theorem push_pop_round_trip (s : Stack) (t : CStr) :
    pop (push s t) = (some (t.take 31), s) ∧ (t.length ≤ 31 → t.take 31 = t) := by
  refine ⟨?_, List.take_of_length_le⟩
  rcases s with ⟨top, sz⟩
  simp only [push, pop, Prod.mk.injEq, Stack.mk.injEq, true_and]
  omega

/-- A token of 32 characters does not come back from the stack: `pop` returns
its first 31 characters. -/
theorem push_pop_counterexample :
    (pop (push init_stack "abcdefghijklmnopqrstuvwxyz012345".toList)).1
        = some "abcdefghijklmnopqrstuvwxyz01234".toList ∧
      (pop (push init_stack "abcdefghijklmnopqrstuvwxyz012345".toList)).1
        ≠ some "abcdefghijklmnopqrstuvwxyz012345".toList := by
  decide

theorem reachable_sizeOK {s : Stack} (h : Reachable s) : sizeOK s := by
  induction h with
  | init => exact sizeOK_init
  | push s t _ ih => exact sizeOK_push ih t
  | pop s _ ih => exact sizeOK_pop ih

theorem reachable_wellFormed {s : Stack} (h : Reachable s) : wellFormed s = true := by
  rw [wellFormed_iff]
  refine ⟨reachable_sizeOK h, ?_⟩
  induction h with
  | init => intro t ht; simp [init_stack] at ht
  | push s t _ ih =>
    intro u hu
    simp only [push, List.mem_cons] at hu
    rcases hu with h | h
    · subst h; simp only [List.length_take]; omega
    · exact ih u h
  | pop s _ ih =>
    intro u hu
    rcases s with ⟨_ | ⟨t, l⟩, sz⟩
    · exact ih u hu
    · exact ih u (List.mem_cons_of_mem _ hu)

/-- C19. Stack invariant: for every stack reachable from `init_stack` by `push`
and `pop` calls (failed pops included), the `size` field is the number of
entries held, `pop` and `peek` fail with the underflow flag exactly when `size`
is 0, and a failed `pop` leaves the stack unchanged (as `peek` always does: it
only reads the stack). -/
theorem stack_invariant (s : Stack) (h : Reachable s) :
    s.size = s.top.length ∧
      ((pop s).1 = none ↔ s.size = 0) ∧ (peek s = none ↔ s.size = 0) ∧
      ((pop s).1 = none → (pop s).2 = s) ∧
      (is_empty s = true ↔ s.size = 0) := by
  have hok : s.size = s.top.length := reachable_sizeOK h
  rcases s with ⟨_ | ⟨t, l⟩, sz⟩
  · simp only [List.length_nil, Nat.cast_zero] at hok
    simp [pop, peek, is_empty, hok]
  · simp only [List.length_cons, Nat.cast_add, Nat.cast_one] at hok
    have h0 : sz ≠ 0 := by omega
    simp only [pop, peek, is_empty, List.head?_cons, List.isEmpty_cons, h0, iff_false,
      Bool.false_eq_true, not_false_eq_true, false_implies, and_self, and_true]
    exact ⟨hok, by simp, by simp⟩

/-- After two pushes and three pops the stack is empty, its `size` is 0, and
`pop` and `peek` fail. -/
theorem stack_invariant_witness :
    Reachable (pop (pop (pop (push (push init_stack ['A']) ['B'])).2).2).2 ∧
      (pop (pop (pop (push (push init_stack ['A']) ['B'])).2).2).2.size = 0 ∧
      peek (pop (pop (pop (push (push init_stack ['A']) ['B'])).2).2).2 = none := by
  have hr : Reachable (pop (pop (pop (push (push init_stack ['A']) ['B'])).2).2).2 :=
    .pop _ (.pop _ (.pop _ (.push _ _ (.push _ _ .init))))
  have h := stack_invariant _ hr
  exact ⟨hr, by decide, h.2.2.1.mpr (by decide)⟩

/-! ## The format of the converter's output -/

theorem goodBuf_append {buf t : CStr} (hb : GoodBuf buf) (ht : isOutputToken t = true)
    (m : Nat) : GoodBuf ( append_postfix buf t m) := by
  simp only [ append_postfix]
  split
  · obtain ⟨toks, h1, h2⟩ := hb
    refine ⟨toks ++ [t], ?_, ?_⟩
    · rw [spaced_append, h1]; simp [spaced]
    · intro u hu
      rcases List.mem_append.mp hu with h | h
      · exact h2 u h
      · simp only [List.mem_singleton] at h; subst h; exact ht
  · exact hb

theorem goodBuf_appendAll (ts : List CStr) : ∀ {buf : CStr}, GoodBuf buf →
    (∀ t ∈ ts, isOutputToken t = true) → GoodBuf (appendAll buf ts) := by
  induction ts with
  | nil => intro buf hb _; exact hb
  | cons t ts ih =>
    intro buf hb ht
    simp only [appendAll, List.foldl_cons]
    exact ih (goodBuf_append hb (ht t (List.mem_cons_self _ _)) 255)
      (fun u hu => ht u (List.mem_cons_of_mem _ hu))

theorem isOutputToken_operator {c : Char} (h : is_operator_char c = true) :
    isOutputToken [c] = true := by
  simp [isOutputToken, h]

theorem goodStack_popped {l : List CStr} (hl : GoodStack l) (p : CStr → Bool)
    (hp : ∀ t, p t = true → first t ≠ '(') :
    ∀ t ∈ l.takeWhile p, isOutputToken t = true := by
  intro t ht
  have hmem : t ∈ l := (List.takeWhile_sublist p).subset ht
  have hpt : p t = true := List.mem_takeWhile_imp ht
  rcases hl t hmem with h | ⟨c, hc, h⟩
  · subst h; exact absurd rfl (hp _ hpt)
  · subst h; exact isOutputToken_operator hc

theorem goodStack_dropWhile {l : List CStr} (hl : GoodStack l) (p : CStr → Bool) :
    GoodStack (l.dropWhile p) :=
  fun t ht => hl t (mem_of_mem_dropWhile p l t ht)

theorem isOutputToken_run {c : Char} (hc : (isalpha c || isdigit c) = true) (cs : CStr) :
    isOutputToken ((c :: cs.takeWhile isOperandChar).take 31) = true := by
  have h31 : (c :: cs.takeWhile isOperandChar).take 31 =
      c :: (cs.takeWhile isOperandChar).take 30 := rfl
  rw [h31]
  simp only [isOutputToken, isOperandToken, hc, Bool.true_and, Bool.or_eq_true,
    Bool.and_eq_true, List.all_eq_true, decide_eq_true_eq]
  left
  constructor
  · intro d hd
    exact List.mem_takeWhile_imp ((List.take_sublist _ _).subset hd)
  · simp only [List.length_cons, List.length_take]
    omega

/-- Every pass of the converter's body keeps the format invariant. -/
theorem conv_body_formatInv (cs : CStr) : ∀ (st : ConvState) (cs1 : CStr) (st1 : ConvState),
    FormatInv st → conv_body cs st = .next cs1 st1 → FormatInv st1 := by
  induction cs with
  | nil => intro st cs1 st1 _ h; simp [conv_body_nil] at h
  | cons c cs ih =>
    intro st cs1 st1 hinv h
    by_cases hs : isspace c = true
    · rw [conv_body_space hs] at h
      exact ih st cs1 st1 hinv h
    simp only [Bool.not_eq_true] at hs
    obtain ⟨hbuf, hstack⟩ := hinv
    by_cases ha : (isalpha c || isdigit c) = true
    · rw [conv_body_operand ha hs] at h
      injection h with _ h2
      subst h2
      exact ⟨goodBuf_append hbuf (isOutputToken_run ha cs) 255, hstack⟩
    simp only [Bool.not_eq_true] at ha
    by_cases h1 : c = '('
    · subst h1
      rw [conv_body_lparen] at h
      injection h with _ h2
      subst h2
      refine ⟨hbuf, ?_⟩
      intro t ht
      simp only [push, List.take, List.mem_cons] at ht
      rcases ht with h | h
      · left; exact h
      · exact hstack t h
    by_cases h2 : c = ')'
    · subst h2
      rcases st with ⟨⟨l, sz⟩, buf, unk⟩
      rw [conv_body_rparen] at h
      simp only [paren_loop_eq l.length l sz buf (le_refl _), peek] at h
      cases hd : l.dropWhile (fun t => first t != '(') with
      | nil => rw [hd] at h; simp at h
      | cons t l1 =>
        rw [hd] at h
        simp only [List.head?_cons] at h
        split at h
        · injection h with _ h3
          subst h3
          refine ⟨goodBuf_appendAll _ hbuf
            (goodStack_popped hstack _ (by intro t ht; simpa using ht)), ?_⟩
          intro u hu
          simp only [pop] at hu
          have := goodStack_dropWhile hstack (fun t => first t != '(')
          rw [hd] at this
          exact this u (List.mem_cons_of_mem _ hu)
        · simp at h
    by_cases ho : is_operator_char c = true
    · rcases st with ⟨⟨l, sz⟩, buf, unk⟩
      rw [conv_body_operator ho] at h
      simp only [op_loop_eq c l.length l sz buf (le_refl _)] at h
      injection h with _ h3
      subst h3
      refine ⟨goodBuf_appendAll _ hbuf (goodStack_popped hstack _ (by
        intro t ht
        simp only [op_cond, Bool.and_eq_true] at ht
        simpa using ht.1)), ?_⟩
      intro u hu
      simp only [push, List.take, List.mem_cons] at hu
      rcases hu with h | h
      · right; exact ⟨c, ho, h⟩
      · exact goodStack_dropWhile hstack _ u h
    · simp only [Bool.not_eq_true] at ho
      rw [conv_body_unknown hs ha h1 h2 ho] at h
      injection h with _ h3
      subst h3
      exact ⟨hbuf, hstack⟩

/-- When the converter's body leaves the loop with a final text, the text has
the format. -/
theorem conv_body_stop_format (cs : CStr) : ∀ (st : ConvState) (r : ConvResult),
    FormatInv st → conv_body cs st = .stop r → ∀ buf unk, r = .final buf unk → GoodBuf buf := by
  induction cs with
  | nil =>
    intro st r hinv h buf unk hr
    rcases st with ⟨⟨l, sz⟩, b, u⟩
    rw [conv_body_nil, conv_finish_eq] at h
    injection h with h
    subst hr
    by_cases hall : (l.all fun t => first t != '(' && first t != ')') = true
    · rw [if_pos hall] at h
      injection h with h1 _
      subst h1
      refine goodBuf_appendAll _ hinv.1 ?_
      intro t ht
      simp only [List.all_eq_true, Bool.and_eq_true, bne_iff_ne, ne_eq] at hall
      rcases hinv.2 t ht with h | ⟨c, hc, h⟩
      · subst h; exact absurd rfl (hall _ ht).1
      · subst h; exact isOutputToken_operator hc
    · rw [if_neg hall] at h
      simp at h
  | cons c cs ih =>
    intro st r hinv h buf unk hr
    by_cases hs : isspace c = true
    · rw [conv_body_space hs] at h
      exact ih st r hinv h buf unk hr
    simp only [Bool.not_eq_true] at hs
    by_cases ha : (isalpha c || isdigit c) = true
    · rw [conv_body_operand ha hs] at h; simp at h
    simp only [Bool.not_eq_true] at ha
    by_cases h1 : c = '('
    · subst h1; rw [conv_body_lparen] at h; simp at h
    by_cases h2 : c = ')'
    · subst h2
      rw [conv_body_rparen] at h
      subst hr
      split at h
      · split at h
        · simp at h
        · simp at h
      · simp at h
    by_cases ho : is_operator_char c = true
    · rw [conv_body_operator ho] at h; simp at h
    · simp only [Bool.not_eq_true] at ho
      rw [conv_body_unknown hs ha h1 h2 ho] at h; simp at h

theorem outputToken_shape {t : CStr} (h : isOutputToken t = true) :
    ∃ c cs, t = c :: cs ∧ ∀ d ∈ t, d ≠ ' ' := by
  simp only [isOutputToken, Bool.or_eq_true] at h
  rcases h with h | h
  · obtain ⟨c, cs, rfl, hc, hall, _⟩ := (isOperandToken_iff t).mp h
    refine ⟨c, cs, rfl, ?_⟩
    intro d hd hsp
    subst hsp
    rcases List.mem_cons.mp hd with h1 | h1
    · subst h1; revert hc; decide
    · have := hall _ h1; revert this; decide
  · match t, h with
    | [c], h =>
      refine ⟨c, [], rfl, ?_⟩
      intro d hd hsp
      simp only [List.mem_singleton] at hd
      subst hd; subst hsp
      revert h; decide

theorem hasDoubleSpace_token (t : CStr) : (∀ d ∈ t, d ≠ ' ') → ∀ (u : CStr),
    u.head? ≠ some ' ' → hasDoubleSpace (t ++ ' ' :: u) = hasDoubleSpace u := by
  induction t with
  | nil =>
    intro _ u hu
    cases u with
    | nil => rfl
    | cons b u =>
      have hb : b ≠ ' ' := by simpa using hu
      simp [hasDoubleSpace, hb]
  | cons a t ih =>
    intro ht u hu
    have ha : a ≠ ' ' := ht a (List.mem_cons_self _ _)
    have h1 := ih (fun d hd => ht d (List.mem_cons_of_mem _ hd)) u hu
    cases t with
    | nil =>
      simp only [List.nil_append] at h1
      simp only [List.cons_append, List.nil_append, hasDoubleSpace, ha, decide_False,
        Bool.false_and, Bool.false_or]
      exact h1
    | cons b t =>
      simp only [List.cons_append] at h1 ⊢
      simp only [hasDoubleSpace, ha, decide_False, Bool.false_and, Bool.false_or]
      exact h1

/-- The properties of a text made of output tokens, each followed by one space. -/
theorem spaced_format (toks : List CStr) : (∀ t ∈ toks, isOutputToken t = true) →
    (spaced toks).head? ≠ some ' ' ∧ hasDoubleSpace (spaced toks) = false ∧
      (spaced toks ≠ [] → (spaced toks).getLast? = some ' ') := by
  induction toks with
  | nil => intro _; simp [spaced, hasDoubleSpace]
  | cons t ts ih =>
    intro h
    obtain ⟨c, cs, hc, hns⟩ := outputToken_shape (h t (List.mem_cons_self _ _))
    obtain ⟨h1, h2, h3⟩ := ih (fun u hu => h u (List.mem_cons_of_mem _ hu))
    refine ⟨?_, ?_, ?_⟩
    · subst hc
      have := hns c (List.mem_cons_self _ _)
      simpa [spaced] using this
    · simp only [spaced]
      rw [hasDoubleSpace_token t hns _ h1]
      exact h2
    · intro _
      simp only [spaced]
      by_cases hnil : spaced ts = []
      · rw [hnil]; simp
      · rw [List.getLast?_append_of_ne_nil _ (by simp)]
        cases hsp : spaced ts with
        | nil => exact absurd hsp hnil
        | cons b u =>
          rw [List.getLast?_cons_cons, ← hsp]
          exact h3 hnil

/-- C20. Output format of the converter: on every input on which the conversion
does not fail, the final text is the concatenation of its tokens, each followed
by exactly one space, every token being an operand token or an operator token
of exactly one character; hence a non-empty output ends with a space, the
output never begins with a space and never contains two consecutive spaces. -/
theorem output_format (s buf : CStr) (unk : List Char)
    (h : infix_to_postfix_stepwise s = some (.final buf unk)) :
    (∃ toks : List CStr, buf = spaced toks ∧ ∀ t ∈ toks, isOutputToken t = true) ∧
      (buf ≠ [] → buf.getLast? = some ' ') ∧ buf.head? ≠ some ' ' ∧
      hasDoubleSpace buf = false := by
  have hinit : FormatInv ⟨init_stack, [], []⟩ :=
    ⟨⟨[], rfl, by intro t ht; simp at ht⟩, by intro t ht; simp [init_stack] at ht⟩
  have hgood : GoodBuf buf :=
    scan_result conv_body_shrinks FormatInv
      (fun r => ∀ buf unk, r = .final buf unk → GoodBuf buf)
      (fun cs st cs1 st1 => conv_body_formatInv cs st cs1 st1)
      (fun cs st r => conv_body_stop_format cs st r)
      s.length s _ (le_refl _) hinit _ h buf unk rfl
  obtain ⟨toks, h1, h2⟩ := hgood
  have hf := spaced_format toks h2
  rw [← h1] at hf
  exact ⟨⟨toks, h1, h2⟩, hf.2.2, hf.1, hf.2.1⟩

/-- The conversion of `(A+B)*C` gives `A B + C * `: five tokens, each followed
by one space. -/
theorem output_format_witness :
    infix_to_postfix_stepwise "(A+B)*C".toList = some (.final "A B + C * ".toList []) ∧
      (∃ toks : List CStr, "A B + C * ".toList = spaced toks ∧
        ∀ t ∈ toks, isOutputToken t = true) ∧
      hasDoubleSpace "A B + C * ".toList = false :=
  have h := output_format "(A+B)*C".toList "A B + C * ".toList [] (by decide)
  ⟨by decide, h.1, h.2.2.2⟩

/-! ## The shape of operand tokens -/

theorem conv_body_skip (cs : CStr) (st : ConvState) :
    conv_body cs st = conv_body (cs.dropWhile isspace) st := by
  induction cs with
  | nil => rfl
  | cons c cs ih =>
    by_cases hs : isspace c = true
    · rw [conv_body_space hs, List.dropWhile_cons_of_pos hs, ih]
    · rw [List.dropWhile_cons_of_neg hs]

/-- C22, as the code has it. Operand token shape: wherever the converter's scan
reads an operand (the next character after the whitespace is a letter or a
digit), the token it produces starts with that letter or digit, consists of
alphanumeric characters and `.` characters, any number of them, and has at most
31 characters. -/
theorem operand_token_shape (cs : CStr) (st : ConvState) (c : Char) (rest : CStr)
    (hskip : cs.dropWhile isspace = c :: rest) (hc : (isalpha c || isdigit c) = true) :
    conv_body cs st =
        .next (rest.dropWhile isOperandChar)
          { st with
            buf := append_postfix st.buf ((c :: rest.takeWhile isOperandChar).take 31) 255 } ∧
      isOperandToken ((c :: rest.takeWhile isOperandChar).take 31) = true := by
  constructor
  · rw [conv_body_skip, hskip, conv_body_operand hc (start_not_space hc)]
  · have h := isOutputToken_run hc rest
    have h31 : (c :: rest.takeWhile isOperandChar).take 31 =
        c :: (rest.takeWhile isOperandChar).take 30 := rfl
    rw [h31] at h ⊢
    simp only [isOutputToken, Bool.or_eq_true] at h
    rcases h with h | h
    · exact h
    · cases hl : (rest.takeWhile isOperandChar).take 30 with
      | nil =>
        rw [hl] at h
        simp only at h
        rw [(operator_not_start h)] at hc
        exact absurd hc (by decide)
      | cons d ds => rw [hl] at h; simp at h

/-- On ` x1.5` the scan reads the operand `x1.5`. -/
theorem operand_token_shape_witness :
    conv_body " x1.5".toList ⟨init_stack, [], []⟩
        = .next [] ⟨init_stack, "x1.5 ".toList, []⟩ ∧
      isOperandToken "x1.5".toList = true :=
  operand_token_shape " x1.5".toList ⟨init_stack, [], []⟩ 'x' "1.5".toList (by decide)
    (by decide)

/-- The input `1.2.3` is read as one operand token with two `.` characters. -/
theorem operand_token_shape_counterexample :
    conv_body "1.2.3".toList ⟨init_stack, [], []⟩
        = .next [] ⟨init_stack, "1.2.3 ".toList, []⟩ ∧
      infix_to_postfix_stepwise "1.2.3".toList = some (.final "1.2.3 ".toList []) ∧
      "1.2.3".toList.count '.' = 2 :=
  ⟨rfl, by decide, by decide⟩

/-! ## The order of the operator stack -/

theorem standsOn_push {op : Char} {t : CStr} (hop : is_operator_char op = true)
    (ht : t = ['('] ∨ ∃ c, is_operator_char c = true ∧ t = [c])
    (hcond : op_cond t op = false) : StandsOn [op] t := by
  rcases ht with h | ⟨c, hc, h⟩
  · left; exact h
  · subst h
    have hp := (operator_not_paren hc).1
    have hpc := precedence_operator hc
    have hpo := precedence_operator hop
    simp only [op_cond, first_singleton, ne_eq, hp, not_false_eq_true, decide_True,
      Bool.true_and, Bool.or_eq_false_iff, decide_eq_false_iff_not, Bool.and_eq_false_iff,
      not_lt, Bool.not_eq_true', decide_eq_false_iff_not, not_not] at hcond
    obtain ⟨h1, h2⟩ := hcond
    by_cases heq : precedence c = precedence op
    · rcases h2 with h2 | h2
      · exact absurd heq h2
      · have h3 : op = '^' := by simpa using h2
        subst h3
        have : c = '^' := hpc.2.2 heq
        subst this
        right; right; right
        exact ⟨rfl, rfl⟩
    · right; right; left
      simp only [first_singleton]
      omega

/-- Every pass of the converter's body keeps the operator stack ordered and
made of `(` and operator tokens. -/
theorem conv_body_stackInv (cs : CStr) : ∀ (st : ConvState) (cs1 : CStr) (st1 : ConvState),
    StackOrdered st.op_stack.top ∧ GoodStack st.op_stack.top →
    conv_body cs st = .next cs1 st1 →
    StackOrdered st1.op_stack.top ∧ GoodStack st1.op_stack.top := by
  induction cs with
  | nil => intro st cs1 st1 _ h; simp [conv_body_nil] at h
  | cons c cs ih =>
    intro st cs1 st1 hinv h
    by_cases hs : isspace c = true
    · rw [conv_body_space hs] at h
      exact ih st cs1 st1 hinv h
    simp only [Bool.not_eq_true] at hs
    obtain ⟨hord, hgood⟩ := hinv
    by_cases ha : (isalpha c || isdigit c) = true
    · rw [conv_body_operand ha hs] at h
      injection h with _ h2
      subst h2
      exact ⟨hord, hgood⟩
    simp only [Bool.not_eq_true] at ha
    by_cases h1 : c = '('
    · subst h1
      rw [conv_body_lparen] at h
      injection h with _ h2
      subst h2
      constructor
      · simp only [push, List.take]
        exact List.Chain'.cons' hord (fun y _ => Or.inr (Or.inl rfl))
      · intro t ht
        simp only [push, List.take, List.mem_cons] at ht
        rcases ht with h | h
        · left; exact h
        · exact hgood t h
    by_cases h2 : c = ')'
    · subst h2
      rcases st with ⟨⟨l, sz⟩, buf, unk⟩
      rw [conv_body_rparen] at h
      simp only [paren_loop_eq l.length l sz buf (le_refl _), peek] at h
      cases hd : l.dropWhile (fun t => first t != '(') with
      | nil => rw [hd] at h; simp at h
      | cons t l1 =>
        rw [hd] at h
        simp only [List.head?_cons] at h
        split at h
        · injection h with _ h3
          subst h3
          have hsuf : l1 <:+ l := by
            have h1 := List.dropWhile_suffix (l := l) (fun t => first t != '(')
            rw [hd] at h1
            exact (List.suffix_cons t l1).trans h1
          constructor
          · exact List.Chain'.suffix hord hsuf
          · intro u hu
            exact hgood u (hsuf.subset hu)
        · simp at h
    by_cases ho : is_operator_char c = true
    · rcases st with ⟨⟨l, sz⟩, buf, unk⟩
      rw [conv_body_operator ho] at h
      simp only [op_loop_eq c l.length l sz buf (le_refl _)] at h
      injection h with _ h3
      subst h3
      have hsuf := List.dropWhile_suffix (l := l) (fun t => op_cond t c)
      have hgood2 : GoodStack (l.dropWhile (fun t => op_cond t c)) :=
        goodStack_dropWhile hgood _
      constructor
      · simp only [push, List.take]
        apply List.Chain'.cons' (List.Chain'.suffix hord hsuf)
        intro y hy
        cases hd : l.dropWhile (fun t => op_cond t c) with
        | nil => rw [hd] at hy; simp at hy
        | cons t l1 =>
          rw [hd] at hy
          simp only [List.head?_cons, Option.mem_def, Option.some.injEq] at hy
          subst hy
          have hneg := dropWhile_head_neg _ l t l1 hd
          exact standsOn_push ho (hgood2 t (by rw [hd]; exact List.mem_cons_self _ _)) hneg
      · intro u hu
        simp only [push, List.take, List.mem_cons] at hu
        rcases hu with h | h
        · right; exact ⟨c, ho, h⟩
        · exact hgood2 u h
    · simp only [Bool.not_eq_true] at ho
      rw [conv_body_unknown hs ha h1 h2 ho] at h
      injection h with _ h3
      subst h3
      exact ⟨hord, hgood⟩

/-- C24. Operator-stack invariant of the converter: after each token is
processed, every entry of the operator stack stands on the entry below it (one
of the two is a `(`, or the lower one has strictly smaller precedence than the
upper one, or both are `^`); the stack never contains `)` and contains only `(`
and the characters `+ - * / ^`. -/
theorem operator_stack_invariant (s cs : CStr) (st : ConvState)
    (h : Reaches conv_body s ⟨init_stack, [], []⟩ cs st) :
    StackOrdered st.op_stack.top ∧
      (∀ t ∈ st.op_stack.top, t = ['('] ∨ ∃ c, is_operator_char c = true ∧ t = [c]) ∧
      ∀ t ∈ st.op_stack.top, t ≠ [')'] := by
  have hinit : StackOrdered (⟨init_stack, [], []⟩ : ConvState).op_stack.top ∧
      GoodStack (⟨init_stack, [], []⟩ : ConvState).op_stack.top :=
    ⟨List.chain'_nil, by intro t ht; simp [init_stack] at ht⟩
  have hinv := reaches_invariant
    (fun st : ConvState => StackOrdered st.op_stack.top ∧ GoodStack st.op_stack.top)
    (fun cs st cs1 st1 => conv_body_stackInv cs st cs1 st1) h hinit
  refine ⟨hinv.1, hinv.2, ?_⟩
  intro t ht hp
  rcases hinv.2 t ht with h1 | ⟨c, hc, h1⟩
  · rw [hp] at h1; exact absurd h1 (by decide)
  · rw [hp] at h1
    injection h1 with h2 _
    subst h2
    exact absurd hc (by decide)

/-- After `(A+B*` the operator stack holds `*` on `+` on `(`, an ordered stack. -/
theorem operator_stack_invariant_witness :
    Reaches conv_body "(A+B*C".toList ⟨init_stack, [], []⟩ ['C']
        ⟨⟨[['*'], ['+'], ['(']], 3⟩, "A B ".toList, []⟩ ∧
      StackOrdered [['*'], ['+'], ['(']] := by
  have h5 : Reaches conv_body ['C'] ⟨⟨[['*'], ['+'], ['(']], 3⟩, "A B ".toList, []⟩ ['C']
      ⟨⟨[['*'], ['+'], ['(']], 3⟩, "A B ".toList, []⟩ := .refl _ _
  have h4 : Reaches conv_body "*C".toList ⟨⟨[['+'], ['(']], 2⟩, "A B ".toList, []⟩ ['C']
      ⟨⟨[['*'], ['+'], ['(']], 3⟩, "A B ".toList, []⟩ := .step rfl h5
  have h3 : Reaches conv_body "B*C".toList ⟨⟨[['+'], ['(']], 2⟩, "A ".toList, []⟩ ['C']
      ⟨⟨[['*'], ['+'], ['(']], 3⟩, "A B ".toList, []⟩ := .step rfl h4
  have h2 : Reaches conv_body "+B*C".toList ⟨⟨[['(']], 1⟩, "A ".toList, []⟩ ['C']
      ⟨⟨[['*'], ['+'], ['(']], 3⟩, "A B ".toList, []⟩ := .step rfl h3
  have h1 : Reaches conv_body "A+B*C".toList ⟨⟨[['(']], 1⟩, [], []⟩ ['C']
      ⟨⟨[['*'], ['+'], ['(']], 3⟩, "A B ".toList, []⟩ := .step rfl h2
  have h0 : Reaches conv_body "(A+B*C".toList ⟨init_stack, [], []⟩ ['C']
      ⟨⟨[['*'], ['+'], ['(']], 3⟩, "A B ".toList, []⟩ := .step rfl h1
  exact ⟨h0, (operator_stack_invariant _ _ _ h0).1⟩

/-! ## The pops behind the size checks -/

/-- What a pass of the builder's body does to the stack and to the scan. -/
theorem build_body_cases (cs : CStr) : ∀ (s : Stack),
    build_body cs s = .stop (.scanned s) ∨ (∃ t, build_body cs s = .stop (.insufficient t)) ∨
      (∃ cs1 t, build_body cs s = .next cs1 (push s t)) ∨
      (∃ cs1 t, build_body cs s = .next cs1 (push (pop (pop s).2).2 t)) := by
  induction cs with
  | nil => intro s; left; rfl
  | cons c cs ih =>
    intro s
    by_cases hs : isspace c = true
    · rw [build_body_space hs]
      exact ih s
    · simp only [Bool.not_eq_true] at hs
      by_cases ha : isOperandChar c = true
      · right; right; left
        exact ⟨_, _, build_body_operand ha cs s⟩
      · simp only [Bool.not_eq_true] at ha
        rw [build_body_operator hs ha]
        by_cases h1 : s.size < 2
        · right; left; rw [if_pos h1]; exact ⟨_, rfl⟩
        · right; right; right; rw [if_neg h1]; exact ⟨_, _, rfl⟩

theorem eval_body_reachable {D : Type} (F : FloatOps D) (cs : CStr) (s : Stack) (cs1 : CStr)
    (s1 : Stack) (h : Reachable s) (hstep : eval_body F cs s = .next cs1 s1) : Reachable s1 := by
  rcases eval_body_cases F cs s with h1 | h1 | ⟨cs2, t, h1⟩ | ⟨cs2, t, h1⟩
  · rw [h1] at hstep; simp at hstep
  · rw [h1] at hstep; simp at hstep
  · rw [h1] at hstep
    injection hstep with _ h2
    subst h2
    exact .push _ t h
  · rw [h1] at hstep
    injection hstep with _ h2
    subst h2
    exact .push _ t (.pop _ (.pop _ h))

theorem build_body_reachable (cs : CStr) (s : Stack) (cs1 : CStr) (s1 : Stack)
    (h : Reachable s) (hstep : build_body cs s = .next cs1 s1) : Reachable s1 := by
  rcases build_body_cases cs s with h1 | ⟨t, h1⟩ | ⟨cs2, t, h1⟩ | ⟨cs2, t, h1⟩
  · rw [h1] at hstep; simp at hstep
  · rw [h1] at hstep; simp at hstep
  · rw [h1] at hstep
    injection hstep with _ h2
    subst h2
    exact .push _ t h
  · rw [h1] at hstep
    injection hstep with _ h2
    subst h2
    exact .push _ t (.pop _ (.pop _ h))

theorem eval_body_stop_reachable {D : Type} (F : FloatOps D) (cs : CStr) (s : Stack)
    (r : EvalScan) (h : Reachable s) (hstep : eval_body F cs s = .stop r) :
    ∀ s1, r = .scanned s1 → Reachable s1 := by
  intro s1 hr
  subst hr
  rcases eval_body_cases F cs s with h1 | h1 | ⟨cs2, t, h1⟩ | ⟨cs2, t, h1⟩
  · rw [h1] at hstep
    injection hstep with h2
    injection h2 with h3
    subst h3
    exact h
  · rw [h1] at hstep; simp at hstep
  · rw [h1] at hstep; simp at hstep
  · rw [h1] at hstep; simp at hstep

theorem build_body_stop_reachable (cs : CStr) (s : Stack) (r : BuildScan) (h : Reachable s)
    (hstep : build_body cs s = .stop r) : ∀ s1, r = .scanned s1 → Reachable s1 := by
  intro s1 hr
  subst hr
  rcases build_body_cases cs s with h1 | ⟨t, h1⟩ | ⟨cs2, t, h1⟩ | ⟨cs2, t, h1⟩
  · rw [h1] at hstep
    injection hstep with h2
    injection h2 with h3
    subst h3
    exact h
  · rw [h1] at hstep; simp at hstep
  · rw [h1] at hstep; simp at hstep
  · rw [h1] at hstep; simp at hstep

/-- Behind `size >= 2` two pops succeed, behind `size == 1` one pop does. -/
theorem pops_succeed (s : Stack) (h : sizeOK s) :
    (¬ s.size < 2 → ∃ a b, (pop s).1 = some a ∧ (pop (pop s).2).1 = some b) ∧
      (s.size = 1 → ∃ a, (pop s).1 = some a) := by
  rcases s with ⟨_ | ⟨a, _ | ⟨b, l⟩⟩, sz⟩ <;>
    simp only [sizeOK, List.length_nil, List.length_cons, Nat.cast_zero, Nat.cast_add,
      Nat.cast_one] at h
  · constructor
    · intro h2; simp only [] at h2; omega
    · intro h1; simp only [] at h1; omega
  · constructor
    · intro h2; simp only [] at h2; omega
    · exact fun _ => ⟨a, rfl⟩
  · exact ⟨fun _ => ⟨a, b, rfl, rfl⟩, fun _ => ⟨a, rfl⟩⟩

theorem handle_no_op_error {D : Type} (F : FloatOps D) (fmt_2lf : D → CStr) (s : Stack)
    (option : Int) (input : CStr) (h : sizeOK s) :
    (handle_user_option F fmt_2lf s option input).2 ≠ .op_error := by
  by_cases hopt : isOperatorOption option = true
  · by_cases hsz : s.size < 2
    · have h0 := (isOperatorOption_iff option).mp hopt
      have h1 : option ≠ 1 := by omega
      have h2 : option ≠ 2 := by omega
      simp [handle_user_option, h1, h2, h0, hsz]
    · rcases s with ⟨_ | ⟨a, _ | ⟨b, l⟩⟩, sz⟩ <;>
        simp only [sizeOK, List.length_nil, List.length_cons, Nat.cast_zero, Nat.cast_add,
          Nat.cast_one] at h
      · exact absurd (by simp only []; omega) hsz
      · exact absurd (by simp only []; omega) hsz
      · rw [handle_operator_eq F fmt_2lf a b l sz option input hopt hsz]
        split
        · simp
        · split <;> simp
  · have h0 : ¬ (option = 3 ∨ option = 4 ∨ option = 5 ∨ option = 6) :=
      fun h0 => hopt ((isOperatorOption_iff option).mpr h0)
    simp only [handle_user_option, h0, if_false]
    split
    · split
      · simp
      · split <;> simp
    · split
      · cases hp : pop s with
        | mk v s1 => cases v <;> simp
      · split
        · simp
        · split <;> simp

/-- C25. The underflow branches behind the size checks are unreachable: for
every stack reachable from `init_stack` through `push` and `pop`, two pops
succeed when the guard `size >= 2` has passed and one pop succeeds when `size`
is 1; the stacks of `evaluate_postfix_numeric` and `postfix_to_infix_stepwise`,
during the scan and after it, are such stacks, and on such a stack the
interactive applier never comes to its message "Error performing operation."
-/
theorem underflow_unreachable :
    (∀ s : Stack, Reachable s →
      (¬ s.size < 2 → ∃ a b, (pop s).1 = some a ∧ (pop (pop s).2).1 = some b) ∧
      (s.size = 1 → ∃ a, (pop s).1 = some a)) ∧
    (∀ (D : Type) (F : FloatOps D) (pf cs : CStr) (s : Stack),
      Reaches (eval_body F) pf init_stack cs s → Reachable s) ∧
    (∀ (D : Type) (F : FloatOps D) (pf : CStr) (s : Stack),
      escan F pf init_stack = some (.scanned s) → Reachable s) ∧
    (∀ (input cs : CStr) (s : Stack),
      Reaches build_body input init_stack cs s → Reachable s) ∧
    (∀ (input : CStr) (s : Stack), build_scan input = some (.scanned s) → Reachable s) ∧
    (∀ (D : Type) (F : FloatOps D) (fmt_2lf : D → CStr) (s : Stack) (option : Int)
      (input : CStr), Reachable s →
      (handle_user_option F fmt_2lf s option input).2 ≠ .op_error) := by
  refine ⟨?_, ?_, ?_, ?_, ?_, ?_⟩
  · intro s h
    exact pops_succeed s (reachable_sizeOK h)
  · intro D F pf cs s h
    exact reaches_invariant Reachable (eval_body_reachable F) h .init
  · intro D F pf s h
    exact scan_result (eval_body_shrinks F) Reachable
      (fun r => ∀ s1, r = .scanned s1 → Reachable s1)
      (eval_body_reachable F) (eval_body_stop_reachable F) pf.length pf init_stack (le_refl _)
      .init _ h s rfl
  · intro input cs s h
    exact reaches_invariant Reachable build_body_reachable h .init
  · intro input s h
    exact scan_result build_body_shrinks Reachable
      (fun r => ∀ s1, r = .scanned s1 → Reachable s1)
      build_body_reachable build_body_stop_reachable input.length input init_stack (le_refl _)
      .init _ h s rfl
  · intro D F fmt_2lf s option input h
    exact handle_no_op_error F fmt_2lf s option input (reachable_sizeOK h)

/-! ## Negative results of the applier -/

/-- A symbolic operand makes the options 3 to 6 build the parenthesized text. -/
theorem handle_symbolic {D : Type} (F : FloatOps D) (fmt_2lf : D → CStr) (s : Stack)
    (a b : CStr) (l : List CStr) (option : Int) (input : CStr) (hwf : wellFormed s = true)
    (htop : s.top = a :: b :: l) (hopt : isOperatorOption option = true)
    (hsym : isNumEntry a = false ∨ isNumEntry b = false) :
    handle_user_option F fmt_2lf s option input =
      (⟨(symbolicText option a b).take 31 :: l, s.size - 1⟩,
        .symbolic ((symbolicText option a b).take 63)) := by
  rcases s with ⟨top, sz⟩
  simp only at htop
  subst htop
  obtain ⟨hsz, _⟩ := (wellFormed_iff _).mp hwf
  simp only [List.length_cons, Nat.cast_add, Nat.cast_one] at hsz
  rw [handle_operator_eq F fmt_2lf a b l sz option input hopt (by omega)]
  have hcond : (!isNumEntry a || !isNumEntry b) = true := by
    rcases hsym with h | h <;> simp [h]
  rw [if_pos hcond]
  simp only [push, symbolicText, List.take_take]
  have : sz - 1 - 1 + 1 = sz - 1 := by omega
  rw [this]
  rfl

theorem isNumEntry_minus {t : CStr} (h : t.head? = some '-') : isNumEntry t = false := by
  cases t with
  | nil => simp at h
  | cons c t =>
    simp only [List.head?_cons, Option.some.injEq] at h
    subst h
    simp [isNumEntry, first, isdigit]

theorem head?_take_succ {α : Type} (l : List α) (n : Nat) : (l.take (n + 1)).head? = l.head? := by
  cases l <;> rfl

/-- C26. A negative numeric result is no longer numeric for the applier: for a
library whose `"%.2lf"` text of a negative difference begins with `-`, and for
numeric entries `b` (next) and `a` (top) with `value(b) < value(a)`, the subtract
option pushes a token whose first character is `-`; this token is classified
symbolic, and every later application of an operator option that has it as one
of its two operands builds the parenthesized text instead of computing. -/
theorem negative_result_symbolic {D : Type} (F : FloatOps D) (fmt_2lf : D → CStr)
    (lt : D → D → Prop)
    (hlib : ∀ x y, lt x y → (fmt_2lf (F.sub x y)).head? = some '-')
    (s : Stack) (a b : CStr) (l : List CStr) (input : CStr) (hwf : wellFormed s = true)
    (htop : s.top = a :: b :: l) (ha : isNumEntry a = true) (hb : isNumEntry b = true)
    (hlt : lt (F.atof b) (F.atof a)) :
    handle_user_option F fmt_2lf s 4 input =
        (⟨(fmt_2lf (F.sub (F.atof b) (F.atof a))).take 31 :: l, s.size - 1⟩,
          .numeric (F.sub (F.atof b) (F.atof a))) ∧
      ((fmt_2lf (F.sub (F.atof b) (F.atof a))).take 31).head? = some '-' ∧
      isNumEntry ((fmt_2lf (F.sub (F.atof b) (F.atof a))).take 31) = false ∧
      ∀ (s1 : Stack) (x y : CStr) (l1 : List CStr) (option : Int) (input1 : CStr),
        wellFormed s1 = true → s1.top = x :: y :: l1 →
        (x = (fmt_2lf (F.sub (F.atof b) (F.atof a))).take 31 ∨
          y = (fmt_2lf (F.sub (F.atof b) (F.atof a))).take 31) →
        isOperatorOption option = true →
        handle_user_option F fmt_2lf s1 option input1 =
          (⟨(symbolicText option x y).take 31 :: l1, s1.size - 1⟩,
            .symbolic ((symbolicText option x y).take 63)) := by
  have hhead : ((fmt_2lf (F.sub (F.atof b) (F.atof a))).take 31).head? = some '-' := by
    rw [head?_take_succ]
    exact hlib _ _ hlt
  have hsym := isNumEntry_minus hhead
  refine ⟨?_, hhead, hsym, ?_⟩
  · rcases s with ⟨top, sz⟩
    simp only at htop
    subst htop
    obtain ⟨hsz, _⟩ := (wellFormed_iff _).mp hwf
    simp only [List.length_cons, Nat.cast_add, Nat.cast_one] at hsz
    rw [handle_operator_eq F fmt_2lf a b l sz 4 input (by decide) (by omega)]
    have h46 : ¬ ((4 : Int) = 6 ∧ F.isZero (F.atof a) = true) := by
      rintro ⟨h, _⟩; exact absurd h (by decide)
    have h43 : ¬ ((4 : Int) = 3) := by decide
    simp only [ha, hb, Bool.not_true, Bool.or_self, Bool.false_eq_true, if_false, h46, h43,
      if_true, push, List.take_take]
    have : sz - 1 - 1 + 1 = sz - 1 := by omega
    rw [this]
    rfl
  · intro s1 x y l1 option input1 hwf1 htop1 hxy hopt
    apply handle_symbolic F fmt_2lf s1 x y l1 option input1 hwf1 htop1 hopt
    rcases hxy with h | h
    · left; rw [h]; exact hsym
    · right; rw [h]; exact hsym

/-- In exact decimal arithmetic the text of a negative difference begins with `-`. -/
theorem dec_sub_sign (x y : Dec) (h : Dec.lt x y) :
    (Dec.fmt_2lf (decOps.sub x y)).head? = some '-' := by
  obtain ⟨hx, hy, hlt⟩ := h
  have hden : x.den * y.den ≠ 0 := Nat.mul_ne_zero hx hy
  have hnum : x.num * (y.den : Int) - y.num * (x.den : Int) < 0 := by omega
  simp only [decOps, Dec.fmt_2lf, hden, if_false, hnum, if_true]
  rfl

/-- The example in exact decimal arithmetic: from the stack `3`, `5` (top) the
subtract option gives `-2.00`; after pushing `1` the add option leaves
`(-2.00+1)` on top, not `-1.00`. -/
theorem negative_result_symbolic_witness :
    handle_user_option decOps Dec.fmt_2lf ⟨[['5'], ['3']], 2⟩ 4 []
        = (⟨["-2.00".toList], 1⟩, .numeric ⟨-2, 1⟩) ∧
      handle_user_option decOps Dec.fmt_2lf ⟨["-2.00".toList], 1⟩ 1 ['1']
        = (⟨[['1'], "-2.00".toList], 2⟩, .pushed ['1']) ∧
      handle_user_option decOps Dec.fmt_2lf ⟨[['1'], "-2.00".toList], 2⟩ 3 []
        = (⟨["(-2.00+1)".toList], 1⟩, .symbolic "(-2.00+1)".toList) := by
  have h := negative_result_symbolic decOps Dec.fmt_2lf Dec.lt dec_sub_sign
    ⟨[['5'], ['3']], 2⟩ ['5'] ['3'] [] [] (by decide) rfl (by decide) (by decide)
    ⟨by decide, by decide, by decide⟩
  exact ⟨h.1, by decide,
    h.2.2.2 ⟨[['1'], "-2.00".toList], 2⟩ ['1'] "-2.00".toList [] 3 [] (by decide) rfl
      (Or.inr (by decide)) (by decide)⟩


/-! ## C23: the tokens of the builder and of the converter -/

/-- At the end of the input the converter's loop ends. -/
theorem conv_lex_none (total : Nat) (cs : CStr) (st : ConvState)
    (h : conv_lex total cs = none) : conv_body cs st = .stop (conv_finish st) := by
  unfold conv_lex at h
  unfold conv_body
  split
  · rfl
  · rename_i c rest heq
    rw [heq] at h
    simp only [] at h
    split_ifs at h

/-- An operand token of `conv_lex` is what the converter's loop reads and
appends, cut to 31 characters. -/
theorem conv_lex_operand (total : Nat) (cs : CStr) (st : ConvState) (p : Nat)
    (run rest : CStr) (h : conv_lex total cs = some (.operand p run, rest)) :
    conv_body cs st
      = .next rest { st with buf := append_postfix st.buf (run.take 31) 255 } := by
  unfold conv_lex at h
  unfold conv_body
  split
  · rename_i heq
    rw [heq] at h
    simp at h
  · rename_i c rest0 heq
    rw [heq] at h
    simp only [] at h
    split_ifs at h with h1 h2 h3 <;> try (simp at h; done)
    · simp only [Option.some.injEq, Prod.mk.injEq, Lexeme.operand.injEq] at h
      obtain ⟨⟨_, hr⟩, hrest⟩ := h
      rw [if_pos h1, ← hr, ← hrest]

/-- An operator token of `conv_lex` is an operator character that the
converter's loop handles as an operator. -/
theorem conv_lex_operator (total : Nat) (cs : CStr) (st : ConvState) (p : Nat)
    (c : Char) (rest : CStr) (h : conv_lex total cs = some (.operator p c, rest)) :
    is_operator_char c = true ∧
    conv_body cs st
      = .next rest { st with
          op_stack := push (op_loop st.op_stack.top.length c st.op_stack st.buf).1 [c],
          buf := (op_loop st.op_stack.top.length c st.op_stack st.buf).2 } := by
  unfold conv_lex at h
  unfold conv_body
  split
  · rename_i heq
    rw [heq] at h
    simp at h
  · rename_i c0 rest0 heq
    rw [heq] at h
    simp only [] at h
    split_ifs at h with h1 h2 h3 <;> try (simp at h; done)
    · simp only [Option.some.injEq, Prod.mk.injEq, Lexeme.operator.injEq] at h
      obtain ⟨⟨_, hc⟩, hrest⟩ := h
      subst hc
      subst hrest
      have hl : c0 ≠ '(' := fun e => h2 (Or.inl e)
      have hr : c0 ≠ ')' := fun e => h2 (Or.inr e)
      refine ⟨h3, ?_⟩
      rw [if_neg h1, if_neg hl, if_neg hr, if_pos h3]

/-- An unknown token of `conv_lex` is a character that the converter's loop
reports as unknown. -/
theorem conv_lex_unknown (total : Nat) (cs : CStr) (st : ConvState) (p : Nat)
    (c : Char) (rest : CStr) (h : conv_lex total cs = some (.unknown p c, rest)) :
    is_operator_char c = false ∧
    conv_body cs st = .next rest { st with unknown := st.unknown ++ [c] } := by
  unfold conv_lex at h
  unfold conv_body
  split
  · rename_i heq
    rw [heq] at h
    simp at h
  · rename_i c0 rest0 heq
    rw [heq] at h
    simp only [] at h
    split_ifs at h with h1 h2 h3 <;> try (simp at h; done)
    · simp only [Option.some.injEq, Prod.mk.injEq, Lexeme.unknown.injEq] at h
      obtain ⟨⟨_, hc⟩, hrest⟩ := h
      subst hc
      subst hrest
      have hl : c0 ≠ '(' := fun e => h2 (Or.inl e)
      have hr : c0 ≠ ')' := fun e => h2 (Or.inr e)
      refine ⟨by simpa using h3, ?_⟩
      rw [if_neg h1, if_neg hl, if_neg hr, if_neg h3]

/-- A parenthesis token of `conv_lex` is a parenthesis, not an operator
character, and the converter's loop pushes it or unwinds the stack to it. -/
theorem conv_lex_paren (total : Nat) (cs : CStr) (st : ConvState) (p : Nat)
    (c : Char) (rest : CStr) (h : conv_lex total cs = some (.paren p c, rest)) :
    is_operator_char c = false ∧
    ((c = '(' ∧
        conv_body cs st = .next rest { st with op_stack := push st.op_stack [c] }) ∨
     (c = ')' ∧
        conv_body cs st
          = match peek (paren_loop st.op_stack.top.length st.op_stack st.buf).1 with
            | some top_op =>
              if first top_op = '(' then
                .next rest { st with
                  op_stack := (pop (paren_loop st.op_stack.top.length st.op_stack st.buf).1).2,
                  buf := (paren_loop st.op_stack.top.length st.op_stack st.buf).2 }
              else .stop (.mismatched st.unknown)
            | none => .stop (.mismatched st.unknown))) := by
  unfold conv_lex at h
  unfold conv_body
  split
  · rename_i heq
    rw [heq] at h
    simp at h
  · rename_i c0 rest0 heq
    rw [heq] at h
    simp only [] at h
    split_ifs at h with h1 h2 h3 <;> try (simp at h; done)
    · simp only [Option.some.injEq, Prod.mk.injEq, Lexeme.paren.injEq] at h
      obtain ⟨⟨_, hc⟩, hrest⟩ := h
      subst hc
      subst hrest
      rcases h2 with h2 | h2
      · subst h2
        exact ⟨by decide, Or.inl ⟨rfl, by rw [if_neg h1, if_pos rfl]⟩⟩
      · subst h2
        refine ⟨by decide, Or.inr ⟨rfl, ?_⟩⟩
        rw [if_neg h1, if_neg (by decide), if_pos rfl]

/-- At the end of the input the builder's loop ends. -/
theorem build_lex_none (total : Nat) (cs : CStr) (s : Stack)
    (h : build_lex total cs = none) : build_body cs s = .stop (.scanned s) := by
  unfold build_lex at h
  unfold build_body
  split
  · rfl
  · rename_i c rest heq
    rw [heq] at h
    simp only [] at h
    split_ifs at h

/-- An operand token of `build_lex` is what the builder's loop reads and pushes,
cut to 31 characters. -/
theorem build_lex_operand (total : Nat) (cs : CStr) (s : Stack) (p : Nat)
    (run rest : CStr) (h : build_lex total cs = some (.operand p run, rest)) :
    build_body cs s = .next rest (push s (run.take 31)) := by
  unfold build_lex at h
  unfold build_body
  split
  · rename_i heq
    rw [heq] at h
    simp at h
  · rename_i c rest0 heq
    rw [heq] at h
    simp only [] at h
    split_ifs at h with h1 <;> try (simp at h; done)
    · simp only [Option.some.injEq, Prod.mk.injEq, Lexeme.operand.injEq] at h
      obtain ⟨⟨_, hr⟩, hrest⟩ := h
      rw [if_pos h1, ← hr, ← hrest]

/-- An operator token of `build_lex` is a character that the builder's loop
handles as an operator: it reports too few operands or joins the two entries on
top of the stack around the character. -/
theorem build_lex_operator (total : Nat) (cs : CStr) (s : Stack) (p : Nat)
    (c : Char) (rest : CStr) (h : build_lex total cs = some (.operator p c, rest)) :
    build_body cs s
      = if s.size < 2 then .stop (.insufficient [c])
        else .next rest (push (pop (pop s).2).2
          ((['('] ++ (pop (pop s).2).1.getD [] ++ [' '] ++ [c] ++ [' ']
            ++ (pop s).1.getD [] ++ [')']).take 127)) := by
  unfold build_lex at h
  unfold build_body
  split
  · rename_i heq
    rw [heq] at h
    simp at h
  · rename_i c0 rest0 heq
    rw [heq] at h
    simp only [] at h
    split_ifs at h with h1 <;> try (simp at h; done)
    · simp only [Option.some.injEq, Prod.mk.injEq, Lexeme.operator.injEq] at h
      obtain ⟨⟨_, hc⟩, hrest⟩ := h
      subst hc
      subst hrest
      rw [if_neg h1]

/-- The builder's scan reads only operand and operator tokens. -/
theorem build_lex_kinds (total : Nat) (cs : CStr) (t : Lexeme) (rest : CStr)
    (h : build_lex total cs = some (t, rest)) :
    (∃ p r, t = .operand p r) ∨ (∃ p c, t = .operator p c) := by
  unfold build_lex at h
  split at h
  · simp at h
  · split_ifs at h
    · simp only [Option.some.injEq, Prod.mk.injEq] at h
      exact Or.inl ⟨_, _, h.1.symm⟩
    · simp only [Option.some.injEq, Prod.mk.injEq] at h
      exact Or.inr ⟨_, _, h.1.symm⟩

/-- As long as no operand token of the builder starts with `.`, the two scans
read the same operand tokens, and the builder's operators are the converter's
operators, parentheses and unknown characters. -/
theorem lexemes_sync (total : Nat) : ∀ (fuel : Nat) (cs : CStr),
    (∀ x ∈ operandLexemes (lexemes (build_lex total) fuel cs), x.2.head? ≠ some '.') →
    operandLexemes (lexemes (conv_lex total) fuel cs)
        = operandLexemes (lexemes (build_lex total) fuel cs) ∧
    otherLexemes (lexemes (conv_lex total) fuel cs)
        = operatorLexemes (lexemes (build_lex total) fuel cs) := by
  intro fuel
  induction fuel with
  | zero => intro cs _; exact ⟨rfl, rfl⟩
  | succ n ih =>
    intro cs h
    rcases hd : cs.dropWhile isspace with _ | ⟨c, rest⟩
    · have h1 : conv_lex total cs = none := by unfold conv_lex; rw [hd]
      have h2 : build_lex total cs = none := by unfold build_lex; rw [hd]
      simp [lexemes, h1, h2, operandLexemes, otherLexemes, operatorLexemes]
    · by_cases hs : (isalpha c || isdigit c) = true
      · have hs2 : (isalnum c || decide (c = '.')) = true := by
          have := isOperandChar_of_start hs
          simpa [isOperandChar] using this
        have h1 : conv_lex total cs
            = some (.operand (total - (rest.length + 1))
                ((c :: rest).takeWhile isOperandChar),
                (c :: rest).dropWhile isOperandChar) := by
          unfold conv_lex; rw [hd]; simp only []; rw [if_pos hs]
        have h2 : build_lex total cs
            = some (.operand (total - (rest.length + 1))
                ((c :: rest).takeWhile isOperandChar),
                (c :: rest).dropWhile isOperandChar) := by
          unfold build_lex; rw [hd]; simp only []; rw [if_pos hs2]; rfl
        simp only [lexemes, h1, h2] at h ⊢
        have ih1 := ih ((c :: rest).dropWhile isOperandChar) (by
          intro x hm
          apply h x
          simp only [operandLexemes, List.filterMap_cons] at hm ⊢
          exact List.mem_cons_of_mem _ hm)
        simp only [operandLexemes, otherLexemes, operatorLexemes,
          List.filterMap_cons] at ih1 ⊢
        exact ⟨by rw [ih1.1], ih1.2⟩
      · by_cases hdot : c = '.'
        · exfalso
          have h2 : build_lex total cs
              = some (.operand (total - (rest.length + 1))
                  ((c :: rest).takeWhile (fun d => isalnum d || d = '.')),
                  (c :: rest).dropWhile (fun d => isalnum d || d = '.')) := by
            unfold build_lex; rw [hd]; simp only []
            rw [if_pos (by simp [hdot])]
          simp only [lexemes, h2] at h
          refine h (total - (rest.length + 1),
            (c :: rest).takeWhile (fun d => isalnum d || d = '.')) ?_ ?_
          · simp [operandLexemes]
          · subst hdot
            simp [List.takeWhile]
        · have hn : ¬ (isalnum c || decide (c = '.')) = true := by
            intro hh
            apply hs
            simp only [Bool.or_eq_true, decide_eq_true_eq] at hh
            rcases hh with hh | hh
            · simpa [isalnum] using hh
            · exact absurd hh hdot
          have h2 : build_lex total cs
              = some (.operator (total - (rest.length + 1)) c, rest) := by
            unfold build_lex; rw [hd]; simp only []; rw [if_neg hn]
          have h1 : ∃ t, conv_lex total cs = some (t, rest) ∧
              (∀ l, operandLexemes (t :: l) = operandLexemes l) ∧
              (∀ l, otherLexemes (t :: l)
                = (total - (rest.length + 1), c) :: otherLexemes l) := by
            unfold conv_lex; rw [hd]; simp only []; rw [if_neg hs]
            split_ifs
            · exact ⟨_, rfl, fun _ => rfl, fun _ => rfl⟩
            · exact ⟨_, rfl, fun _ => rfl, fun _ => rfl⟩
            · exact ⟨_, rfl, fun _ => rfl, fun _ => rfl⟩
          obtain ⟨t, ht, ho, hx⟩ := h1
          have hb1 : ∀ l, operandLexemes (Lexeme.operator (total - (rest.length + 1)) c :: l)
              = operandLexemes l := fun _ => rfl
          have hb2 : ∀ l, operatorLexemes (Lexeme.operator (total - (rest.length + 1)) c :: l)
              = (total - (rest.length + 1), c) :: operatorLexemes l := fun _ => rfl
          simp only [lexemes, h2, ht] at h ⊢
          rw [hb1] at h
          have ih1 := ih rest h
          rw [ho, hx, hb1, hb2, ih1.1, ih1.2]
          exact ⟨rfl, rfl⟩

/-- The operator tokens of a token list are among its tokens that are not
operands. -/
theorem operatorLexemes_sub (ls : List Lexeme) :
    ∀ x ∈ operatorLexemes ls, x ∈ otherLexemes ls := by
  intro x hx
  simp only [operatorLexemes, otherLexemes, List.mem_filterMap] at hx ⊢
  obtain ⟨t, ht, he⟩ := hx
  refine ⟨t, ht, ?_⟩
  cases t <;> simp_all

/-- C23, amended: for every input string in which no operand token of the
builder's scan starts with `.`, the scan in `postfix_to_infix_stepwise`
recognises the same operand tokens (same start positions and same text) as the
scan in `infix_to_postfix_stepwise`, and it treats as operators exactly the
characters that the converter treats as operators, as parentheses or as unknown
characters; so every operator of the converter is an operator of the builder. -/
theorem builder_tokens_match (s : CStr)
    (h : ∀ x ∈ operandLexemes (build_lexemes s), x.2.head? ≠ some '.') :
    operandLexemes (conv_lexemes s) = operandLexemes (build_lexemes s) ∧
    operatorLexemes (build_lexemes s) = otherLexemes (conv_lexemes s) ∧
    ∀ x ∈ operatorLexemes (conv_lexemes s), x ∈ operatorLexemes (build_lexemes s) := by
  have hs := lexemes_sync s.length (s.length + 1) s h
  refine ⟨hs.1, hs.2.symm, ?_⟩
  intro x hx
  have := operatorLexemes_sub _ x hx
  unfold build_lexemes
  rw [← hs.2]
  exact this

/-- C23, witness: on `A1.5 (b+c)` both scans read the operands `A1.5`, `b`
and `c` at the positions 0, 6 and 8, and the builder reads `(`, `+` and `)` as
operators. -/
theorem builder_tokens_match_witness :
    (∀ x ∈ operandLexemes (build_lexemes "A1.5 (b+c)".toList), x.2.head? ≠ some '.') ∧
    operandLexemes (conv_lexemes "A1.5 (b+c)".toList)
      = [(0, "A1.5".toList), (6, ['b']), (8, ['c'])] ∧
    operandLexemes (conv_lexemes "A1.5 (b+c)".toList)
      = operandLexemes (build_lexemes "A1.5 (b+c)".toList) ∧
    operatorLexemes (build_lexemes "A1.5 (b+c)".toList)
      = [(5, '('), (7, '+'), (9, ')')] ∧
    operatorLexemes (build_lexemes "A1.5 (b+c)".toList)
      = otherLexemes (conv_lexemes "A1.5 (b+c)".toList) :=
  have hyp : ∀ x ∈ operandLexemes (build_lexemes "A1.5 (b+c)".toList),
      x.2.head? ≠ some '.' := by decide
  ⟨hyp, by decide, (builder_tokens_match "A1.5 (b+c)".toList hyp).1, by decide,
    (builder_tokens_match "A1.5 (b+c)".toList hyp).2.1⟩

/-- C23, counterexample: on `.5` the builder reads the operand `.5` at
position 0 and returns it, while the converter reports `.` as unknown and reads
the operand `5` at position 1; on `A B $` the builder treats `$` as an operator
and builds `(A $ B)`, while the converter reports `$` as unknown and has no
operator. -/
theorem builder_tokens_match_counterexample :
    build_lexemes ".5".toList = [.operand 0 ".5".toList] ∧
    conv_lexemes ".5".toList = [.unknown 0 '.', .operand 1 ['5']] ∧
    postfix_to_infix_stepwise ".5".toList = some (.complete (some ".5".toList)) ∧
    infix_to_postfix_stepwise ".5".toList = some (.final "5 ".toList ['.']) ∧
    operandLexemes (build_lexemes ".5".toList)
      ≠ operandLexemes (conv_lexemes ".5".toList) ∧
    operatorLexemes (build_lexemes "A B $".toList) = [(4, '$')] ∧
    operatorLexemes (conv_lexemes "A B $".toList) = [] ∧
    is_operator_char '$' = false ∧
    postfix_to_infix_stepwise "A B $".toList
      = some (.complete (some "(A $ B)".toList)) ∧
    infix_to_postfix_stepwise "A B $".toList = some (.final "A B ".toList ['$']) := by
  refine ⟨by decide, by decide, by decide, by decide, by decide, by decide, by decide,
    by decide, by decide, by decide⟩

/-! ## C21: the operands and operators that pass to the output -/

/-- A property of the rest of the input and the state that holds at the start
holds for the result of a scanning loop, when every pass of the body keeps it
and every exit turns it into `Q`. -/
theorem scan_result_rest {σ ρ : Type} {body : CStr → σ → LoopStep σ ρ} (hb : Shrinks body)
    (P : CStr → σ → Prop) (Q : ρ → Prop)
    (hnext : ∀ cs st cs1 st1, P cs st → body cs st = .next cs1 st1 → P cs1 st1)
    (hstop : ∀ cs st r, P cs st → body cs st = .stop r → Q r) (n : Nat) :
    ∀ (cs : CStr) (st : σ), cs.length ≤ n → P cs st → ∀ r, scan body cs st = some r → Q r := by
  induction n with
  | zero =>
    intro cs st hn hP r hr
    rw [scan_eq hb] at hr
    cases h : body cs st with
    | stop r1 =>
      rw [h] at hr
      injection hr with hr
      subst hr
      exact hstop cs st r1 hP h
    | next rest st1 => have := hb cs st rest st1 h; omega
  | succ n ih =>
    intro cs st hn hP r hr
    rw [scan_eq hb] at hr
    cases h : body cs st with
    | stop r1 =>
      rw [h] at hr
      injection hr with hr
      subst hr
      exact hstop cs st r1 hP h
    | next rest st1 =>
      rw [h] at hr
      have := hb cs st rest st1 h
      exact ih rest st1 (by omega) (hnext cs st rest st1 hP h) r hr

theorem start_not_operator {c : Char} (hc : (isalpha c || isdigit c) = true) :
    is_operator_char c = false := by
  cases h : is_operator_char c with
  | false => rfl
  | true => rw [operator_not_start h] at hc; exact absurd hc (by decide)

theorem space_not_start {c : Char} (hc : isspace c = true) :
    (isalpha c || isdigit c) = false := by
  cases h : (isalpha c || isdigit c) with
  | false => rfl
  | true => rw [start_not_space h] at hc; exact absurd hc (by decide)

theorem space_not_operator {c : Char} (hc : isspace c = true) :
    is_operator_char c = false := by
  cases h : is_operator_char c with
  | false => rfl
  | true => rw [operator_not_space h] at hc; exact absurd hc (by decide)

theorem runsAux_some (cs : CStr) : ∀ r : CStr,
    runsAux (some r) cs
      = (r ++ cs.takeWhile isOperandChar) :: runsAux none (cs.dropWhile isOperandChar) := by
  induction cs with
  | nil => intro r; simp [runsAux]
  | cons c cs ih =>
    intro r
    by_cases h : isOperandChar c = true
    · simp [runsAux, h, ih, List.takeWhile, List.dropWhile]
    · have hst : (isalpha c || isdigit c) = false := by
        cases hh : (isalpha c || isdigit c) with
        | false => rfl
        | true => exact absurd (isOperandChar_of_start hh) h
      simp only [Bool.or_eq_false_iff] at hst
      simp [runsAux, h, hst, List.takeWhile, List.dropWhile]

theorem operandRuns_start {c : Char} (hc : (isalpha c || isdigit c) = true) (cs : CStr) :
    operandRuns (c :: cs)
      = (c :: cs.takeWhile isOperandChar) :: operandRuns (cs.dropWhile isOperandChar) := by
  simp only [operandRuns, runsAux, hc, if_true, runsAux_some]
  rfl

theorem operandRuns_skip {c : Char} (hc : (isalpha c || isdigit c) = false) (cs : CStr) :
    operandRuns (c :: cs) = operandRuns cs := by
  simp [operandRuns, runsAux, hc]

theorem countP_dropWhile_disjoint (p q : Char → Bool) (h : ∀ c, q c = true → p c = false)
    (l : CStr) : (l.dropWhile p).countP q = l.countP q := by
  induction l with
  | nil => rfl
  | cons a l ih =>
    by_cases hp : p a = true
    · have hq : q a = false := by
        cases hq : q a with
        | false => rfl
        | true => rw [h a hq] at hp; exact absurd hp (by decide)
      simp [List.dropWhile, hp, List.countP_cons, hq, ih]
    · simp [List.dropWhile, hp]

theorem count_dropWhile_operand {d : Char} (hd : is_operator_char d = true) (l : CStr) :
    (l.dropWhile isOperandChar).count d = l.count d := by
  unfold List.count
  apply countP_dropWhile_disjoint
  intro c hc
  have : c = d := by simpa using hc
  subst this
  exact operator_not_operandChar hd

theorem fitLength_start {c : Char} (hc : (isalpha c || isdigit c) = true) (cs : CStr) :
    fitLength (c :: cs)
      = min (c :: cs.takeWhile isOperandChar).length 31 + 1
        + fitLength (cs.dropWhile isOperandChar) := by
  unfold fitLength
  rw [operandRuns_start hc, List.map_cons, List.sum_cons, List.countP_cons,
    start_not_operator hc,
    countP_dropWhile_disjoint isOperandChar is_operator_char
      (fun c h => operator_not_operandChar h) cs]
  simp only [Bool.false_eq_true, if_false]
  omega

theorem fitLength_operator {c : Char} (hc : is_operator_char c = true) (cs : CStr) :
    fitLength (c :: cs) = 2 + fitLength cs := by
  unfold fitLength
  rw [operandRuns_skip (operator_not_start hc), List.countP_cons, hc]
  simp only [if_true]
  omega

theorem fitLength_skip {c : Char} (h1 : (isalpha c || isdigit c) = false)
    (h2 : is_operator_char c = false) (cs : CStr) : fitLength (c :: cs) = fitLength cs := by
  unfold fitLength
  rw [operandRuns_skip h1, List.countP_cons, h2]
  simp

theorem count_cons_other {c d : Char} (hc : is_operator_char c = false)
    (hd : is_operator_char d = true) (cs : CStr) : (c :: cs).count d = cs.count d := by
  have hne : c ≠ d := by intro e; subst e; rw [hc] at hd; exact absurd hd (by decide)
  rw [List.count_cons]
  simp [hne]

/-- A character that starts no operand and is no operator leaves the invariant
as it is. -/
theorem passInv_skip {s : CStr} {c : Char} {cs : CStr} {st : ConvState}
    (h1 : (isalpha c || isdigit c) = false) (h2 : is_operator_char c = false)
    (h : PassInv s (c :: cs) st) : PassInv s cs st := by
  obtain ⟨toks, hb, hg, hs, hops, hcnt, hroom⟩ := h
  refine ⟨toks, hb, hg, hs, ?_, ?_, ?_⟩
  · rwa [operandRuns_skip h1] at hops
  · intro d hd
    have := hcnt d hd
    rwa [count_cons_other h2 hd] at this
  · rwa [fitLength_skip h1 h2] at hroom

theorem isOperandToken_run {c : Char} (hc : (isalpha c || isdigit c) = true) (cs : CStr) :
    isOperandToken ((c :: cs.takeWhile isOperandChar).take 31) = true := by
  have h31 : (c :: cs.takeWhile isOperandChar).take 31 =
      c :: (cs.takeWhile isOperandChar).take 30 := rfl
  rw [h31]
  simp only [isOperandToken, hc, Bool.true_and, Bool.and_eq_true, List.all_eq_true,
    decide_eq_true_eq]
  constructor
  · intro d hd
    exact List.mem_takeWhile_imp ((List.take_sublist _ _).subset hd)
  · simp only [List.length_cons, List.length_take]
    omega

/-- What the loops over the operator stack pop from a well-formed stack are
operator tokens. -/
theorem popped_operators {l : List CStr} (hl : GoodStack l) (p : CStr → Bool)
    (hp : ∀ t, p t = true → first t ≠ '(') :
    ∀ t ∈ l.takeWhile p, ∃ d, is_operator_char d = true ∧ t = [d] := by
  intro t ht
  have hmem : t ∈ l := (List.takeWhile_sublist p).subset ht
  have hpt : p t = true := List.mem_takeWhile_imp ht
  rcases hl t hmem with h | ⟨c, hc, h⟩
  · subst h; exact absurd rfl (hp _ hpt)
  · exact ⟨c, hc, h⟩

theorem spaced_length_ops (ts : List CStr) (h : ∀ t ∈ ts, t.length = 1) :
    (spaced ts).length = 2 * ts.length := by
  induction ts with
  | nil => rfl
  | cons t ts ih =>
    have h1 := h t (List.mem_cons_self _ _)
    have h2 := ih (fun u hu => h u (List.mem_cons_of_mem _ hu))
    simp only [spaced, List.length_append, List.length_cons, h1, h2]
    omega

/-- The tokens popped by a loop over the operator stack all go to the buffer
when there is room for everything on the stack. -/
theorem pass_pop {l : List CStr} (hl : GoodStack l) (p : CStr → Bool)
    (hp : ∀ t, p t = true → first t ≠ '(') {toks : List CStr} {buf : CStr}
    (hb : buf = spaced toks) (hg : ∀ t ∈ toks, isOutputToken t = true)
    (hroom : buf.length + 2 * l.countP (fun t => first t != '(') < 254) :
    appendAll buf (l.takeWhile p) = spaced (toks ++ l.takeWhile p) ∧
    (∀ t ∈ toks ++ l.takeWhile p, isOutputToken t = true) ∧
    (toks ++ l.takeWhile p).filter isOperandToken = toks.filter isOperandToken ∧
    (∀ c : Char, (toks ++ l.takeWhile p).count [c] + (l.dropWhile p).count [c]
      = toks.count [c] + l.count [c]) ∧
    (spaced (toks ++ l.takeWhile p)).length
        + 2 * (l.dropWhile p).countP (fun t => first t != '(')
      = buf.length + 2 * l.countP (fun t => first t != '(') := by
  have hpop := popped_operators hl p hp
  have hlen : (spaced (l.takeWhile p)).length = 2 * (l.takeWhile p).length :=
    spaced_length_ops _ (fun t ht => by obtain ⟨d, _, rfl⟩ := hpop t ht; rfl)
  have hcount : l.countP (fun t => first t != '(')
      = (l.takeWhile p).length + (l.dropWhile p).countP (fun t => first t != '(') := by
    have h1 : (l.takeWhile p).countP (fun t => first t != '(') = (l.takeWhile p).length := by
      rw [List.countP_eq_length]
      intro t ht
      obtain ⟨d, hd, rfl⟩ := hpop t ht
      simpa [first] using (operator_not_paren hd).1
    rw [← h1, ← List.countP_append, List.takeWhile_append_dropWhile]
  refine ⟨?_, ?_, ?_, ?_, ?_⟩
  · rw [appendAll_eq _ _ (by rw [List.length_append, hlen]; omega), spaced_append, hb]
  · intro t ht
    rcases List.mem_append.mp ht with h | h
    · exact hg t h
    · obtain ⟨d, hd, rfl⟩ := hpop t h
      exact isOutputToken_operator hd
  · have h0 : (l.takeWhile p).filter isOperandToken = [] := by
      rw [List.filter_eq_nil_iff]
      intro t ht
      obtain ⟨d, hd, rfl⟩ := hpop t ht
      simp [isOperandToken, operator_not_start hd]
    rw [List.filter_append, h0, List.append_nil]
  · intro c
    have h1 : l.count [c] = (l.takeWhile p).count [c] + (l.dropWhile p).count [c] := by
      rw [← List.count_append, List.takeWhile_append_dropWhile]
    rw [List.count_append, h1]
    omega
  · rw [spaced_append, List.length_append, ← hb, hlen]
    omega

/-- Every pass of the converter's body keeps the invariant of the tokens, for an
input whose tokens fit into the buffer. -/
theorem conv_body_passInv (s : CStr) (hfit : fitLength s < 254) (cs : CStr) :
    ∀ (st : ConvState) (cs1 : CStr) (st1 : ConvState),
    PassInv s cs st → conv_body cs st = .next cs1 st1 → PassInv s cs1 st1 := by
  induction cs with
  | nil => intro st cs1 st1 _ h; simp [conv_body_nil] at h
  | cons c cs ih =>
    intro st cs1 st1 hinv h
    by_cases hs : isspace c = true
    · rw [conv_body_space hs] at h
      exact ih st cs1 st1 (passInv_skip (space_not_start hs) (space_not_operator hs) hinv) h
    simp only [Bool.not_eq_true] at hs
    by_cases ha : (isalpha c || isdigit c) = true
    · rw [conv_body_operand ha hs] at h
      injection h with h1 h2
      subst h1
      subst h2
      obtain ⟨toks, hb, hg, hst, hops, hcnt, hroom⟩ := hinv
      rw [fitLength_start ha] at hroom
      have htl : ((c :: cs.takeWhile isOperandChar).take 31).length
          = min (c :: cs.takeWhile isOperandChar).length 31 := by
        rw [List.length_take, Nat.min_comm]
      have happ : append_postfix st.buf ((c :: cs.takeWhile isOperandChar).take 31) 255
          = st.buf ++ (c :: cs.takeWhile isOperandChar).take 31 ++ [' '] :=
        append_postfix_fits (by omega)
      refine ⟨toks ++ [(c :: cs.takeWhile isOperandChar).take 31], ?_, ?_, hst, ?_, ?_, ?_⟩
      · simp only []
        rw [happ, spaced_append, hb]
        simp [spaced]
      · intro t ht
        rcases List.mem_append.mp ht with h | h
        · exact hg t h
        · simp only [List.mem_singleton] at h
          subst h
          exact isOutputToken_run ha cs
      · have hft : List.filter isOperandToken [(c :: cs.takeWhile isOperandChar).take 31]
            = [(c :: cs.takeWhile isOperandChar).take 31] := by
          rw [List.filter_cons_of_pos (isOperandToken_run ha cs)]
          rfl
        rw [← hops, operandRuns_start ha, List.filter_append, hft]
        simp
      · intro d hd
        have h0 := hcnt d hd
        have h1 : [(c :: cs.takeWhile isOperandChar).take 31].count [d] = 0 := by
          rw [List.count_eq_zero]
          intro hm
          simp only [List.mem_singleton] at hm
          have h31 : (c :: cs.takeWhile isOperandChar).take 31 =
              c :: (cs.takeWhile isOperandChar).take 30 := rfl
          rw [h31] at hm
          injection hm with hm _
          subst hm
          rw [start_not_operator ha] at hd
          exact absurd hd (by decide)
        have h2 := count_dropWhile_operand hd cs
        have h3 := count_cons_other (start_not_operator ha) hd cs
        simp only []
        rw [List.count_append, h1, h2]
        omega
      · simp only []
        rw [happ]
        simp only [List.length_append, List.length_singleton]
        omega
    simp only [Bool.not_eq_true] at ha
    by_cases h1 : c = '('
    · subst h1
      rw [conv_body_lparen] at h
      injection h with h1 h2
      subst h1
      subst h2
      obtain ⟨toks, hb, hg, hst, hops, hcnt, hroom⟩ := passInv_skip ha (by decide) hinv
      refine ⟨toks, hb, hg, ?_, hops, ?_, ?_⟩
      · intro t ht
        simp only [push, List.take, List.mem_cons] at ht
        rcases ht with h | h
        · left; exact h
        · exact hst t h
      · intro d hd
        have h0 := hcnt d hd
        have hcd : '(' ≠ d := by
          intro e
          subst e
          exact absurd hd (by decide)
        have h4 : (push st.op_stack ['(']).top.count [d] = st.op_stack.top.count [d] := by
          simp only [push, List.take]
          rw [List.count_cons]
          simp [hcd]
        simp only []
        rw [h4]
        exact h0
      · have h4 : (push st.op_stack ['(']).top.countP (fun t => first t != '(')
            = st.op_stack.top.countP (fun t => first t != '(') := by
          simp only [push, List.take]
          rw [List.countP_cons]
          simp [first]
        simp only []
        rw [h4]
        exact hroom
    by_cases h2 : c = ')'
    · subst h2
      obtain ⟨toks, hb, hg, hst, hops, hcnt, hroom⟩ := passInv_skip ha (by decide) hinv
      rcases st with ⟨⟨l, sz⟩, buf, unk⟩
      simp only [] at hb hst hcnt hroom
      rw [conv_body_rparen] at h
      simp only [paren_loop_eq l.length l sz buf (le_refl _), peek] at h
      cases hd : l.dropWhile (fun t => first t != '(') with
      | nil => rw [hd] at h; simp at h
      | cons t l1 =>
        rw [hd] at h
        simp only [List.head?_cons] at h
        by_cases hf : first t = '('
        · rw [if_pos hf] at h
          injection h with h3 h4
          subst h3
          subst h4
          obtain ⟨e1, e2, e3, e4, e5⟩ := pass_pop hst (fun t => first t != '(')
            (by intro t ht; simpa using ht) hb hg (by omega)
          rw [hd] at e4 e5
          have hft : (first t != '(') = false := by simp [hf]
          rw [List.countP_cons, hft] at e5
          refine ⟨toks ++ l.takeWhile (fun t => first t != '('), e1, e2, ?_, ?_, ?_, ?_⟩
          · intro u hu
            simp only [pop] at hu
            have := goodStack_dropWhile hst (fun t => first t != '(')
            rw [hd] at this
            exact this u (List.mem_cons_of_mem _ hu)
          · rw [e3]; exact hops
          · intro d hdd
            have h0 := hcnt d hdd
            have h5 := e4 d
            have hne : t ≠ [d] := by
              intro e
              subst e
              simp only [first_singleton] at hf
              subst hf
              exact absurd hdd (by decide)
            rw [List.count_cons] at h5
            simp only [beq_iff_eq, hne, if_false, Nat.add_zero] at h5
            simp only [pop]
            omega
          · simp only [pop]
            rw [e1]
            simp only [Bool.false_eq_true, if_false, Nat.add_zero] at e5
            omega
        · rw [if_neg hf] at h
          simp at h
    by_cases ho : is_operator_char c = true
    · obtain ⟨toks, hb, hg, hst, hops, hcnt, hroom⟩ := hinv
      rcases st with ⟨⟨l, sz⟩, buf, unk⟩
      simp only [] at hb hst hcnt hroom
      rw [conv_body_operator ho] at h
      simp only [op_loop_eq c l.length l sz buf (le_refl _)] at h
      injection h with h3 h4
      subst h3
      subst h4
      rw [fitLength_operator ho] at hroom
      rw [operandRuns_skip (operator_not_start ho)] at hops
      obtain ⟨e1, e2, e3, e4, e5⟩ := pass_pop hst (fun t => op_cond t c)
        (by
          intro t ht
          simp only [op_cond, Bool.and_eq_true] at ht
          simpa using ht.1) hb hg (by omega)
      have hfc : (first [c] != '(') = true := by
        simpa [first] using (operator_not_paren ho).1
      refine ⟨toks ++ l.takeWhile (fun t => op_cond t c), e1, e2, ?_, ?_, ?_, ?_⟩
      · intro u hu
        simp only [push, List.take, List.mem_cons] at hu
        rcases hu with h | h
        · right; exact ⟨c, ho, h⟩
        · exact goodStack_dropWhile hst _ u h
      · rw [e3]; exact hops
      · intro d hdd
        have h0 := hcnt d hdd
        have h5 := e4 d
        simp only [push, List.take]
        rw [List.count_cons] at h0 ⊢
        by_cases hcd : c = d
        · subst hcd
          simp only [beq_self_eq_true, if_true] at h0 ⊢
          omega
        · have hne : ([c] : CStr) ≠ [d] := by
            intro e
            injection e with e _
            exact hcd e
          simp only [beq_iff_eq, hcd, hne, if_false] at h0 ⊢
          omega
      · simp only [push, List.take]
        rw [List.countP_cons, hfc, e1]
        simp only [if_true]
        omega
    · simp only [Bool.not_eq_true] at ho
      rw [conv_body_unknown hs ha h1 h2 ho] at h
      injection h with h3 h4
      subst h3
      subst h4
      exact passInv_skip ha ho hinv

/-- When the converter's body leaves the loop with a final text on an input
whose tokens fit into the buffer, the text holds the operand tokens of the
input, cut to 31 characters, and every operator character of the input once. -/
theorem conv_body_stop_pass (s : CStr) (hfit : fitLength s < 254) (cs : CStr) :
    ∀ (st : ConvState) (r : ConvResult),
    PassInv s cs st → conv_body cs st = .stop r → ∀ buf unk, r = .final buf unk →
    ∃ toks : List CStr, buf = spaced toks ∧ (∀ t ∈ toks, isOutputToken t = true) ∧
      toks.filter isOperandToken = (operandRuns s).map (List.take 31) ∧
      ∀ c, is_operator_char c = true → toks.count [c] = s.count c := by
  induction cs with
  | nil =>
    intro st r hinv h buf unk hr
    obtain ⟨toks, hb, hg, hst, hops, hcnt, hroom⟩ := hinv
    rcases st with ⟨⟨l, sz⟩, b, u⟩
    simp only [] at hb hst hcnt hroom
    rw [conv_body_nil, conv_finish_eq] at h
    injection h with h
    subst hr
    by_cases hall : (l.all fun t => first t != '(' && first t != ')') = true
    · rw [if_pos hall] at h
      injection h with h1 _
      subst h1
      simp only [List.all_eq_true, Bool.and_eq_true, bne_iff_ne, ne_eq] at hall
      have htw : l.takeWhile (fun t => first t != '(') = l := by
        rw [List.takeWhile_eq_self_iff]
        intro t ht
        simpa using (hall t ht).1
      have hdw : l.dropWhile (fun t => first t != '(') = [] := by
        rw [List.dropWhile_eq_nil_iff]
        intro t ht
        simpa using (hall t ht).1
      obtain ⟨e1, e2, e3, e4, _⟩ := pass_pop hst (fun t => first t != '(')
        (by intro t ht; simpa using ht) hb hg (by omega)
      rw [htw] at e1 e2 e3 e4
      rw [hdw] at e4
      refine ⟨toks ++ l, e1, e2, ?_, ?_⟩
      · rw [e3, ← hops]
        simp [operandRuns, runsAux]
      · intro d hd
        have h0 := hcnt d hd
        have h5 := e4 d
        simp only [List.count_nil, Nat.add_zero] at h0 h5
        omega
    · rw [if_neg hall] at h
      simp at h
  | cons c cs ih =>
    intro st r hinv h buf unk hr
    by_cases hs : isspace c = true
    · rw [conv_body_space hs] at h
      exact ih st r (passInv_skip (space_not_start hs) (space_not_operator hs) hinv) h buf unk hr
    simp only [Bool.not_eq_true] at hs
    by_cases ha : (isalpha c || isdigit c) = true
    · rw [conv_body_operand ha hs] at h; simp at h
    simp only [Bool.not_eq_true] at ha
    by_cases h1 : c = '('
    · subst h1; rw [conv_body_lparen] at h; simp at h
    by_cases h2 : c = ')'
    · subst h2
      rw [conv_body_rparen] at h
      subst hr
      split at h
      · split at h
        · simp at h
        · simp at h
      · simp at h
    by_cases ho : is_operator_char c = true
    · rw [conv_body_operator ho] at h; simp at h
    · simp only [Bool.not_eq_true] at ho
      rw [conv_body_unknown hs ha h1 h2 ho] at h; simp at h

/-- On an input whose tokens fit into the buffer, the output of a conversion
that does not fail holds the operand tokens that the scan reads, cut to 31
characters and in their order, and every operator character of the input once. -/
theorem conv_passes (s : CStr) (hfit : fitLength s < 254) (buf : CStr) (unk : List Char)
    (h : infix_to_postfix_stepwise s = some (.final buf unk)) :
    ∃ toks : List CStr, buf = spaced toks ∧ (∀ t ∈ toks, isOutputToken t = true) ∧
      toks.filter isOperandToken = (operandRuns s).map (List.take 31) ∧
      ∀ c, is_operator_char c = true → toks.count [c] = s.count c := by
  have hinit : PassInv s s ⟨init_stack, [], []⟩ := by
    refine ⟨[], rfl, ?_, ?_, ?_, ?_, ?_⟩
    · intro t ht; simp at ht
    · intro t ht; simp [init_stack] at ht
    · simp
    · intro c _; simp [init_stack]
    · simp [init_stack]
  exact scan_result_rest conv_body_shrinks (PassInv s)
    (fun r => ∀ buf unk, r = .final buf unk →
      ∃ toks : List CStr, buf = spaced toks ∧ (∀ t ∈ toks, isOutputToken t = true) ∧
        toks.filter isOperandToken = (operandRuns s).map (List.take 31) ∧
        ∀ c, is_operator_char c = true → toks.count [c] = s.count c)
    (conv_body_passInv s hfit) (conv_body_stop_pass s hfit) s.length s _ (le_refl _) hinit
    _ h buf unk rfl

theorem charRuns_some (cs : CStr) : ∀ r : CStr,
    charRuns (some r) cs
      = (r ++ cs.takeWhile isOperandChar) :: charRuns none (cs.dropWhile isOperandChar) := by
  induction cs with
  | nil => intro r; simp [charRuns]
  | cons c cs ih =>
    intro r
    by_cases h : isOperandChar c = true
    · simp [charRuns, h, ih, List.takeWhile, List.dropWhile]
    · simp [charRuns, h, List.takeWhile, List.dropWhile]

/-- When no maximal run of letters, digits and `.` starts with `.`, the operand
tokens that the scan reads are the maximal runs, and all of them start with a
letter or a digit. -/
theorem runs_agree (cs : CStr) : ∀ acc : Option CStr,
    (∀ r, acc = some r → (isalpha (first r) || isdigit (first r)) = true) →
    (∀ r ∈ charRuns acc cs, r.head? ≠ some '.') →
    runsAux acc cs = charRuns acc cs ∧
    (charRuns acc cs).filter (fun r => isalpha (first r) || isdigit (first r))
      = charRuns acc cs := by
  induction cs with
  | nil =>
    intro acc hacc _
    cases acc with
    | none => exact ⟨rfl, rfl⟩
    | some r =>
      refine ⟨rfl, ?_⟩
      have hr := hacc r rfl
      simp only [charRuns, List.filter_cons, hr, if_true, List.filter_nil]
  | cons c cs ih =>
    intro acc hacc hdot
    cases acc with
    | none =>
      by_cases hc : isOperandChar c = true
      · have hmem : ([c] ++ cs.takeWhile isOperandChar) ∈ charRuns none (c :: cs) := by
          simp [charRuns, hc, charRuns_some]
        have hne := hdot _ hmem
        have hstart : (isalpha c || isdigit c) = true := by
          simp only [isOperandChar, isalnum, Bool.or_eq_true, decide_eq_true_eq] at hc
          rcases hc with h | h
          · simpa using h
          · subst h
            exact absurd rfl hne
        have ih1 := ih (some [c])
          (by intro r hr; injection hr with hr; subst hr; exact hstart)
          (by intro r hr; apply hdot; simpa [charRuns, hc] using hr)
        simp only [runsAux, charRuns, hstart, hc, if_true]
        exact ih1
      · have hstart : (isalpha c || isdigit c) = false := by
          cases hh : (isalpha c || isdigit c) with
          | false => rfl
          | true => exact absurd (isOperandChar_of_start hh) hc
        have ih1 := ih none (by intro r hr; cases hr)
          (by intro r hr; apply hdot; simpa [charRuns, hc] using hr)
        simp only [runsAux, charRuns, hstart, hc, Bool.false_eq_true, if_false]
        exact ih1
    | some r =>
      have hr := hacc r rfl
      by_cases hc : isOperandChar c = true
      · have hfirst : first (r ++ [c]) = first r := by
          cases r with
          | nil => exact absurd hr (by decide)
          | cons a r => rfl
        have ih1 := ih (some (r ++ [c]))
          (by intro r1 hr1; injection hr1 with hr1; subst hr1; rw [hfirst]; exact hr)
          (by intro r1 hr1; apply hdot; simpa [charRuns, hc] using hr1)
        simp only [runsAux, charRuns, hc, if_true]
        exact ih1
      · have ih1 := ih none (by intro r1 hr1; cases hr1)
          (by
            intro r1 hr1
            apply hdot
            simp only [charRuns, hc, Bool.false_eq_true, if_false]
            exact List.mem_cons_of_mem _ hr1)
        simp only [runsAux, charRuns, hc, Bool.false_eq_true, if_false]
        simp only [List.filter_cons, hr, if_true]
        rw [ih1.1, ih1.2]
        exact ⟨rfl, rfl⟩

/-- C21, amended: for every input in which no maximal run of letters, digits and
`.` starts with `.`, whose tokens all fit into the output buffer (the operand
tokens cut to 31 characters and the operator characters, each with its space,
take fewer than 254 characters) and on which the conversion does not fail, the
operand tokens of the postfix output are exactly the operand tokens of the
input (the maximal runs of letters, digits and `.` that start with a letter or
a digit), cut to 31 characters, with the same multiplicity and in the same
left-to-right order, and every operator character of the input appears in the
output exactly once. -/
theorem operands_pass_to_output (s buf : CStr) (unk : List Char)
    (hconv : infix_to_postfix_stepwise s = some (.final buf unk))
    (hfit : fitLength s < 254)
    (hdot : ∀ r ∈ charRuns none s, r.head? ≠ some '.') :
    ∃ toks : List CStr, buf = spaced toks ∧ (∀ t ∈ toks, isOutputToken t = true) ∧
      toks.filter isOperandToken = (operandTokensOf s).map (List.take 31) ∧
      ∀ c, is_operator_char c = true → toks.count [c] = s.count c := by
  obtain ⟨h1, h2⟩ := runs_agree s none (by intro r hr; cases hr) hdot
  obtain ⟨toks, a, b, c, d⟩ := conv_passes s hfit buf unk hconv
  refine ⟨toks, a, b, ?_, d⟩
  rw [c]
  unfold operandTokensOf operandRuns
  rw [h1, h2]

/-- C21, witness: `a1 + b.2*(c - d)` is converted to `a1 b.2 c d - * + `, whose
operand tokens are those of the input and which holds `+`, `*` and `-` once. -/
theorem operands_pass_to_output_witness :
    infix_to_postfix_stepwise "a1 + b.2*(c - d)".toList
      = some (.final "a1 b.2 c d - * + ".toList []) ∧
    fitLength "a1 + b.2*(c - d)".toList < 254 ∧
    (∀ r ∈ charRuns none "a1 + b.2*(c - d)".toList, r.head? ≠ some '.') ∧
    operandTokensOf "a1 + b.2*(c - d)".toList = ["a1".toList, "b.2".toList, ['c'], ['d']] ∧
    ∃ toks : List CStr, "a1 b.2 c d - * + ".toList = spaced toks ∧
      (∀ t ∈ toks, isOutputToken t = true) ∧
      toks.filter isOperandToken
        = (operandTokensOf "a1 + b.2*(c - d)".toList).map (List.take 31) ∧
      ∀ c, is_operator_char c = true → toks.count [c] = "a1 + b.2*(c - d)".toList.count c :=
  ⟨by decide, by decide, by decide, by decide,
    operands_pass_to_output "a1 + b.2*(c - d)".toList "a1 b.2 c d - * + ".toList []
      (by decide) (by decide) (by decide)⟩

set_option maxRecDepth 100000 in
/-- C21, counterexample: the operand `abcdefghijklmnopqrstuvwxyz012345` of 32
characters is in the output without its last character; on `.5` the output has
the operand `5`, while the input has no operand token, its only run `.5`
starting with `.`; and of the 63 operators `+` of `a+a+...+a` with 64 operands
`a` the output holds 62, the last one finding the buffer full. -/
theorem operands_pass_to_output_counterexample :
    infix_to_postfix_stepwise "abcdefghijklmnopqrstuvwxyz012345".toList
      = some (.final "abcdefghijklmnopqrstuvwxyz01234 ".toList []) ∧
    operandTokensOf "abcdefghijklmnopqrstuvwxyz012345".toList
      = ["abcdefghijklmnopqrstuvwxyz012345".toList] ∧
    infix_to_postfix_stepwise ".5".toList = some (.final "5 ".toList ['.']) ∧
    operandTokensOf ".5".toList = [] ∧
    infix_to_postfix_stepwise ((List.replicate 63 ['a', '+']).flatten ++ ['a'])
      = some (.final
          (['a', ' '] ++ (List.replicate 62 ['a', ' ', '+', ' ']).flatten ++ ['a', ' ']) []) ∧
    ((List.replicate 63 ['a', '+']).flatten ++ ['a']).count '+' = 63 ∧
    (['a', ' '] ++ (List.replicate 62 ['a', ' ', '+', ' ']).flatten ++ ['a', ' ']).count '+'
      = 62 := by
  refine ⟨by decide, by decide, by decide, by decide, by decide, by decide, by decide⟩
end StackMachine
